import Mathlib

/-!
# CondReg: condition-number-regularised covariance estimation

A shallow embedding of the eigenvalue-shrinkage solvers of the C++ sources

* `path_forward`, `path_backward`  (`condregR/src/path_solvers.cpp`)
* `ml_solver`                      (`condreg-cpp/src/condreg.cpp`)

Doubles are modelled by `Dbl`: finite values are rationals, and `+inf`, `-inf`, `NaN`
behave as in IEEE 754.  The sign of zero is not tracked (a zero divisor counts as `+0`).
Input vectors hold finite doubles and are lists of rationals.  Loops are recursions on a
fuel counter; running out of fuel is the error `Err.fuel`, an element read outside a
vector is the error `Err.outOfRange`.

The solvers are embedded twice.  The first embedding (`path_forward`, `path_backward`,
`ml_solver`) computes with exact arithmetic on the rationals: it describes the algorithm
and carries the statements made for exact arithmetic.  The second embedding
(`F64.path_forward`, `F64.path_backward`, `F64.ml_solver`) rounds the result of every
arithmetic operation to the nearest binary64 value, as the compiled code does: it
carries the statements about the values the code returns where rounding or overflow
decides a comparison.
-/

namespace CondReg

/-! ## Doubles -/

/-- Double-precision value: a finite value (exact rational) or one of the three
IEEE special values. -/
inductive Dbl where
  | fin (q : ℚ)
  | pinf
  | ninf
  | nan
deriving DecidableEq, Repr

namespace Dbl

/-- Unary minus. -/
def neg : Dbl → Dbl
  | fin a => fin (-a)
  | pinf => ninf
  | ninf => pinf
  | nan => nan

/-- Addition; `inf + (-inf)` is `NaN`. -/
def add : Dbl → Dbl → Dbl
  | fin a, fin b => fin (a + b)
  | fin _, pinf => pinf
  | fin _, ninf => ninf
  | pinf, fin _ => pinf
  | pinf, pinf => pinf
  | ninf, fin _ => ninf
  | ninf, ninf => ninf
  | _, _ => nan

/-- Subtraction. -/
def sub (x y : Dbl) : Dbl := add x (neg y)

/-- Multiplication; `0 * inf` is `NaN`. -/
def mul : Dbl → Dbl → Dbl
  | fin a, fin b => fin (a * b)
  | fin a, pinf => if 0 < a then pinf else if a < 0 then ninf else nan
  | fin a, ninf => if 0 < a then ninf else if a < 0 then pinf else nan
  | pinf, fin b => if 0 < b then pinf else if b < 0 then ninf else nan
  | ninf, fin b => if 0 < b then ninf else if b < 0 then pinf else nan
  | pinf, pinf => pinf
  | pinf, ninf => ninf
  | ninf, pinf => ninf
  | ninf, ninf => pinf
  | _, _ => nan

/-- Division; a nonzero finite value over zero is an infinity, `0 / 0` and
`inf / inf` are `NaN`. -/
def div : Dbl → Dbl → Dbl
  | fin a, fin b =>
      if b = 0 then (if 0 < a then pinf else if a < 0 then ninf else nan)
      else fin (a / b)
  | fin _, pinf => fin 0
  | fin _, ninf => fin 0
  | pinf, fin b => if b < 0 then ninf else pinf
  | ninf, fin b => if b < 0 then pinf else ninf
  | _, _ => nan

/-- The comparison `x < y`; false as soon as one side is `NaN`. -/
def lt : Dbl → Dbl → Bool
  | fin a, fin b => decide (a < b)
  | fin _, pinf => true
  | ninf, fin _ => true
  | ninf, pinf => true
  | _, _ => false

/-- The comparison `x <= y`; false as soon as one side is `NaN`. -/
def le : Dbl → Dbl → Bool
  | fin a, fin b => decide (a ≤ b)
  | fin _, pinf => true
  | ninf, fin _ => true
  | ninf, pinf => true
  | pinf, pinf => true
  | ninf, ninf => true
  | _, _ => false

/-- The function `std::abs`. -/
def abs : Dbl → Dbl
  | fin a => fin |a|
  | pinf => pinf
  | ninf => pinf
  | nan => nan

/-- The function `std::isinf`. -/
def isinf : Dbl → Bool
  | pinf => true
  | ninf => true
  | _ => false

/-- The function `std::max(a, b)`, that is `(a < b) ? b : a`. -/
def max (a b : Dbl) : Dbl := if lt a b then b else a

/-- The function `std::min(a, b)`, that is `(b < a) ? b : a`. -/
def min (a b : Dbl) : Dbl := if lt b a then b else a

instance : Add Dbl := ⟨add⟩
instance : Sub Dbl := ⟨sub⟩
instance : Mul Dbl := ⟨mul⟩
instance : Div Dbl := ⟨div⟩

end Dbl

open Dbl

/-- Machine epsilon `std::numeric_limits<double>::epsilon()`, which is `2^-52`. -/
def eps : ℚ := 1 / 4503599627370496

/-- Ways in which a solver can fail to return a value. -/
inductive Err where
  | outOfRange
  | invalidArgument
  | fuel
deriving DecidableEq, Repr

deriving instance DecidableEq for Except

/-- Element read `L(i)`; an index outside the vector has no defined value. -/
def rd (L : List ℚ) (i : Int) : Except Err ℚ :=
  if 0 ≤ i then
    match L[i.toNat]? with
    | some x => .ok x
    | none => .error .outOfRange
  else .error .outOfRange

/-- The struct `PathResult`: the vertices of a path, component by component. -/
structure PathResult where
  k : List Dbl
  u : List Dbl
  v : List Dbl
deriving DecidableEq, Repr

/-- The loop `for (i < p) if (L_copy(i) < eps) L_copy(i) = eps`. -/
def floorEps (L : List ℚ) : List ℚ := L.map (fun x => if x < eps then eps else x)

/-- The count `(L_copy.array() < eps).count()`, taken before the flooring. -/
def numzero (L : List ℚ) : Nat := L.countP (fun x => decide (x < eps))

/-- The reduction `L_copy.mean()`: the sum of the entries over their number. -/
def mean (Lc : List ℚ) : Dbl := fin Lc.sum / fin (Lc.length : ℚ)

/-! ## Forward path -/

/-- The loop `while (alpha < p - 1 && u_cur > 1.0 / L_copy(alpha)) alpha++`. -/
def fwdStartAlpha (Lc : List ℚ) (p : Int) (u_cur : Dbl) : Nat → Int → Except Err Int
  | 0, _ => .error .fuel
  | n + 1, alpha =>
    if alpha < p - 1 then do
      let la ← rd Lc alpha
      if lt (fin 1 / fin la) u_cur then fwdStartAlpha Lc p u_cur n (alpha + 1)
      else pure alpha
    else pure alpha

/-- The loop `for (i = a; i < b; i++) s += L_copy(i)` started from `0.0`. -/
def sumRange (Lc : List ℚ) (a b : Nat) : ℚ := ((Lc.take b).drop a).sum

/-- Local variables of `path_forward` that live across iterations of its main loop. -/
structure FwdState where
  alpha : Int
  beta : Int
  slope_num : Dbl
  slope_denom : Dbl
  u_cur : Dbl
  v_cur : Dbl
  u_vec : List Dbl
  v_vec : List Dbl
  kmax_vec : List Dbl
deriving DecidableEq, Repr

/-- Body of the main loop of `path_forward`, after the two reads
`lb = L_copy(beta)` and `la = L_copy(alpha)`. -/
def fwdStep (lb la : ℚ) (s : FwdState) : FwdState :=
  let h_top := fin 1 / fin lb
  let v_left := fin 1 / fin la
  let v_new0 := h_top
  let u_new0 := s.u_cur - s.slope_denom * (v_new0 - s.v_cur) / s.slope_num
  let outside := lt u_new0 v_left
  let u_new := if outside then v_left else u_new0
  let v_new :=
    if outside then s.v_cur - s.slope_num * (u_new - s.u_cur) / s.slope_denom else v_new0
  let hitLeft := lt (abs (u_new - v_left)) (fin eps)
  let slope_num1 := if hitLeft then s.slope_num - fin la else s.slope_num
  let alpha1 := if hitLeft then s.alpha - 1 else s.alpha
  let hitTop := lt (abs (v_new - h_top)) (fin eps)
  let slope_denom1 := if hitTop then s.slope_denom - fin lb else s.slope_denom
  let beta1 := if hitTop then s.beta + 1 else s.beta
  let new_kmax := v_new / u_new
  { alpha := alpha1, beta := beta1, slope_num := slope_num1, slope_denom := slope_denom1,
    u_cur := u_new, v_cur := v_new,
    u_vec := s.u_vec ++ [u_new], v_vec := s.v_vec ++ [v_new],
    kmax_vec := s.kmax_vec ++ [new_kmax] }

/-- One pass through the body of the main loop of `path_forward`. -/
def fwdBody (Lc : List ℚ) (s : FwdState) : Except Err FwdState := do
  let lb ← rd Lc s.beta
  let la ← rd Lc s.alpha
  pure (fwdStep lb la s)

/-- The loop `while (alpha >= 0 && beta <= r - 1) { ... }` of `path_forward`. -/
def fwdLoop (Lc : List ℚ) (r : Int) : Nat → FwdState → Except Err FwdState
  | 0, _ => .error .fuel
  | n + 1, s =>
    if 0 ≤ s.alpha ∧ s.beta ≤ r - 1 then do
      let s1 ← fwdBody Lc s
      fwdLoop Lc r n s1
    else pure s

/-- State of `path_forward` on entry to its main loop, given the starting `alpha`. -/
def fwdInit (Lc : List ℚ) (u_cur : Dbl) (alpha : Int) : FwdState :=
  { alpha := alpha, beta := alpha + 1,
    slope_num := fin (sumRange Lc 0 alpha.toNat),
    slope_denom := fin (sumRange Lc (alpha + 1).toNat Lc.length),
    u_cur := u_cur, v_cur := u_cur,
    u_vec := [u_cur], v_vec := [u_cur], kmax_vec := [fin 1] }

/-- The function `path_forward`.  The mean of an empty vector has no defined value
(`Eigen` asserts a non-empty vector), which is the error `Err.outOfRange`. -/
def path_forward (L : List ℚ) : Except Err PathResult :=
  let p : Int := L.length
  let numz : Int := numzero L
  let Lc := floorEps L
  if L.length = 0 then .error Err.outOfRange
  else
    let u_cur := fin 1 / mean Lc
    let r := p - numz
    fwdStartAlpha Lc p u_cur L.length 0 >>= fun alpha =>
    fwdLoop Lc r (L.length + 1) (fwdInit Lc u_cur alpha) >>= fun s =>
    pure { k := s.kmax_vec ++ [pinf],
           u := s.u_vec ++ [s.u_vec.getLastD nan],
           v := s.v_vec ++ [pinf] }

/-! ## Backward path -/

/-- The loop
`while (u_cur < 1/L_copy(alpha) || (alpha < p-1 && u_cur > 1/L_copy(alpha+1)))`
of `path_backward`, on the triple `(alpha, slope_num, u_cur)`. -/
def bwdStartAlpha (Lc : List ℚ) (p r : Int) :
    Nat → Int × Dbl × Dbl → Except Err (Int × Dbl × Dbl)
  | 0, _ => .error .fuel
  | n + 1, (alpha, slope_num, u_cur) => do
    let la ← rd Lc alpha
    let c ← (if lt u_cur (fin 1 / fin la) then pure true
             else if alpha < p - 1 then
               rd Lc (alpha + 1) >>= fun la1 => pure (lt (fin 1 / fin la1) u_cur)
             else pure false)
    if c then
      let alpha1 := alpha + 1
      rd Lc alpha1 >>= fun la1 =>
      let slope_num1 := slope_num + fin la1
      let u1 := fin (alpha1 + 1 + p - r) / slope_num1
      bwdStartAlpha Lc p r n (alpha1, slope_num1, u1)
    else pure (alpha, slope_num, u_cur)

/-- Local variables of `path_backward` that live across iterations of its main loop. -/
structure BwdState where
  alpha : Int
  beta : Int
  slope_num : Dbl
  slope_denom : Dbl
  u_cur : Dbl
  v_cur : Dbl
  u_vec : List Dbl
  v_vec : List Dbl
  kmax_vec : List Dbl
deriving DecidableEq, Repr

/-- One pass through the body of `while (!isDone)` in `path_backward`; the Boolean
is the value of `isDone` after the pass. -/
def bwdBody (Lc : List ℚ) (p : Int) (s : BwdState) : Except Err (Bool × BwdState) := do
  let h_bottom ← (if 0 < s.beta then rd Lc (s.beta - 1) >>= fun x => pure (fin 1 / fin x)
                  else pure pinf)
  let v_right ← (if s.alpha < p - 1 then rd Lc (s.alpha + 1) >>= fun x => pure (fin 1 / fin x)
                 else pure (fin 0))
  let u_d := (s.slope_num * s.u_cur + s.slope_denom * s.v_cur) / (s.slope_num + s.slope_denom)
  let v_d := u_d
  if lt u_d v_right && lt h_bottom v_d then
    pure (true, { s with u_vec := u_d :: s.u_vec, v_vec := v_d :: s.v_vec,
                         kmax_vec := fin 1 :: s.kmax_vec })
  else
    let v_new0 := h_bottom
    let u_new0 := s.u_cur - s.slope_denom * (v_new0 - s.v_cur) / s.slope_num
    let outside := lt v_right u_new0
    let u_new := if outside then v_right else u_new0
    let v_new :=
      if outside then s.v_cur - s.slope_num * (u_new - s.u_cur) / s.slope_denom else v_new0
    let hitRight := lt (abs (u_new - v_right)) (fin eps)
    let alpha1 := if hitRight then s.alpha + 1 else s.alpha
    (if hitRight then rd Lc alpha1 >>= fun x => pure (s.slope_num + fin x)
     else pure s.slope_num) >>= fun slope_num1 =>
    let hitBottom := lt (abs (v_new - h_bottom)) (fin eps)
    let beta1 := if hitBottom then s.beta - 1 else s.beta
    (if hitBottom then rd Lc beta1 >>= fun x => pure (s.slope_denom + fin x)
     else pure s.slope_denom) >>= fun slope_denom1 =>
    let new_kmax := v_new / u_new
    pure (false, { alpha := alpha1, beta := beta1, slope_num := slope_num1,
                   slope_denom := slope_denom1, u_cur := u_new, v_cur := v_new,
                   u_vec := u_new :: s.u_vec, v_vec := v_new :: s.v_vec,
                   kmax_vec := new_kmax :: s.kmax_vec })

/-- The loop `while (!isDone)` of `path_backward`. -/
def bwdLoop (Lc : List ℚ) (p : Int) : Nat → BwdState → Except Err BwdState
  | 0, _ => .error .fuel
  | n + 1, s =>
    bwdBody Lc p s >>= fun x => if x.1 then pure x.2 else bwdLoop Lc p n x.2

/-- The function `path_backward`; `fuel` bounds the passes through `while (!isDone)`,
a loop the source does not bound. -/
def path_backward (fuel : Nat) (L : List ℚ) : Except Err PathResult :=
  let p : Int := L.length
  let numz : Int := numzero L
  let Lc := floorEps L
  let r := p - numz
  rd Lc 0 >>= fun l0 =>
  bwdStartAlpha Lc p r (L.length + 1) (0, fin l0, fin (0 + 1 + p - r) / fin l0) >>= fun x =>
  let alpha := x.1
  let slope_num := x.2.1
  let u_cur := x.2.2
  rd Lc (r - 1) >>= fun lr =>
  let v_cur := fin 1 / fin lr
  let beta := r - 1
  rd Lc beta >>= fun lb =>
  bwdLoop Lc p fuel
    { alpha := alpha, beta := beta, slope_num := slope_num, slope_denom := fin lb,
      u_cur := u_cur, v_cur := v_cur, u_vec := [u_cur, u_cur], v_vec := [v_cur, pinf],
      kmax_vec := [v_cur / u_cur, pinf] } >>= fun s =>
  pure { k := s.kmax_vec, u := s.u_vec, v := s.v_vec }

/-! ## Point solver -/

/-- The struct `MLSolverResult`: one row of `Lbar`, one `uopt` and one `intv` per target. -/
structure MLSolverResult where
  Lbar : List (List Dbl)
  uopt : List Dbl
  intv : List Int
deriving DecidableEq, Repr

/-- The scan `while (idx < path.k.size() - 1 && path.k(idx) < kval) idx++`. -/
def findIdx (pk : List Dbl) (kval : Dbl) : Nat → Nat → Nat
  | 0, idx => idx
  | n + 1, idx =>
    if idx + 1 < pk.length ∧ lt (pk.getD idx nan) kval = true then findIdx pk kval n (idx + 1)
    else idx

/-- The bound `uopt_nondegenerate(i)` that `ml_solver` reads off the path for one
non-degenerate target `kval`. -/
def interpU (path : PathResult) (kval : Dbl) : Dbl :=
  let idx := findIdx path.k kval path.k.length 0
  if idx = 0 then path.u.getD 0 nan
  else if path.k.length ≤ idx ∨ isinf (path.k.getD idx nan) = true then
    path.u.getD (idx - 1) nan
  else
    let k0 := path.k.getD (idx - 1) nan
    let k1 := path.k.getD idx nan
    let u0 := fin 1 / path.u.getD (idx - 1) nan
    let u1 := fin 1 / path.u.getD idx nan
    let t := (kval - k0) / (k1 - k0)
    fin 1 / ((fin 1 - t) * u0 + t * u1)

/-- Row of shrunken eigenvalues `1 / min(k*u, max(u, 1/L_copy(j)))`, `j < p`. -/
def clampRow (Lc : List ℚ) (kval u_val : Dbl) : List Dbl :=
  Lc.map (fun l => fin 1 / Dbl.min (kval * u_val) (Dbl.max u_val (fin 1 / fin l)))

/-- The zero-initialised result after the first loop over the targets, which fills
in the targets with `k(i) > ratio`. -/
def degeneratePass (Lc : List ℚ) (l0 lp : ℚ) (k : List ℚ) : MLSolverResult :=
  let ratio := fin l0 / fin lp
  { Lbar := k.map (fun ki => if lt ratio (fin ki) then Lc.map fin else Lc.map (fun _ => fin 0)),
    uopt := k.map (fun ki =>
      if lt ratio (fin ki) then Dbl.max (fin 1 / (fin ki * fin lp)) (fin 1 / fin l0) else fin 0),
    intv := k.map (fun ki => if lt ratio (fin ki) then 1 else 0) }

/-- The choice of the path algorithm:
`if (direction == "forward") ... else if (direction == "backward") ... else throw`. -/
def choosePath (fuel : Nat) (direction : String) (L_copy : List ℚ) : Except Err PathResult :=
  if direction = "forward" then path_forward L_copy
  else if direction = "backward" then path_backward fuel L_copy
  else .error Err.invalidArgument

/-- The targets with `k(i) <= ratio`, each with its position: the vectors
`non_degen_indices` and `kmax1` side by side. -/
def nonDegenerate (ratio : Dbl) (k : List ℚ) : List (Nat × ℚ) :=
  k.enum.filter (fun x => le (fin x.2) ratio)

/-- The two loops over the non-degenerate targets: the interpolated bounds
`uopt_nondegenerate`, then the rows written back at `non_degen_indices`. -/
def nondegeneratePass (L_copy : List ℚ) (path : PathResult) (nd : List (Nat × ℚ))
    (result : MLSolverResult) : MLSolverResult :=
  let kmax1 := nd.map (fun x => x.2)
  let non_degen_indices := nd.map (fun x => x.1)
  let uopt_nondegenerate := kmax1.map (fun kval => interpU path (fin kval))
  ((kmax1.zip uopt_nondegenerate).zip non_degen_indices).foldl
    (fun res x =>
      { Lbar := res.Lbar.set x.2 (clampRow L_copy (fin x.1.1) x.1.2),
        uopt := res.uopt.set x.2 x.1.2,
        intv := res.intv.set x.2 0 })
    result

/-- The function `ml_solver`; `fuel` is handed to `path_backward`. -/
def ml_solver (fuel : Nat) (L : List ℚ) (k : List ℚ) (direction : String) :
    Except Err MLSolverResult :=
  let p : Int := L.length
  let L_copy := floorEps L
  rd L_copy 0 >>= fun l0 =>
  rd L_copy (p - 1) >>= fun lp =>
  let ratio := fin l0 / fin lp
  let result := degeneratePass L_copy l0 lp k
  let has_nondegenerate := k.any (fun ki => le (fin ki) ratio)
  if has_nondegenerate then
    choosePath fuel direction L_copy >>= fun path =>
    pure (nondegeneratePass L_copy path (nonDegenerate ratio k) result)
  else pure result

/-! ## Vocabulary of the claims -/

/-- Largest entry of a row. -/
def maxEntry (row : List Dbl) : Dbl := row.foldl Dbl.max (row.headD nan)

/-- Smallest entry of a row. -/
def minEntry (row : List Dbl) : Dbl := row.foldl Dbl.min (row.headD nan)

/-- The spectrum of the path-solver test: `L(i) = 100 / (i + 1)` for `i < 10`. -/
def testSpectrum : List ℚ := (List.range 10).map (fun i => (100 : ℚ) / ((i : ℚ) + 1))

/-- Rank `r`: the number of entries that are at least machine epsilon. -/
def rank (L : List ℚ) : Nat := L.length - numzero L

/-- Condition number of the sample in the words of the specification,
`L'[0] / L'[r-1]` with `L'` the floored spectrum and `r` the rank. -/
def sampleCond (L : List ℚ) : ℚ :=
  (floorEps L).getD 0 0 / (floorEps L).getD (rank L - 1) 0

/-! ## Vocabulary of the proofs -/

/-- A value is a positive finite double. -/
def IsPos (x : Dbl) : Prop := ∃ q : ℚ, x = fin q ∧ 0 < q

/-- A value is a finite double. -/
def IsFin (x : Dbl) : Prop := ∃ q : ℚ, x = fin q

/-- Shape of a path on which every point lookup is well defined: finite `k` before the
closing `inf`, positive finite `u` throughout. -/
def GoodPath (path : PathResult) : Prop :=
  ∃ ks : List Dbl, path.k = ks ++ [pinf] ∧ path.u.length = ks.length + 1 ∧
    (∀ x ∈ ks, IsFin x) ∧ (∀ x ∈ path.u, IsPos x)

/-- Range of the two cursors of the forward sweep. -/
def FwdRange (p : Int) (s : FwdState) : Prop :=
  -1 ≤ s.alpha ∧ s.alpha < p ∧ 0 ≤ s.beta ∧ s.beta ≤ p

/-- Number of cursor moves left to the forward sweep. -/
def fwdMeasure (p : Int) (s : FwdState) : Nat := (s.alpha + 1 + (p - s.beta)).toNat

/-- The path vectors still start at the diagonal point `(u0, u0, 1)`. -/
def FwdHead (u0 : Dbl) (s : FwdState) : Prop :=
  ∃ kt ut vt, s.kmax_vec = fin 1 :: kt ∧ s.u_vec = u0 :: ut ∧ s.v_vec = u0 :: vt

/-- Invariant of the forward sweep when the start index is positive: the four running
values are finite, the two sums are a prefix sum less the constant `c` and a suffix
sum, and the recorded vertices are finite with positive `u`. -/
def FwdGood (Lc : List ℚ) (c : ℚ) (s : FwdState) : Prop :=
  ∃ sn sd u v : ℚ, s.slope_num = fin sn ∧ s.slope_denom = fin sd ∧ s.u_cur = fin u ∧
    s.v_cur = fin v ∧ sn + c = (Lc.take (s.alpha + 1).toNat).sum ∧
    sd = (Lc.drop s.beta.toNat).sum ∧
    (∀ x ∈ s.u_vec, IsPos x) ∧ (∀ x ∈ s.kmax_vec, IsFin x) ∧
    s.u_vec.length = s.kmax_vec.length

/-- The result of `ml_solver` for one target `ki`: the row of `Lbar`, the entry of
`uopt` and the entry of `intv` left by the two passes of the function. -/
def targetResult (Lc : List ℚ) (l0 lp : ℚ) (path : PathResult) (ki : ℚ) :
    List Dbl × Dbl × Int :=
  if le (fin ki) (fin l0 / fin lp) then
    (clampRow Lc (fin ki) (interpU path (fin ki)), interpU path (fin ki), 0)
  else if lt (fin l0 / fin lp) (fin ki) then
    (Lc.map fin, Dbl.max (fin 1 / (fin ki * fin lp)) (fin 1 / fin l0), 1)
  else (Lc.map (fun _ => fin 0), fin 0, 0)

/-- The three result vectors put together from the per-target results. -/
def targetResults (Lc : List ℚ) (l0 lp : ℚ) (path : PathResult) (k : List ℚ) :
    MLSolverResult :=
  { Lbar := k.map (fun ki => (targetResult Lc l0 lp path ki).1),
    uopt := k.map (fun ki => (targetResult Lc l0 lp path ki).2.1),
    intv := k.map (fun ki => (targetResult Lc l0 lp path ki).2.2) }

/-- Path that `path_forward` returns on the test spectrum. -/
def fwdTestPath : PathResult :=
  { k := [fin 1, fin (8431080 / 15728911), fin (21058170 / 15728911), fin (23250150 / 10856081),
          fin (33912270 / 12008887), fin (13950090 / 3945233), fin (13950090 / 2108933),
          fin (6367770 / 893101), pinf],
    u := [fin (252 / 7381), fin (1 / 25), fin (3 / 100), fin (10856081 / 465003000), fin (1 / 50),
          fin (3945233 / 232501500), fin (2108933 / 199287000), fin (1 / 100), fin (1 / 100)],
    v := [fin (252 / 7381), fin (1686216 / 78644555), fin (6317451 / 157289110), fin (1 / 20),
          fin (3391227 / 60044435), fin (3 / 50), fin (7 / 100), fin (636777 / 8931010), pinf] }

/-- Path that `path_backward` returns on the test spectrum. -/
def bwdTestPath : PathResult :=
  { k := [fin 1, fin (4620 / 3539), fin (2940 / 2131), fin (3780 / 1901), fin (3780 / 1313),
          fin (3780 / 1207), fin (2520 / 593), fin (360 / 59), fin (90 / 11), fin 10, pinf],
    u := [fin (252 / 7381), fin (3539 / 115500), fin (3 / 100), fin (1901 / 75600),
          fin (1313 / 63000), fin (1 / 50), fin (593 / 36000), fin (59 / 4500), fin (11 / 1000),
          fin (1 / 100), fin (1 / 100)],
    v := [fin (252 / 7381), fin (1 / 25), fin (441 / 10655), fin (1 / 20), fin (3 / 50),
          fin (378 / 6035), fin (7 / 100), fin (2 / 25), fin (9 / 100), fin (1 / 10), pinf] }

/-- The three path vectors have one entry per vertex, and vertices recorded plus cursor
moves left never exceed `p + 1`. -/
def FwdLen (p : Int) (s : FwdState) : Prop :=
  s.u_vec.length = s.kmax_vec.length ∧ s.v_vec.length = s.kmax_vec.length ∧
    s.kmax_vec.length + fwdMeasure p s ≤ p.toNat + 1

/-- The diagonal candidate `u_new = v_new` computed at the top of a backward pass. -/
def bwdDiag (s : BwdState) : Dbl :=
  (s.slope_num * s.u_cur + s.slope_denom * s.v_cur) / (s.slope_num + s.slope_denom)

/-- The value `u_new` of a backward pass that is not the last one. -/
def bwdUNew (hb vr : Dbl) (s : BwdState) : Dbl :=
  if lt vr (s.u_cur - s.slope_denom * (hb - s.v_cur) / s.slope_num) then vr
  else s.u_cur - s.slope_denom * (hb - s.v_cur) / s.slope_num

/-- The value `v_new` of a backward pass that is not the last one. -/
def bwdVNew (hb vr : Dbl) (s : BwdState) : Dbl :=
  if lt vr (s.u_cur - s.slope_denom * (hb - s.v_cur) / s.slope_num) then
    s.v_cur - s.slope_num * (bwdUNew hb vr s - s.u_cur) / s.slope_denom
  else hb

/-- The wall `h_bottom` seen from a backward state. -/
def bwdBottom (Lc : List ℚ) (s : BwdState) : Except Err Dbl :=
  if 0 < s.beta then rd Lc (s.beta - 1) >>= fun x => pure (fin 1 / fin x) else pure pinf

/-- The wall `v_right` seen from a backward state. -/
def bwdRight (Lc : List ℚ) (p : Int) (s : BwdState) : Except Err Dbl :=
  if s.alpha < p - 1 then rd Lc (s.alpha + 1) >>= fun x => pure (fin 1 / fin x)
  else pure (fin 0)

/-- The diagonal candidate of a backward pass whose running values are finite. -/
def qDiag (sn sd u v : ℚ) : ℚ := (sn * u + sd * v) / (sn + sd)

/-- The value `u_new` of a backward pass whose running values and walls are finite. -/
def qU (sn sd u v hb vr : ℚ) : ℚ :=
  if vr < u - sd * (hb - v) / sn then vr else u - sd * (hb - v) / sn

/-- The value `v_new` of a backward pass whose running values and walls are finite. -/
def qV (sn sd u v hb vr : ℚ) : ℚ :=
  if vr < u - sd * (hb - v) / sn then v - sn * (vr - u) / sd else hb

/-- Result of one backward pass from a state whose running values are the finite
`sn`, `sd`, `u`, `v` and whose two walls are `1/lb` and `1/la`. -/
def bwdNext (sn sd u v lb la : ℚ) (s : BwdState) : Bool × BwdState :=
  if qDiag sn sd u v < 1 / la ∧ 1 / lb < qDiag sn sd u v then
    (true, { s with u_vec := fin (qDiag sn sd u v) :: s.u_vec,
                    v_vec := fin (qDiag sn sd u v) :: s.v_vec,
                    kmax_vec := fin 1 :: s.kmax_vec })
  else
    (false,
      { alpha := if |qU sn sd u v (1 / lb) (1 / la) - 1 / la| < eps then s.alpha + 1
                 else s.alpha,
        beta := if |qV sn sd u v (1 / lb) (1 / la) - 1 / lb| < eps then s.beta - 1 else s.beta,
        slope_num := fin (if |qU sn sd u v (1 / lb) (1 / la) - 1 / la| < eps then sn + la
                          else sn),
        slope_denom := fin (if |qV sn sd u v (1 / lb) (1 / la) - 1 / lb| < eps then sd + lb
                            else sd),
        u_cur := fin (qU sn sd u v (1 / lb) (1 / la)),
        v_cur := fin (qV sn sd u v (1 / lb) (1 / la)),
        u_vec := fin (qU sn sd u v (1 / lb) (1 / la)) :: s.u_vec,
        v_vec := fin (qV sn sd u v (1 / lb) (1 / la)) :: s.v_vec,
        kmax_vec := (fin (qV sn sd u v (1 / lb) (1 / la)) / fin (qU sn sd u v (1 / lb) (1 / la)))
          :: s.kmax_vec })

/-- Invariant of the backward sweep behind the ascending `k`: the running values are
finite and positive, the current point is on or above the diagonal and inside the two
walls, and the recorded `k` ascend from the current point `v/u`. -/
def BwdMono (Lc : List ℚ) (s : BwdState) : Prop :=
  ∃ sn sd u v : ℚ, s.slope_num = fin sn ∧ s.slope_denom = fin sd ∧ s.u_cur = fin u ∧
    s.v_cur = fin v ∧ 0 < sn ∧ 0 < sd ∧ 0 < u ∧ u ≤ v ∧ 0 ≤ s.alpha ∧ s.beta < Lc.length ∧
    (∀ x, rd Lc (s.alpha + 1) = .ok x → u ≤ 1 / x) ∧
    (∀ x, rd Lc (s.beta - 1) = .ok x → 1 / x ≤ v) ∧
    ∃ kt, s.kmax_vec = fin (v / u) :: kt ∧
      List.Chain' (fun a b => le a b = true) s.kmax_vec

/-! ## Vocabulary of the claims: exact touch tests of the backward sweep -/

/-- State of `path_backward` on entry to `while (!isDone)`. -/
def bwdInit (L : List ℚ) : Except Err BwdState :=
  let p : Int := L.length
  let numz : Int := numzero L
  let Lc := floorEps L
  let r := p - numz
  rd Lc 0 >>= fun l0 =>
  bwdStartAlpha Lc p r (L.length + 1) (0, fin l0, fin (0 + 1 + p - r) / fin l0) >>= fun x =>
  rd Lc (r - 1) >>= fun lr =>
  rd Lc (r - 1) >>= fun lb =>
  pure { alpha := x.1, beta := r - 1, slope_num := x.2.1, slope_denom := fin lb,
         u_cur := x.2.2, v_cur := fin 1 / fin lr, u_vec := [x.2.2, x.2.2],
         v_vec := [fin 1 / fin lr, pinf], kmax_vec := [fin 1 / fin lr / x.2.2, pinf] }

/-- The touch test of one backward pass is exact: an index moves only when the new
point lies on the wall itself, not merely within machine epsilon of it. -/
def bwdTouch (Lc : List ℚ) (p : Int) (s : BwdState) : Bool :=
  match bwdBottom Lc s, bwdRight Lc p s with
  | .ok hb, .ok vr =>
    (!(lt (abs (bwdUNew hb vr s - vr)) (fin eps)) || decide (bwdUNew hb vr s = vr)) &&
    (!(lt (abs (bwdVNew hb vr s - hb)) (fin eps)) || decide (bwdVNew hb vr s = hb))
  | _, _ => true

/-- The touch tests of the first `n` passes of the backward loop from `s` are exact. -/
def bwdExact (Lc : List ℚ) (p : Int) : Nat → BwdState → Bool
  | 0, _ => true
  | n + 1, s =>
    match bwdBody Lc p s with
    | .ok (false, s1) => bwdTouch Lc p s && bwdExact Lc p n s1
    | _ => true

/-- The touch tests of the first `fuel` passes of `path_backward` on `L` are exact. -/
def bwdExactRun (fuel : Nat) (L : List ℚ) : Bool :=
  match bwdInit L with
  | .ok s0 => bwdExact (floorEps L) L.length fuel s0
  | .error _ => true

/-! ## Vocabulary of the proofs: the exact backward sweep -/

/-- Invariant of a backward sweep with exact touch tests: the cursors are in range, the
two sums are the prefix sum up to `alpha` and the suffix sum from `beta`, the current
point lies on the line `slope_num * u + slope_denom * v = (alpha + 1) + (p - beta)`,
on or above the diagonal and inside the rectangle of the four walls. -/
def BwdSweep (Lc : List ℚ) (s : BwdState) : Prop :=
  ∃ sn sd u v : ℚ, s.slope_num = fin sn ∧ s.slope_denom = fin sd ∧ s.u_cur = fin u ∧
    s.v_cur = fin v ∧
    (0 ≤ s.alpha ∧ s.alpha ≤ (Lc.length : Int) - 2 ∧ 1 ≤ s.beta ∧
      s.beta ≤ (Lc.length : Int) - 1 ∧ s.alpha ≤ s.beta) ∧
    sn = (Lc.take (s.alpha + 1).toNat).sum ∧ sd = (Lc.drop s.beta.toNat).sum ∧
    sn * u + sd * v = ((s.alpha + 1 + ((Lc.length : Int) - s.beta) : Int) : ℚ) ∧
    0 < sn ∧ 0 < sd ∧ 0 < u ∧ u ≤ v ∧
    (∀ x, rd Lc s.alpha = .ok x → 1 / x ≤ u) ∧
    (∀ x, rd Lc (s.alpha + 1) = .ok x → u < 1 / x) ∧
    (∀ x, rd Lc (s.beta - 1) = .ok x → 1 / x < v) ∧
    (∀ x, rd Lc s.beta = .ok x → v ≤ 1 / x)

/-! ## Vocabulary of the claims: the states of the forward sweep -/

/-- State of `path_forward` on entry to its main loop. -/
def fwdStart (L : List ℚ) : Except Err FwdState :=
  if L.length = 0 then .error Err.outOfRange
  else
    fwdStartAlpha (floorEps L) L.length (fin 1 / mean (floorEps L)) L.length 0 >>= fun alpha =>
    pure (fwdInit (floorEps L) (fin 1 / mean (floorEps L)) alpha)

/-- The states of the main loop of `path_forward` from `s`, in order: the state at the
start of each iteration, closed by the state on which the loop stops. -/
def fwdStates (Lc : List ℚ) (r : Int) : Nat → FwdState → List FwdState
  | 0, s => [s]
  | n + 1, s =>
    if 0 ≤ s.alpha ∧ s.beta ≤ r - 1 then
      match fwdBody Lc s with
      | .ok s1 => s :: fwdStates Lc r n s1
      | .error _ => [s]
    else [s]

/-- The states that `path_forward(L)` goes through in its main loop. -/
def forwardStates (L : List ℚ) : List FwdState :=
  match fwdStart L with
  | .ok s0 =>
    fwdStates (floorEps L) ((L.length : Int) - (numzero L : Int)) (L.length + 1) s0
  | .error _ => []

/-! ## The penalty grid -/

/-- The vector `Eigen::VectorXd::LinSpaced(size, low, high)`: `size` equally spaced
values from `low` to `high`, the last one being `high` itself (for `size = 1` the
single value `high`). -/
def linSpaced (size : Nat) (low high : ℚ) : List ℚ :=
  (List.range size).map (fun i =>
    if i + 1 = size then high else low + (i : ℚ) * ((high - low) / ((size : ℚ) - 1)))

/-- The function `kgrid`: the inverses of the equally spaced points, shifted by their
minimum, scaled by the maximum of the shifted values, then mapped to
`y * (gridmax - 1) + 1`. -/
def kgrid (gridmax : ℚ) (numpts : Nat) : List Dbl :=
  let x := linSpaced numpts 1 gridmax
  let y := x.map (fun xi => fin 1 / fin xi)
  let min_y := minEntry y
  let y1 := y.map (fun yi => yi - min_y)
  let max_y := maxEntry y1
  let y2 := y1.map (fun yi => yi / max_y)
  y2.map (fun yi => yi * fin (gridmax - 1) + fin 1)

/-! ## Vocabulary of the claims: the corner at which the backward sweep starts -/

/-- Position of the leading binary digit of `n`: the largest `e` with `2^e ≤ n`
(and `0` for `n = 0`); the first argument bounds the recursion. -/
def ilog2 : Nat → Nat → Nat
  | 0, _ => 0
  | fuel + 1, n => if n < 2 then 0 else ilog2 fuel (n / 2) + 1

/-- Nearest double to the positive magnitude `n / d`, ties to even, the exponent not
bounded above: with `e = floor (log2 (n / d))` the result is a multiple of
`2 ^ (max e (-1022) - 52)`. -/
def roundMag (n d : Nat) : ℚ :=
  let e0 : Int := (ilog2 n n : Int) - (ilog2 d d : Int)
  let below : Bool :=
    if 0 ≤ e0 then decide (n < d * 2 ^ e0.toNat) else decide (n * 2 ^ (-e0).toNat < d)
  let e : Int := if below then e0 - 1 else e0
  let qe : Int := Max.max e (-1022) - 52
  let N : Nat := if 0 ≤ qe then n else n * 2 ^ (-qe).toNat
  let D : Nat := if 0 ≤ qe then d * 2 ^ qe.toNat else d
  let f := N / D
  let r := N % D
  let m : Nat :=
    if 2 * r < D then f else if D < 2 * r then f + 1 else if f % 2 = 0 then f else f + 1
  if 0 ≤ qe then ((m * 2 ^ qe.toNat : Nat) : ℚ) else (m : ℚ) / ((2 ^ (-qe).toNat : Nat) : ℚ)

/-- Nearest double to a rational, the exponent not bounded above. -/
def roundQ (q : ℚ) : ℚ :=
  if q = 0 then 0
  else if 0 < q then roundMag q.num.natAbs q.den
  else - roundMag q.num.natAbs q.den

/-- Rounding of an exactly computed result to binary64: a magnitude of at least
`2^1024 - 2^970` (the largest double plus half a unit in its last place) becomes an
infinity. -/
def Dbl.round : Dbl → Dbl
  | fin q =>
    if (2 : ℚ) ^ 1024 - 2 ^ 970 ≤ |q| then (if 0 < q then pinf else ninf) else fin (roundQ q)
  | x => x

/-- Double-precision addition. -/
def Dbl.add64 (x y : Dbl) : Dbl := Dbl.round (x + y)

/-- Double-precision subtraction. -/
def Dbl.sub64 (x y : Dbl) : Dbl := Dbl.round (x - y)

/-- Double-precision multiplication. -/
def Dbl.mul64 (x y : Dbl) : Dbl := Dbl.round (x * y)

/-- Double-precision division. -/
def Dbl.div64 (x y : Dbl) : Dbl := Dbl.round (x / y)

/-- A rational that is a double: rounding leaves it unchanged. -/
def IsDouble (q : ℚ) : Prop := Dbl.round (fin q) = fin q

instance (q : ℚ) : Decidable (IsDouble q) := by
  unfold IsDouble
  infer_instance

/-! ## The solvers in double precision

The functions of the source once more, statement by statement as above, with every
arithmetic operation rounded.  Vectors of doubles are lists of rationals whose entries
are doubles. -/

namespace F64

/-- The reduction `L_copy.mean()` in double precision: the sum of the entries, accumulated
in index order, over their number.  The order in which the library adds the entries is
its own; for one or two entries every order gives the same double. -/
def mean (Lc : List ℚ) : Dbl :=
  div64 (Lc.foldl (fun s x => add64 s (fin x)) (fin 0)) (fin (Lc.length : ℚ))

/-- The loop `while (alpha < p - 1 && u_cur > 1.0 / L_copy(alpha)) alpha++`. -/
def fwdStartAlpha (Lc : List ℚ) (p : Int) (u_cur : Dbl) : Nat → Int → Except Err Int
  | 0, _ => .error .fuel
  | n + 1, alpha =>
    if alpha < p - 1 then do
      let la ← rd Lc alpha
      if lt (div64 (fin 1) (fin la)) u_cur then fwdStartAlpha Lc p u_cur n (alpha + 1)
      else pure alpha
    else pure alpha

/-- The loop `for (i = a; i < b; i++) s += L_copy(i)` started from `0.0`. -/
def sumRange (Lc : List ℚ) (a b : Nat) : Dbl :=
  ((Lc.take b).drop a).foldl (fun s x => add64 s (fin x)) (fin 0)

/-- Body of the main loop of `path_forward`, after the two reads
`lb = L_copy(beta)` and `la = L_copy(alpha)`. -/
def fwdStep (lb la : ℚ) (s : FwdState) : FwdState :=
  let h_top := div64 (fin 1) (fin lb)
  let v_left := div64 (fin 1) (fin la)
  let v_new0 := h_top
  let u_new0 := sub64 s.u_cur (div64 (mul64 s.slope_denom (sub64 v_new0 s.v_cur)) s.slope_num)
  let outside := lt u_new0 v_left
  let u_new := if outside then v_left else u_new0
  let v_new :=
    if outside then
      sub64 s.v_cur (div64 (mul64 s.slope_num (sub64 u_new s.u_cur)) s.slope_denom)
    else v_new0
  let hitLeft := lt (abs (sub64 u_new v_left)) (fin eps)
  let slope_num1 := if hitLeft then sub64 s.slope_num (fin la) else s.slope_num
  let alpha1 := if hitLeft then s.alpha - 1 else s.alpha
  let hitTop := lt (abs (sub64 v_new h_top)) (fin eps)
  let slope_denom1 := if hitTop then sub64 s.slope_denom (fin lb) else s.slope_denom
  let beta1 := if hitTop then s.beta + 1 else s.beta
  let new_kmax := div64 v_new u_new
  { alpha := alpha1, beta := beta1, slope_num := slope_num1, slope_denom := slope_denom1,
    u_cur := u_new, v_cur := v_new,
    u_vec := s.u_vec ++ [u_new], v_vec := s.v_vec ++ [v_new],
    kmax_vec := s.kmax_vec ++ [new_kmax] }

/-- One pass through the body of the main loop of `path_forward`. -/
def fwdBody (Lc : List ℚ) (s : FwdState) : Except Err FwdState := do
  let lb ← rd Lc s.beta
  let la ← rd Lc s.alpha
  pure (fwdStep lb la s)

/-- The loop `while (alpha >= 0 && beta <= r - 1) { ... }` of `path_forward`. -/
def fwdLoop (Lc : List ℚ) (r : Int) : Nat → FwdState → Except Err FwdState
  | 0, _ => .error .fuel
  | n + 1, s =>
    if 0 ≤ s.alpha ∧ s.beta ≤ r - 1 then do
      let s1 ← fwdBody Lc s
      fwdLoop Lc r n s1
    else pure s

/-- State of `path_forward` on entry to its main loop, given the starting `alpha`. -/
def fwdInit (Lc : List ℚ) (u_cur : Dbl) (alpha : Int) : FwdState :=
  { alpha := alpha, beta := alpha + 1,
    slope_num := sumRange Lc 0 alpha.toNat,
    slope_denom := sumRange Lc (alpha + 1).toNat Lc.length,
    u_cur := u_cur, v_cur := u_cur,
    u_vec := [u_cur], v_vec := [u_cur], kmax_vec := [fin 1] }

/-- State of `path_forward` on entry to its main loop. -/
def fwdStart (L : List ℚ) : Except Err FwdState :=
  if L.length = 0 then .error Err.outOfRange
  else
    fwdStartAlpha (floorEps L) L.length (div64 (fin 1) (mean (floorEps L))) L.length 0 >>=
      fun alpha =>
    pure (fwdInit (floorEps L) (div64 (fin 1) (mean (floorEps L))) alpha)

/-- The function `path_forward` in double precision. -/
def path_forward (L : List ℚ) : Except Err PathResult :=
  let p : Int := L.length
  let numz : Int := numzero L
  let Lc := floorEps L
  if L.length = 0 then .error Err.outOfRange
  else
    let u_cur := div64 (fin 1) (mean Lc)
    let r := p - numz
    fwdStartAlpha Lc p u_cur L.length 0 >>= fun alpha =>
    fwdLoop Lc r (L.length + 1) (fwdInit Lc u_cur alpha) >>= fun s =>
    pure { k := s.kmax_vec ++ [pinf],
           u := s.u_vec ++ [s.u_vec.getLastD nan],
           v := s.v_vec ++ [pinf] }

/-- The loop
`while (u_cur < 1/L_copy(alpha) || (alpha < p-1 && u_cur > 1/L_copy(alpha+1)))`
of `path_backward`, on the triple `(alpha, slope_num, u_cur)`. -/
def bwdStartAlpha (Lc : List ℚ) (p r : Int) :
    Nat → Int × Dbl × Dbl → Except Err (Int × Dbl × Dbl)
  | 0, _ => .error .fuel
  | n + 1, (alpha, slope_num, u_cur) => do
    let la ← rd Lc alpha
    let c ← (if lt u_cur (div64 (fin 1) (fin la)) then pure true
             else if alpha < p - 1 then
               rd Lc (alpha + 1) >>= fun la1 => pure (lt (div64 (fin 1) (fin la1)) u_cur)
             else pure false)
    if c then
      let alpha1 := alpha + 1
      rd Lc alpha1 >>= fun la1 =>
      let slope_num1 := add64 slope_num (fin la1)
      let u1 := div64 (fin (alpha1 + 1 + p - r)) slope_num1
      bwdStartAlpha Lc p r n (alpha1, slope_num1, u1)
    else pure (alpha, slope_num, u_cur)

/-- One pass through the body of `while (!isDone)` in `path_backward`; the Boolean
is the value of `isDone` after the pass. -/
def bwdBody (Lc : List ℚ) (p : Int) (s : BwdState) : Except Err (Bool × BwdState) := do
  let h_bottom ← (if 0 < s.beta then rd Lc (s.beta - 1) >>= fun x => pure (div64 (fin 1) (fin x))
                  else pure pinf)
  let v_right ← (if s.alpha < p - 1 then
                   rd Lc (s.alpha + 1) >>= fun x => pure (div64 (fin 1) (fin x))
                 else pure (fin 0))
  let u_d := div64 (add64 (mul64 s.slope_num s.u_cur) (mul64 s.slope_denom s.v_cur))
    (add64 s.slope_num s.slope_denom)
  let v_d := u_d
  if lt u_d v_right && lt h_bottom v_d then
    pure (true, { s with u_vec := u_d :: s.u_vec, v_vec := v_d :: s.v_vec,
                         kmax_vec := fin 1 :: s.kmax_vec })
  else
    let v_new0 := h_bottom
    let u_new0 := sub64 s.u_cur (div64 (mul64 s.slope_denom (sub64 v_new0 s.v_cur)) s.slope_num)
    let outside := lt v_right u_new0
    let u_new := if outside then v_right else u_new0
    let v_new :=
      if outside then
        sub64 s.v_cur (div64 (mul64 s.slope_num (sub64 u_new s.u_cur)) s.slope_denom)
      else v_new0
    let hitRight := lt (abs (sub64 u_new v_right)) (fin eps)
    let alpha1 := if hitRight then s.alpha + 1 else s.alpha
    (if hitRight then rd Lc alpha1 >>= fun x => pure (add64 s.slope_num (fin x))
     else pure s.slope_num) >>= fun slope_num1 =>
    let hitBottom := lt (abs (sub64 v_new h_bottom)) (fin eps)
    let beta1 := if hitBottom then s.beta - 1 else s.beta
    (if hitBottom then rd Lc beta1 >>= fun x => pure (add64 s.slope_denom (fin x))
     else pure s.slope_denom) >>= fun slope_denom1 =>
    let new_kmax := div64 v_new u_new
    pure (false, { alpha := alpha1, beta := beta1, slope_num := slope_num1,
                   slope_denom := slope_denom1, u_cur := u_new, v_cur := v_new,
                   u_vec := u_new :: s.u_vec, v_vec := v_new :: s.v_vec,
                   kmax_vec := new_kmax :: s.kmax_vec })

/-- The loop `while (!isDone)` of `path_backward`. -/
def bwdLoop (Lc : List ℚ) (p : Int) : Nat → BwdState → Except Err BwdState
  | 0, _ => .error .fuel
  | n + 1, s =>
    bwdBody Lc p s >>= fun x => if x.1 then pure x.2 else bwdLoop Lc p n x.2

/-- State of `path_backward` on entry to `while (!isDone)`. -/
def bwdInit (L : List ℚ) : Except Err BwdState :=
  let p : Int := L.length
  let numz : Int := numzero L
  let Lc := floorEps L
  let r := p - numz
  rd Lc 0 >>= fun l0 =>
  bwdStartAlpha Lc p r (L.length + 1) (0, fin l0, div64 (fin (0 + 1 + p - r)) (fin l0)) >>=
    fun x =>
  rd Lc (r - 1) >>= fun lr =>
  rd Lc (r - 1) >>= fun lb =>
  pure { alpha := x.1, beta := r - 1, slope_num := x.2.1, slope_denom := fin lb,
         u_cur := x.2.2, v_cur := div64 (fin 1) (fin lr), u_vec := [x.2.2, x.2.2],
         v_vec := [div64 (fin 1) (fin lr), pinf],
         kmax_vec := [div64 (div64 (fin 1) (fin lr)) x.2.2, pinf] }

/-- The function `path_backward` in double precision; `fuel` bounds the passes through
`while (!isDone)`, a loop the source does not bound. -/
def path_backward (fuel : Nat) (L : List ℚ) : Except Err PathResult :=
  bwdInit L >>= fun s0 =>
  bwdLoop (floorEps L) L.length fuel s0 >>= fun s =>
  pure { k := s.kmax_vec, u := s.u_vec, v := s.v_vec }

/-- The bound `uopt_nondegenerate(i)` that `ml_solver` reads off the path for one
non-degenerate target `kval`. -/
def interpU (path : PathResult) (kval : Dbl) : Dbl :=
  let idx := findIdx path.k kval path.k.length 0
  if idx = 0 then path.u.getD 0 nan
  else if path.k.length ≤ idx ∨ isinf (path.k.getD idx nan) = true then
    path.u.getD (idx - 1) nan
  else
    let k0 := path.k.getD (idx - 1) nan
    let k1 := path.k.getD idx nan
    let u0 := div64 (fin 1) (path.u.getD (idx - 1) nan)
    let u1 := div64 (fin 1) (path.u.getD idx nan)
    let t := div64 (sub64 kval k0) (sub64 k1 k0)
    div64 (fin 1) (add64 (mul64 (sub64 (fin 1) t) u0) (mul64 t u1))

/-- Row of shrunken eigenvalues `1 / min(k*u, max(u, 1/L_copy(j)))`, `j < p`. -/
def clampRow (Lc : List ℚ) (kval u_val : Dbl) : List Dbl :=
  Lc.map (fun l =>
    div64 (fin 1) (Dbl.min (mul64 kval u_val) (Dbl.max u_val (div64 (fin 1) (fin l)))))

/-- The zero-initialised result after the first loop over the targets, which fills
in the targets with `k(i) > ratio`. -/
def degeneratePass (Lc : List ℚ) (ratio : Dbl) (l0 lp : ℚ) (k : List ℚ) : MLSolverResult :=
  { Lbar := k.map (fun ki => if lt ratio (fin ki) then Lc.map fin else Lc.map (fun _ => fin 0)),
    uopt := k.map (fun ki =>
      if lt ratio (fin ki) then
        Dbl.max (div64 (fin 1) (mul64 (fin ki) (fin lp))) (div64 (fin 1) (fin l0))
      else fin 0),
    intv := k.map (fun ki => if lt ratio (fin ki) then 1 else 0) }

/-- The choice of the path algorithm:
`if (direction == "forward") ... else if (direction == "backward") ... else throw`. -/
def choosePath (fuel : Nat) (direction : String) (L_copy : List ℚ) : Except Err PathResult :=
  if direction = "forward" then path_forward L_copy
  else if direction = "backward" then path_backward fuel L_copy
  else .error Err.invalidArgument

/-- The two loops over the non-degenerate targets: the interpolated bounds
`uopt_nondegenerate`, then the rows written back at `non_degen_indices`. -/
def nondegeneratePass (L_copy : List ℚ) (path : PathResult) (nd : List (Nat × ℚ))
    (result : MLSolverResult) : MLSolverResult :=
  let kmax1 := nd.map (fun x => x.2)
  let non_degen_indices := nd.map (fun x => x.1)
  let uopt_nondegenerate := kmax1.map (fun kval => interpU path (fin kval))
  ((kmax1.zip uopt_nondegenerate).zip non_degen_indices).foldl
    (fun res x =>
      { Lbar := res.Lbar.set x.2 (clampRow L_copy (fin x.1.1) x.1.2),
        uopt := res.uopt.set x.2 x.1.2,
        intv := res.intv.set x.2 0 })
    result

/-- The function `ml_solver` in double precision; `fuel` is handed to `path_backward`. -/
def ml_solver (fuel : Nat) (L : List ℚ) (k : List ℚ) (direction : String) :
    Except Err MLSolverResult :=
  let p : Int := L.length
  let L_copy := floorEps L
  rd L_copy 0 >>= fun l0 =>
  rd L_copy (p - 1) >>= fun lp =>
  let ratio := div64 (fin l0) (fin lp)
  let result := degeneratePass L_copy ratio l0 lp k
  let has_nondegenerate := k.any (fun ki => le (fin ki) ratio)
  if has_nondegenerate then
    choosePath fuel direction L_copy >>= fun path =>
    pure (nondegeneratePass L_copy path (nonDegenerate ratio k) result)
  else pure result

end F64

/-! ## Lemmas -/

/-! ### Results and arithmetic on finite doubles -/

theorem except_bind_eq_ok {ε α β : Type} (x : Except ε α) (f : α → Except ε β) (b : β) :
    (x >>= f) = .ok b ↔ ∃ a, x = .ok a ∧ f a = .ok b := by
  cases x <;> simp [bind, Except.bind]

@[simp] theorem fin_add (a b : ℚ) : fin a + fin b = fin (a + b) := rfl
@[simp] theorem fin_sub (a b : ℚ) : fin a - fin b = fin (a - b) := by
  show Dbl.add (fin a) (Dbl.neg (fin b)) = _
  simp [Dbl.add, Dbl.neg, sub_eq_add_neg]
@[simp] theorem fin_mul (a b : ℚ) : fin a * fin b = fin (a * b) := rfl
theorem fin_div (a b : ℚ) (hb : b ≠ 0) : fin a / fin b = fin (a / b) := by
  show Dbl.div (fin a) (fin b) = _
  simp [Dbl.div, hb]
@[simp] theorem lt_fin (a b : ℚ) : lt (fin a) (fin b) = decide (a < b) := rfl
@[simp] theorem le_fin (a b : ℚ) : le (fin a) (fin b) = decide (a ≤ b) := rfl
@[simp] theorem abs_fin (a : ℚ) : Dbl.abs (fin a) = fin |a| := rfl
theorem eps_pos : 0 < eps := by unfold eps; norm_num

theorem rd_ok_iff (L : List ℚ) (i : Int) (x : ℚ) :
    rd L i = .ok x ↔ 0 ≤ i ∧ L[i.toNat]? = some x := by
  unfold rd
  constructor
  · intro h
    split at h
    · rename_i hi
      split at h
      · rename_i y hy; cases h; exact ⟨hi, hy⟩
      · cases h
    · cases h
  · rintro ⟨hi, hx⟩
    simp [hi, hx]

theorem rd_ok_mem (L : List ℚ) (i : Int) (x : ℚ) (h : rd L i = .ok x) : x ∈ L :=
  List.getElem?_mem ((rd_ok_iff L i x).mp h).2

theorem rd_in_range (L : List ℚ) (i : Int) (h0 : 0 ≤ i) (h1 : i < L.length) :
    ∃ x, rd L i = .ok x := by
  have : i.toNat < L.length := by omega
  exact ⟨L[i.toNat], (rd_ok_iff L i _).mpr ⟨h0, List.getElem?_eq_getElem this⟩⟩

/-! ### The forward sweep: cursors, termination, invariants -/

theorem fwdStep_flags (lb la : ℚ) (hla : la ≠ 0) (hlb : lb ≠ 0) (s : FwdState) :
    ∃ hl ht : Bool,
      (fwdStep lb la s).alpha = (if hl = true then s.alpha - 1 else s.alpha) ∧
      (fwdStep lb la s).beta = (if ht = true then s.beta + 1 else s.beta) ∧
      (hl = true ∨ ht = true) := by
  refine ⟨_, _, rfl, rfl, ?_⟩
  simp only [fin_div _ _ hla, fin_div _ _ hlb]
  generalize s.u_cur - s.slope_denom * (fin (1 / lb) - s.v_cur) / s.slope_num = u0
  cases ho : lt u0 (fin (1 / la))
  · right; simp [eps_pos]
  · left; simp [eps_pos]

theorem fwdStep_move (lb la : ℚ) (hla : la ≠ 0) (hlb : lb ≠ 0) (s : FwdState) :
    ((fwdStep lb la s).alpha = s.alpha ∨ (fwdStep lb la s).alpha = s.alpha - 1) ∧
    ((fwdStep lb la s).beta = s.beta ∨ (fwdStep lb la s).beta = s.beta + 1) ∧
    ((fwdStep lb la s).alpha = s.alpha - 1 ∨ (fwdStep lb la s).beta = s.beta + 1) := by
  obtain ⟨hl, ht, e1, e2, e3⟩ := fwdStep_flags lb la hla hlb s
  rw [e1, e2]
  cases hl <;> cases ht <;> simp at e3 ⊢

theorem fwdStep_vecs (lb la : ℚ) (s : FwdState) :
    ∃ un vn kn, (fwdStep lb la s).u_vec = s.u_vec ++ [un] ∧
      (fwdStep lb la s).v_vec = s.v_vec ++ [vn] ∧
      (fwdStep lb la s).kmax_vec = s.kmax_vec ++ [kn] :=
  ⟨_, _, _, rfl, rfl, rfl⟩

theorem fwdBody_ok (Lc : List ℚ) (hpos : ∀ x ∈ Lc, 0 < x) (s : FwdState)
    (hr : FwdRange Lc.length s) (ha : 0 ≤ s.alpha) (hb : s.beta < Lc.length) :
    ∃ lb la, rd Lc s.beta = .ok lb ∧ rd Lc s.alpha = .ok la ∧ 0 < lb ∧ 0 < la ∧
      fwdBody Lc s = .ok (fwdStep lb la s) ∧
      FwdRange Lc.length (fwdStep lb la s) ∧
      fwdMeasure Lc.length (fwdStep lb la s) < fwdMeasure Lc.length s := by
  obtain ⟨h1, h2, h3, h4⟩ := hr
  obtain ⟨lb, hlb⟩ := rd_in_range Lc s.beta h3 hb
  obtain ⟨la, hla⟩ := rd_in_range Lc s.alpha ha h2
  have plb := hpos _ (rd_ok_mem _ _ _ hlb)
  have pla := hpos _ (rd_ok_mem _ _ _ hla)
  refine ⟨lb, la, hlb, hla, plb, pla, ?_, ?_, ?_⟩
  · unfold fwdBody
    rw [hlb, hla]
    rfl
  · obtain ⟨m1, m2, _⟩ := fwdStep_move lb la (ne_of_gt pla) (ne_of_gt plb) s
    unfold FwdRange
    omega
  · obtain ⟨m1, m2, m3⟩ := fwdStep_move lb la (ne_of_gt pla) (ne_of_gt plb) s
    unfold fwdMeasure
    omega

theorem fwdLoop_inv (Lc : List ℚ) (r : Int) (P : FwdState → Prop) (μ : FwdState → Nat)
    (hstep : ∀ s, P s → 0 ≤ s.alpha → s.beta ≤ r - 1 →
      ∃ s1, fwdBody Lc s = .ok s1 ∧ P s1 ∧ μ s1 < μ s) :
    ∀ (n : Nat) (s : FwdState), P s → μ s < n →
      ∃ s1, fwdLoop Lc r n s = .ok s1 ∧ P s1 ∧ ¬ (0 ≤ s1.alpha ∧ s1.beta ≤ r - 1) := by
  intro n
  induction n with
  | zero => intro s _ h; omega
  | succ n ih =>
    intro s hP hμ
    rw [fwdLoop]
    by_cases hc : 0 ≤ s.alpha ∧ s.beta ≤ r - 1
    · rw [if_pos hc]
      obtain ⟨s1, hb, hP1, hμ1⟩ := hstep s hP hc.1 hc.2
      obtain ⟨s2, hl, hP2, hex⟩ := ih s1 hP1 (by omega)
      refine ⟨s2, ?_, hP2, hex⟩
      rw [hb]
      exact hl
    · rw [if_neg hc]
      exact ⟨s, rfl, hP, hc⟩

theorem fwdStartAlpha_spec (Lc : List ℚ) (u : Dbl) :
    ∀ (n : Nat) (a : Int), 0 ≤ a → a < Lc.length → (Lc.length : Int) ≤ n + a →
      ∃ a1, fwdStartAlpha Lc Lc.length u n a = .ok a1 ∧ a ≤ a1 ∧ a1 < Lc.length ∧
        (a1 < (Lc.length : Int) - 1 → ∃ la, rd Lc a1 = .ok la ∧ lt (fin 1 / fin la) u = false) ∧
        (a < a1 → ∃ la, rd Lc a = .ok la ∧ lt (fin 1 / fin la) u = true) := by
  intro n
  induction n with
  | zero => intro a h0 h1 h2; omega
  | succ n ih =>
    intro a h0 h1 h2
    rw [fwdStartAlpha]
    by_cases hc : a < (Lc.length : Int) - 1
    · rw [if_pos hc]
      obtain ⟨la, hla⟩ := rd_in_range Lc a h0 h1
      have e : (rd Lc a >>= fun la =>
          if lt (fin 1 / fin la) u = true then fwdStartAlpha Lc Lc.length u n (a + 1)
          else pure a) = (if lt (fin 1 / fin la) u = true then
            fwdStartAlpha Lc Lc.length u n (a + 1) else pure a) := by
        rw [hla]; rfl
      rw [e]
      by_cases ht : lt (fin 1 / fin la) u = true
      · rw [if_pos ht]
        obtain ⟨a1, e1, e2, e3, e4, _⟩ := ih (a + 1) (by omega) (by omega) (by push_cast at h2 ⊢; omega)
        exact ⟨a1, e1, by omega, e3, e4, fun _ => ⟨la, hla, ht⟩⟩
      · rw [if_neg ht]
        refine ⟨a, rfl, le_refl _, h1, fun _ => ⟨la, hla, by simpa using ht⟩, fun h => ?_⟩
        omega
    · rw [if_neg hc]
      refine ⟨a, rfl, le_refl _, h1, fun h => absurd h hc, fun h => ?_⟩
      omega

theorem floorEps_length (L : List ℚ) : (floorEps L).length = L.length := by
  simp [floorEps]

theorem floorEps_ge (L : List ℚ) : ∀ x ∈ floorEps L, eps ≤ x := by
  intro x hx
  simp only [floorEps, List.mem_map] at hx
  obtain ⟨y, _, rfl⟩ := hx
  split
  · exact le_refl _
  · rename_i h; exact not_lt.mp h

theorem floorEps_pos (L : List ℚ) : ∀ x ∈ floorEps L, 0 < x :=
  fun x hx => lt_of_lt_of_le eps_pos (floorEps_ge L x hx)

theorem fwdHead_step (u0 : Dbl) (lb la : ℚ) (s : FwdState) (h : FwdHead u0 s) :
    FwdHead u0 (fwdStep lb la s) := by
  obtain ⟨kt, ut, vt, h1, h2, h3⟩ := h
  obtain ⟨un, vn, kn, e1, e2, e3⟩ := fwdStep_vecs lb la s
  exact ⟨kt ++ [kn], ut ++ [un], vt ++ [vn], by rw [e3, h1]; rfl, by rw [e1, h2]; rfl,
    by rw [e2, h3]; rfl⟩

theorem numzero_le (L : List ℚ) : numzero L ≤ L.length := by
  unfold numzero
  exact List.countP_le_length _

/-- The forward solver returns a path on every non-empty spectrum, and the path starts
at the diagonal point `u = v = 1 / mean`, `k = 1`. -/
theorem path_forward_total (L : List ℚ) (hne : L ≠ []) :
    ∃ path kt ut vt, path_forward L = .ok path ∧ path.k = fin 1 :: kt ∧
      path.u = (fin 1 / mean (floorEps L)) :: ut ∧
      path.v = (fin 1 / mean (floorEps L)) :: vt := by
  have hlen : L.length ≠ 0 := by
    intro h; exact hne (List.length_eq_zero.mp h)
  have hL : (floorEps L).length = L.length := floorEps_length L
  set u0 := fin 1 / mean (floorEps L) with hu0
  obtain ⟨a0, ha, ha0, ha1, _, _⟩ := fwdStartAlpha_spec (floorEps L) u0 L.length 0 (le_refl _)
    (by rw [hL]; omega) (by rw [hL]; omega)
  rw [hL] at ha ha1
  have hinit : FwdRange (floorEps L).length (fwdInit (floorEps L) u0 a0) ∧
      FwdHead u0 (fwdInit (floorEps L) u0 a0) := by
    refine ⟨?_, [], [], [], rfl, rfl, rfl⟩
    unfold FwdRange fwdInit
    simp only [hL]
    omega
  have hμ : fwdMeasure (floorEps L).length (fwdInit (floorEps L) u0 a0) < L.length + 1 := by
    unfold fwdMeasure fwdInit
    simp only [hL]
    omega
  obtain ⟨s1, hloop, ⟨_, kt, ut, vt, h1, h2, h3⟩, _⟩ :=
    fwdLoop_inv (floorEps L) ((L.length : Int) - (numzero L : Int))
      (fun s => FwdRange (floorEps L).length s ∧ FwdHead u0 s)
      (fwdMeasure (floorEps L).length)
      (by
        intro s hP hal hbe
        have hb : s.beta < ((floorEps L).length : Int) := by
          rw [hL]; have := numzero_le L; omega
        obtain ⟨lb, la, _, _, _, _, hbody, hr, hm⟩ :=
          fwdBody_ok (floorEps L) (floorEps_pos L) s hP.1 hal hb
        exact ⟨_, hbody, ⟨hr, fwdHead_step u0 lb la s hP.2⟩, hm⟩)
      (L.length + 1) _ hinit hμ
  refine ⟨{ k := s1.kmax_vec ++ [pinf], u := s1.u_vec ++ [s1.u_vec.getLastD nan],
            v := s1.v_vec ++ [pinf] },
    kt ++ [pinf], ut ++ [s1.u_vec.getLastD nan], vt ++ [pinf], ?_, ?_, ?_, ?_⟩
  · unfold path_forward
    simp only [if_neg hlen]
    rw [← hu0, ha]
    show (fwdLoop _ _ _ _ >>= _) = _
    rw [hloop]
    rfl
  · simp [h1]
  · simp [h2]
  · simp [h3]

theorem fwdStep_fin (lb la sn sd u v : ℚ) (hla : 0 < la) (hlb : 0 < lb) (hsn : sn ≠ 0)
    (hsd : sd ≠ 0) (s : FwdState) (h1 : s.slope_num = fin sn) (h2 : s.slope_denom = fin sd)
    (h3 : s.u_cur = fin u) (h4 : s.v_cur = fin v) :
    ∃ (un vn : ℚ) (hl ht : Bool), 0 < un ∧
      (fwdStep lb la s).u_cur = fin un ∧ (fwdStep lb la s).v_cur = fin vn ∧
      (fwdStep lb la s).u_vec = s.u_vec ++ [fin un] ∧
      (fwdStep lb la s).kmax_vec = s.kmax_vec ++ [fin (vn / un)] ∧
      (fwdStep lb la s).alpha = (if hl = true then s.alpha - 1 else s.alpha) ∧
      (fwdStep lb la s).slope_num = fin (if hl = true then sn - la else sn) ∧
      (fwdStep lb la s).beta = (if ht = true then s.beta + 1 else s.beta) ∧
      (fwdStep lb la s).slope_denom = fin (if ht = true then sd - lb else sd) := by
  have hla0 : la ≠ 0 := ne_of_gt hla
  have hlb0 : lb ≠ 0 := ne_of_gt hlb
  have hinv : 0 < 1 / la := by positivity
  unfold fwdStep
  simp only [h1, h2, h3, h4, fin_div _ _ hla0, fin_div _ _ hlb0, fin_sub, fin_mul,
    fin_div _ _ hsn, lt_fin]
  by_cases ho : u - sd * (1 / lb - v) / sn < 1 / la
  · simp only [ho, decide_True, if_true, fin_sub, fin_mul, fin_div _ _ hsd, abs_fin, lt_fin,
      fin_div _ _ (ne_of_gt hinv)]
    refine ⟨1 / la, v - sn * (1 / la - u) / sd, decide (|1 / la - 1 / la| < eps),
      decide (|v - sn * (1 / la - u) / sd - 1 / lb| < eps), hinv, rfl, rfl, rfl, rfl, rfl, ?_,
      rfl, ?_⟩
    · split <;> simp
    · split <;> simp
  · have hun : 0 < u - sd * (1 / lb - v) / sn := lt_of_lt_of_le hinv (not_lt.mp ho)
    simp only [ho, decide_False, Bool.false_eq_true, if_false, fin_sub, abs_fin, lt_fin,
      fin_div _ _ (ne_of_gt hun)]
    refine ⟨u - sd * (1 / lb - v) / sn, 1 / lb,
      decide (|u - sd * (1 / lb - v) / sn - 1 / la| < eps), decide (|1 / lb - 1 / lb| < eps),
      hun, rfl, rfl, rfl, rfl, rfl, ?_, rfl, ?_⟩
    · split <;> simp
    · split <;> simp

theorem take_succ_sum (Lc : List ℚ) (n : Nat) (x : ℚ) (h : Lc[n]? = some x) :
    (Lc.take (n + 1)).sum = (Lc.take n).sum + x := by
  rw [List.take_succ, h]
  simp

theorem drop_sum (Lc : List ℚ) (n : Nat) (x : ℚ) (h : Lc[n]? = some x) :
    (Lc.drop n).sum = x + (Lc.drop (n + 1)).sum := by
  obtain ⟨hn, hx⟩ := List.getElem?_eq_some.mp h
  rw [List.drop_eq_getElem_cons hn, List.sum_cons, hx]

theorem sum_nonneg_of_pos (l : List ℚ) (h : ∀ x ∈ l, 0 < x) : 0 ≤ l.sum :=
  List.sum_nonneg (fun x hx => le_of_lt (h x hx))

theorem head_le_take_sum (Lc : List ℚ) (hpos : ∀ x ∈ Lc, 0 < x) (l0 : ℚ)
    (h0 : Lc[0]? = some l0) (n : Nat) (hn : 1 ≤ n) : l0 ≤ (Lc.take n).sum := by
  cases Lc with
  | nil => simp at h0
  | cons a t =>
    simp at h0
    obtain ⟨m, rfl⟩ : ∃ m, n = m + 1 := ⟨n - 1, by omega⟩
    rw [List.take_succ_cons, List.sum_cons, h0]
    have : 0 ≤ (t.take m).sum :=
      sum_nonneg_of_pos _ (fun x hx => hpos x (List.mem_cons_of_mem _ (List.mem_of_mem_take hx)))
    linarith

theorem fwdGood_step (Lc : List ℚ) (hpos : ∀ x ∈ Lc, 0 < x) (c l0 : ℚ)
    (h0 : Lc[0]? = some l0) (hc : c < l0) (s : FwdState)
    (hr : FwdRange Lc.length s) (hg : FwdGood Lc c s) (ha : 0 ≤ s.alpha)
    (hb : s.beta < Lc.length) :
    ∃ lb la, fwdBody Lc s = .ok (fwdStep lb la s) ∧ FwdRange Lc.length (fwdStep lb la s) ∧
      FwdGood Lc c (fwdStep lb la s) ∧
      fwdMeasure Lc.length (fwdStep lb la s) < fwdMeasure Lc.length s ∧
      s.beta ≤ (fwdStep lb la s).beta := by
  obtain ⟨lb, la, hlb, hla, plb, pla, hbody, hr1, hm⟩ := fwdBody_ok Lc hpos s hr ha hb
  obtain ⟨sn, sd, u, v, e1, e2, e3, e4, hsn, hsd, hu, hk, hlen⟩ := hg
  obtain ⟨r1, r2, r3, r4⟩ := hr
  have gla := ((rd_ok_iff _ _ _).mp hla).2
  have glb := ((rd_ok_iff _ _ _).mp hlb).2
  have ta : (s.alpha + 1).toNat = s.alpha.toNat + 1 := by omega
  have tb : (s.beta + 1).toNat = s.beta.toNat + 1 := by omega
  have psn : 0 < sn := by
    have := head_le_take_sum Lc hpos l0 h0 (s.alpha + 1).toNat (by omega)
    linarith
  have psd : 0 < sd := by
    rw [hsd, drop_sum Lc _ lb glb]
    have : 0 ≤ (Lc.drop (s.beta.toNat + 1)).sum :=
      sum_nonneg_of_pos _ (fun x hx => hpos x (List.mem_of_mem_drop hx))
    linarith
  obtain ⟨un, vn, hl, ht, pun, f1, f2, f3, f4, f5, f6, f7, f8⟩ :=
    fwdStep_fin lb la sn sd u v pla plb (ne_of_gt psn) (ne_of_gt psd) s e1 e2 e3 e4
  refine ⟨lb, la, hbody, hr1, ⟨_, _, un, vn, f6, f8, f1, f2, ?_, ?_, ?_, ?_, ?_⟩, hm, ?_⟩
  · rw [f5]
    cases hl
    · simpa using hsn
    · simp only [if_true]
      have e : (s.alpha - 1 + 1).toNat = s.alpha.toNat := by omega
      rw [e]
      rw [ta, take_succ_sum Lc _ la gla] at hsn
      linarith
  · rw [f7]
    cases ht
    · simpa using hsd
    · simp only [if_true]
      rw [tb]
      rw [drop_sum Lc _ lb glb] at hsd
      linarith
  · intro x hx
    rw [f3, List.mem_append] at hx
    rcases hx with hx | hx
    · exact hu x hx
    · simp at hx; exact ⟨un, hx, pun⟩
  · intro x hx
    rw [f4, List.mem_append] at hx
    rcases hx with hx | hx
    · exact hk x hx
    · simp at hx; exact ⟨_, hx⟩
  · rw [f3, f4]; simp [hlen]
  · rw [f7]; cases ht <;> simp

theorem sum_pos_of_pos (l : List ℚ) (hne : l ≠ []) (h : ∀ x ∈ l, 0 < x) : 0 < l.sum := by
  cases l with
  | nil => exact absurd rfl hne
  | cons a t =>
    rw [List.sum_cons]
    have h1 := h a (List.mem_cons_self _ _)
    have h2 := sum_nonneg_of_pos t (fun x hx => h x (List.mem_cons_of_mem _ hx))
    linarith

theorem mean_eq (Lc : List ℚ) (hne : Lc ≠ []) :
    mean Lc = fin (Lc.sum / Lc.length) := by
  unfold mean
  have : (Lc.length : ℚ) ≠ 0 := by
    have := List.length_pos.mpr hne
    positivity
  rw [fin_div _ _ this]

theorem getLastD_mem {α : Type} (l : List α) (d : α) (h : l ≠ []) : l.getLastD d ∈ l := by
  cases l with
  | nil => exact absurd rfl h
  | cons a t =>
    rw [List.getLastD_cons]
    induction t generalizing a with
    | nil => simp
    | cons b t ih =>
      rw [List.getLastD_cons]
      exact List.mem_cons_of_mem _ (ih b (by simp))

/-- When the largest eigenvalue lies above the mean, the forward path is made of
finite vertices with positive `u`, closed by the vertex at `k = inf`. -/
theorem path_forward_good (L : List ℚ) (hne : L ≠ []) (l0 : ℚ)
    (h0 : (floorEps L)[0]? = some l0) (hbig : (floorEps L).sum / (floorEps L).length < l0) :
    ∃ path, path_forward L = .ok path ∧ GoodPath path := by
  have hlen : L.length ≠ 0 := by
    intro h; exact hne (List.length_eq_zero.mp h)
  have hL : (floorEps L).length = L.length := floorEps_length L
  have hLne : floorEps L ≠ [] := by
    intro h; rw [h] at hL; exact hlen hL.symm
  have hpos := floorEps_pos L
  set Lc := floorEps L with hLc
  set m := Lc.sum / Lc.length with hm
  have pm : 0 < m := by
    have h1 := sum_pos_of_pos Lc hLne hpos
    have h2 : (0 : ℚ) < Lc.length := by
      have := List.length_pos.mpr hLne
      positivity
    positivity
  have pl0 : 0 < l0 := hpos _ (List.getElem?_mem h0)
  have hmean : mean Lc = fin m := mean_eq Lc hLne
  have hu0 : fin 1 / mean Lc = fin (1 / m) := by rw [hmean, fin_div _ _ (ne_of_gt pm)]
  obtain ⟨a0, ha, ha0, ha1, hstop, _⟩ := fwdStartAlpha_spec Lc (fin (1 / m)) L.length 0
    (le_refl _) (by rw [hL]; omega) (by rw [hL]; omega)
  rw [hL] at ha ha1 hstop
  obtain ⟨c, hc⟩ := rd_in_range Lc a0 ha0 (by rw [hL]; exact ha1)
  have gc := ((rd_ok_iff _ _ _).mp hc).2
  have pc : 0 < c := hpos _ (rd_ok_mem _ _ _ hc)
  have hfact : a0 < (L.length : Int) - 1 → c < l0 := by
    intro h
    obtain ⟨la, hla, ht⟩ := hstop h
    rw [hc] at hla
    cases hla
    rw [fin_div _ _ (ne_of_gt pc)] at ht
    simp only [lt_fin, decide_eq_false_iff_not, not_lt] at ht
    have : c ≤ m := (one_div_le_one_div pm pc).mp ht
    linarith
  have hinit : FwdRange Lc.length (fwdInit Lc (fin (1 / m)) a0) ∧
      FwdHead (fin (1 / m)) (fwdInit Lc (fin (1 / m)) a0) ∧
      FwdGood Lc c (fwdInit Lc (fin (1 / m)) a0) ∧
      a0 + 1 ≤ (fwdInit Lc (fin (1 / m)) a0).beta := by
    refine ⟨?_, ⟨[], [], [], rfl, rfl, rfl⟩, ?_, le_refl _⟩
    · unfold FwdRange fwdInit
      simp only [hL]
      omega
    · refine ⟨_, _, 1 / m, 1 / m, rfl, rfl, rfl, rfl, ?_, ?_, ?_, ?_, rfl⟩
      · have e : (a0 + 1).toNat = a0.toNat + 1 := by omega
        show sumRange Lc 0 a0.toNat + c = (Lc.take (a0 + 1).toNat).sum
        rw [e, take_succ_sum Lc _ c gc]
        simp [sumRange]
      · show sumRange Lc (a0 + 1).toNat Lc.length = (Lc.drop (a0 + 1).toNat).sum
        simp [sumRange]
      · intro x hx
        simp [fwdInit] at hx
        exact ⟨_, hx, by positivity⟩
      · intro x hx
        simp [fwdInit] at hx
        exact ⟨_, hx⟩
  have hμ : fwdMeasure Lc.length (fwdInit Lc (fin (1 / m)) a0) < L.length + 1 := by
    unfold fwdMeasure fwdInit
    simp only [hL]
    omega
  obtain ⟨s1, hloop, ⟨_, ⟨kt, ut, vt, _, hut, _⟩, hg, _⟩, _⟩ :=
    fwdLoop_inv Lc ((L.length : Int) - (numzero L : Int))
      (fun s => FwdRange Lc.length s ∧ FwdHead (fin (1 / m)) s ∧ FwdGood Lc c s ∧
        a0 + 1 ≤ s.beta)
      (fwdMeasure Lc.length)
      (by
        intro s hP hal hbe
        have hb : s.beta < (Lc.length : Int) := by
          rw [hL]; have := numzero_le L; omega
        have hcl : c < l0 := hfact (by rw [hL] at hb; omega)
        obtain ⟨lb, la, hbody, hr, hg, hm, hbeta⟩ :=
          fwdGood_step Lc hpos c l0 h0 hcl s hP.1 hP.2.2.1 hal hb
        exact ⟨_, hbody, ⟨hr, fwdHead_step _ lb la s hP.2.1, hg, by omega⟩, hm⟩)
      (L.length + 1) _ hinit hμ
  obtain ⟨sn, sd, u, v, _, _, _, _, _, _, hu, hk, hlen2⟩ := hg
  refine ⟨{ k := s1.kmax_vec ++ [pinf], u := s1.u_vec ++ [s1.u_vec.getLastD nan],
            v := s1.v_vec ++ [pinf] }, ?_, s1.kmax_vec, rfl, ?_, hk, ?_⟩
  · unfold path_forward
    simp only [if_neg hlen]
    rw [← hLc, hu0, ha]
    show (fwdLoop _ _ _ _ >>= _) = _
    rw [hloop]
    rfl
  · simp [hlen2]
  · intro x hx
    simp only [List.mem_append, List.mem_singleton] at hx
    rcases hx with hx | hx
    · exact hu x hx
    · rw [hx]
      exact hu _ (getLastD_mem _ _ (by rw [hut]; simp))

theorem max_fin (a b : ℚ) : Dbl.max (fin a) (fin b) = fin (Max.max a b) := by
  unfold Dbl.max
  by_cases h : a < b
  · simp [h, max_eq_right (le_of_lt h)]
  · simp [h, max_eq_left (not_lt.mp h)]
theorem min_fin (a b : ℚ) : Dbl.min (fin a) (fin b) = fin (Min.min a b) := by
  unfold Dbl.min
  by_cases h : b < a
  · simp [h, min_eq_right (le_of_lt h)]
  · simp [h, min_eq_left (not_lt.mp h)]

theorem floorEps_of_ge (L : List ℚ) (h : ∀ x ∈ L, eps ≤ x) : floorEps L = L := by
  unfold floorEps
  conv_rhs => rw [← List.map_id L]
  apply List.map_congr_left
  intro x hx
  simp [not_lt.mpr (h x hx)]

theorem floorEps_idem (L : List ℚ) : floorEps (floorEps L) = floorEps L :=
  floorEps_of_ge _ (floorEps_ge L)

theorem numzero_of_ge (L : List ℚ) (h : ∀ x ∈ L, eps ≤ x) : numzero L = 0 := by
  unfold numzero
  rw [List.countP_eq_zero]
  intro x hx
  simp [not_lt.mpr (h x hx)]

/-! ### More fuel never changes a result -/

theorem bwdLoop_fuel_succ (Lc : List ℚ) (p : Int) :
    ∀ (n : Nat) (s s' : BwdState), bwdLoop Lc p n s = .ok s' → bwdLoop Lc p (n + 1) s = .ok s' := by
  intro n
  induction n with
  | zero => intro s s' h; simp [bwdLoop] at h
  | succ n ih =>
    intro s s' h
    rw [bwdLoop] at h ⊢
    rw [except_bind_eq_ok] at h ⊢
    obtain ⟨x, hb, h⟩ := h
    refine ⟨x, hb, ?_⟩
    by_cases hd : x.1 = true
    · rw [if_pos hd] at h ⊢; exact h
    · rw [if_neg hd] at h ⊢; exact ih _ _ h

theorem bwdLoop_fuel_mono (Lc : List ℚ) (p : Int) (n m : Nat) (hnm : n ≤ m) (s s' : BwdState)
    (h : bwdLoop Lc p n s = .ok s') : bwdLoop Lc p m s = .ok s' := by
  induction m, hnm using Nat.le_induction with
  | base => exact h
  | succ m _ ih => exact bwdLoop_fuel_succ Lc p m s s' ih

theorem path_backward_fuel_mono (n m : Nat) (hnm : n ≤ m) (L : List ℚ) (path : PathResult)
    (h : path_backward n L = .ok path) : path_backward m L = .ok path := by
  unfold path_backward at h ⊢
  simp only [except_bind_eq_ok] at h ⊢
  obtain ⟨l0, h0, x, hx, lr, hr, lb, hb, s, hs, hp⟩ := h
  exact ⟨l0, h0, x, hx, lr, hr, lb, hb, s, bwdLoop_fuel_mono _ _ n m hnm _ _ hs, hp⟩

theorem choosePath_fuel_mono (n m : Nat) (hnm : n ≤ m) (direction : String) (L : List ℚ)
    (path : PathResult) (h : choosePath n direction L = .ok path) :
    choosePath m direction L = .ok path := by
  unfold choosePath at h ⊢
  by_cases hf : direction = "forward"
  · rw [if_pos hf] at h ⊢; exact h
  · rw [if_neg hf] at h ⊢
    by_cases hbk : direction = "backward"
    · rw [if_pos hbk] at h ⊢
      exact path_backward_fuel_mono n m hnm _ _ h
    · rw [if_neg hbk] at h ⊢; exact h

theorem ml_solver_fuel_mono (n m : Nat) (hnm : n ≤ m) (L k : List ℚ) (direction : String)
    (res : MLSolverResult) (h : ml_solver n L k direction = .ok res) :
    ml_solver m L k direction = .ok res := by
  unfold ml_solver at h ⊢
  simp only [except_bind_eq_ok] at h ⊢
  obtain ⟨l0, h0, lp, hlp, h⟩ := h
  refine ⟨l0, h0, lp, hlp, ?_⟩
  split at h
  · rename_i hnd
    rw [if_pos hnd]
    simp only [except_bind_eq_ok] at h ⊢
    obtain ⟨path, hpath, h⟩ := h
    exact ⟨path, choosePath_fuel_mono n m hnm _ _ _ hpath, h⟩
  · rename_i hnd
    rw [if_neg hnd]
    exact h

theorem ml_solver_forward_fuel (n m : Nat) (L k : List ℚ) :
    ml_solver n L k "forward" = ml_solver m L k "forward" := by
  simp [ml_solver, choosePath]

/-! ### The two passes of the point solver, target by target -/

theorem take_succ_set {β : Type} (l : List β) (n : Nat) (x : β) (hn : n < l.length) :
    (l.set n x).take (n + 1) = l.take n ++ [x] := by
  rw [List.take_succ, List.set_take]
  have h1 : (List.take n l).set n x = List.take n l := by
    apply List.set_eq_of_length_le
    simp
  rw [h1]
  simp [hn]

theorem foldl_set_enumFrom {β : Type} (c : ℚ → Bool) (g : ℚ → β) :
    ∀ (ks : List ℚ) (n : Nat) (l : List β), l.length = n + ks.length →
      ((ks.enumFrom n).filter (fun x => c x.2)).foldl (fun l x => l.set x.1 (g x.2)) l
        = l.take n ++ List.zipWith (fun k b => if c k = true then g k else b) ks (l.drop n) := by
  intro ks
  induction ks with
  | nil =>
    intro n l hl
    simp at hl
    simp [hl]
  | cons k ks ih =>
    intro n l hl
    have hn : n < l.length := by simp at hl; omega
    have hdrop : l.drop n = l[n] :: l.drop (n + 1) := by
      rw [List.drop_eq_getElem_cons hn]
    rw [List.enumFrom_cons, hdrop, List.zipWith_cons_cons]
    by_cases hc : c k = true
    · rw [List.filter_cons_of_pos (by simpa using hc), List.foldl_cons]
      rw [ih (n + 1) (l.set n (g k)) (by simp at hl ⊢; omega)]
      simp only [hc, if_true]
      rw [take_succ_set l n (g k) hn, List.drop_set_of_lt (g k) l (Nat.lt_succ_self n)]
      simp
    · rw [List.filter_cons_of_neg (by simpa using hc)]
      rw [ih (n + 1) l (by simp at hl ⊢; omega)]
      rw [List.take_succ, List.getElem?_eq_getElem hn]
      simp only [hc, Bool.false_eq_true, if_false, Option.toList, List.append_assoc,
        List.singleton_append]

theorem zipWith_same {α β : Type} (f : α → α → β) (l : List α) :
    List.zipWith f l l = l.map (fun a => f a a) := by
  induction l with
  | nil => rfl
  | cons a t ih => simp [ih]

theorem foldl_set_enum {β : Type} (c : ℚ → Bool) (g : ℚ → β) (ks : List ℚ) (l : List β)
    (hl : l.length = ks.length) :
    ((ks.enum).filter (fun x => c x.2)).foldl (fun l x => l.set x.1 (g x.2)) l
      = List.zipWith (fun k b => if c k = true then g k else b) ks l := by
  have := foldl_set_enumFrom c g ks 0 l (by simpa using hl)
  simpa [List.enum] using this

/-- Unfolding of the second pass as one left fold over the non-degenerate targets. -/
theorem nondegeneratePass_eq (Lc : List ℚ) (path : PathResult) (nd : List (Nat × ℚ))
    (res : MLSolverResult) :
    nondegeneratePass Lc path nd res =
      nd.foldl (fun res x =>
        { Lbar := res.Lbar.set x.1 (clampRow Lc (fin x.2) (interpU path (fin x.2))),
          uopt := res.uopt.set x.1 (interpU path (fin x.2)),
          intv := res.intv.set x.1 0 }) res := by
  unfold nondegeneratePass
  have hz : ((nd.map (fun x => x.2)).zip
      ((nd.map (fun x => x.2)).map (fun kval => interpU path (fin kval)))).zip (nd.map (fun x => x.1))
      = nd.map (fun x => ((x.2, interpU path (fin x.2)), x.1)) := by
    induction nd with
    | nil => rfl
    | cons a t ih => simp only [List.map_cons, List.zip_cons_cons, ih]
  simp only [hz, List.foldl_map]

theorem foldl_pass_proj (Lc : List ℚ) (path : PathResult) (nd : List (Nat × ℚ)) :
    ∀ (res : MLSolverResult),
    nd.foldl (fun res x =>
        MLSolverResult.mk (res.Lbar.set x.1 (clampRow Lc (fin x.2) (interpU path (fin x.2))))
          (res.uopt.set x.1 (interpU path (fin x.2))) (res.intv.set x.1 0)) res =
      MLSolverResult.mk
        (nd.foldl (fun l x => l.set x.1 (clampRow Lc (fin x.2) (interpU path (fin x.2)))) res.Lbar)
        (nd.foldl (fun l x => l.set x.1 (interpU path (fin x.2))) res.uopt)
        (nd.foldl (fun l x => l.set x.1 ((fun _ => (0 : Int)) x.2)) res.intv) := by
  induction nd with
  | nil => intro res; rfl
  | cons a t ih => intro res; simp only [List.foldl_cons]; rw [ih]

theorem nondegeneratePass_degeneratePass (Lc : List ℚ) (l0 lp : ℚ) (path : PathResult)
    (k : List ℚ) :
    nondegeneratePass Lc path (nonDegenerate (fin l0 / fin lp) k) (degeneratePass Lc l0 lp k) =
      targetResults Lc l0 lp path k := by
  unfold targetResults
  rw [nondegeneratePass_eq, foldl_pass_proj]
  unfold nonDegenerate
  have h1 := foldl_set_enum (fun ki => le (fin ki) (fin l0 / fin lp))
    (fun ki => clampRow Lc (fin ki) (interpU path (fin ki))) k (degeneratePass Lc l0 lp k).Lbar
    (by simp [degeneratePass])
  have h2 := foldl_set_enum (fun ki => le (fin ki) (fin l0 / fin lp))
    (fun ki => interpU path (fin ki)) k (degeneratePass Lc l0 lp k).uopt
    (by simp [degeneratePass])
  have h3 := foldl_set_enum (fun ki => le (fin ki) (fin l0 / fin lp))
    (fun _ => (0 : Int)) k (degeneratePass Lc l0 lp k).intv
    (by simp [degeneratePass])
  rw [MLSolverResult.mk.injEq]
  refine ⟨h1.trans ?_, h2.trans ?_, h3.trans ?_⟩
  all_goals
    simp only [degeneratePass, List.zipWith_map_right, zipWith_same, targetResult]
    apply List.map_congr_left
    intro a _
    split <;> [rfl; (split <;> rfl)]

/-! ### Point lookup on a path -/

theorem findIdx_spec (pk : List Dbl) (kval : Dbl) :
    ∀ (n i : Nat), i < pk.length → pk.length ≤ n + i + 1 →
      i ≤ findIdx pk kval n i ∧ findIdx pk kval n i < pk.length ∧
      (findIdx pk kval n i = i ∨ lt (pk.getD (findIdx pk kval n i - 1) nan) kval = true) ∧
      (findIdx pk kval n i + 1 < pk.length → lt (pk.getD (findIdx pk kval n i) nan) kval = false) := by
  intro n
  induction n with
  | zero =>
    intro i hi hn
    have e : findIdx pk kval 0 i = i := rfl
    rw [e]
    refine ⟨le_refl _, hi, Or.inl rfl, ?_⟩
    intro h; omega
  | succ n ih =>
    intro i hi hn
    by_cases hc : i + 1 < pk.length ∧ lt (pk.getD i nan) kval = true
    · have e : findIdx pk kval (n + 1) i = findIdx pk kval n (i + 1) := by
        rw [findIdx, if_pos hc]
      rw [e]
      obtain ⟨h1, h2, h3, h4⟩ := ih (i + 1) hc.1 (by omega)
      refine ⟨by omega, h2, ?_, h4⟩
      rcases h3 with h3 | h3
      · right; rw [h3]; simpa using hc.2
      · right; exact h3
    · have e : findIdx pk kval (n + 1) i = i := by
        rw [findIdx, if_neg hc]
      rw [e]
      refine ⟨le_refl _, hi, Or.inl rfl, ?_⟩
      intro h
      by_contra hlt
      exact hc ⟨h, by simpa using hlt⟩

theorem getD_mem {α : Type} (l : List α) (i : Nat) (d : α) (h : i < l.length) :
    l.getD i d ∈ l := by
  rw [List.getD_eq_getElem l d h]
  exact List.getElem_mem h

theorem interpU_pos (path : PathResult) (hg : GoodPath path) (kv : ℚ) :
    IsPos (interpU path (fin kv)) := by
  obtain ⟨ks, hk, hlen, hfin, hpos⟩ := hg
  have hklen : path.k.length = ks.length + 1 := by rw [hk]; simp
  obtain ⟨_, h2, h3, h4⟩ := findIdx_spec path.k (fin kv) path.k.length 0 (by omega) (by omega)
  unfold interpU
  simp only
  generalize findIdx path.k (fin kv) path.k.length 0 = idx at h2 h3 h4
  split
  · exact hpos _ (getD_mem _ _ _ (by omega))
  · rename_i h0
    split
    · exact hpos _ (getD_mem _ _ _ (by omega))
    · rename_i hinf
      push_neg at hinf
      obtain ⟨hi1, hi2⟩ := hinf
      have hlast : idx < ks.length := by
        by_contra hc
        have : idx = ks.length := by omega
        apply hi2
        rw [hk, this, List.getD_eq_getElem _ _ (by simp)]
        simp [isinf]
      have hkidx : path.k.getD idx nan ∈ ks := by
        rw [hk, List.getD_eq_getElem _ _ (by simp; omega), List.getElem_append_left hlast]
        exact List.getElem_mem _
      have hkidx1 : path.k.getD (idx - 1) nan ∈ ks := by
        rw [hk, List.getD_eq_getElem _ _ (by simp; omega),
          List.getElem_append_left (by omega : idx - 1 < ks.length)]
        exact List.getElem_mem _
      obtain ⟨k1, hk1⟩ := hfin _ hkidx
      obtain ⟨k0, hk0⟩ := hfin _ hkidx1
      obtain ⟨a, ha, ha0⟩ := hpos _ (getD_mem path.u (idx - 1) nan (by omega))
      obtain ⟨b, hb, hb0⟩ := hpos _ (getD_mem path.u idx nan (by omega))
      have hlt0 : k0 < kv := by
        rcases h3 with h3 | h3
        · exact absurd h3 h0
        · rw [hk0] at h3; simpa using h3
      have hle1 : kv ≤ k1 := by
        have := h4 (by omega)
        rw [hk1] at this
        simpa using this
      have hd : k1 - k0 ≠ 0 := by linarith
      rw [hk0, hk1, ha, hb, fin_div _ _ (ne_of_gt ha0), fin_div _ _ (ne_of_gt hb0)]
      simp only [fin_sub, fin_div _ _ hd, fin_mul, fin_add]
      have ht0 : 0 < (kv - k0) / (k1 - k0) := div_pos (by linarith) (by linarith)
      have ht1 : (kv - k0) / (k1 - k0) ≤ 1 := by
        rw [div_le_one (by linarith)]; linarith
      have hpos2 : 0 < (1 - (kv - k0) / (k1 - k0)) * (1 / a) + (kv - k0) / (k1 - k0) * (1 / b) := by
        have h1 : 0 ≤ (1 - (kv - k0) / (k1 - k0)) * (1 / a) :=
          mul_nonneg (by linarith) (by positivity)
        have h2 : 0 < (kv - k0) / (k1 - k0) * (1 / b) := mul_pos ht0 (by positivity)
        linarith
      rw [fin_div _ _ (ne_of_gt hpos2)]
      exact ⟨_, rfl, by positivity⟩

theorem degeneratePass_eq_targetResults (Lc : List ℚ) (l0 lp : ℚ) (path : PathResult)
    (k : List ℚ) (h : k.any (fun ki => le (fin ki) (fin l0 / fin lp)) = false) :
    degeneratePass Lc l0 lp k = targetResults Lc l0 lp path k := by
  have hall : ∀ ki ∈ k, le (fin ki) (fin l0 / fin lp) = false := by
    intro ki hki
    by_contra hc
    have : k.any (fun ki => le (fin ki) (fin l0 / fin lp)) = true :=
      List.any_eq_true.mpr ⟨ki, hki, by simpa using hc⟩
    rw [h] at this
    cases this
  unfold degeneratePass targetResults targetResult
  simp only
  rw [MLSolverResult.mk.injEq]
  refine ⟨?_, ?_, ?_⟩ <;>
  · apply List.map_congr_left
    intro a ha
    simp only [hall a ha, Bool.false_eq_true, if_false]
    split <;> rfl

/-- What `ml_solver` returns once the two reads and the path have succeeded. -/
theorem ml_solver_of_path (fuel : Nat) (L k : List ℚ) (direction : String) (l0 lp : ℚ)
    (path : PathResult) (h0 : rd (floorEps L) 0 = .ok l0)
    (hp : rd (floorEps L) ((L.length : Int) - 1) = .ok lp)
    (hpath : choosePath fuel direction (floorEps L) = .ok path) :
    ml_solver fuel L k direction = .ok (targetResults (floorEps L) l0 lp path k) := by
  unfold ml_solver
  simp only [h0, hp, hpath]
  show (if _ then _ else _) = _
  split
  · show Except.ok _ = _
    rw [nondegeneratePass_degeneratePass]
  · rename_i hnd
    show Except.ok _ = _
    rw [degeneratePass_eq_targetResults _ _ _ path _ (by simpa using hnd)]

/-- Every result of `ml_solver` is the per-target result for the two reads and, when
some target is not degenerate, for the chosen path. -/
theorem ml_solver_ok_shape (fuel : Nat) (L k : List ℚ) (direction : String)
    (res : MLSolverResult) (h : ml_solver fuel L k direction = .ok res) :
    ∃ l0 lp, rd (floorEps L) 0 = .ok l0 ∧ rd (floorEps L) ((L.length : Int) - 1) = .ok lp ∧
      ((∃ path, choosePath fuel direction (floorEps L) = .ok path ∧
          res = targetResults (floorEps L) l0 lp path k) ∨
       (k.any (fun ki => le (fin ki) (fin l0 / fin lp)) = false ∧
          ∀ path, res = targetResults (floorEps L) l0 lp path k)) := by
  unfold ml_solver at h
  simp only [except_bind_eq_ok] at h
  obtain ⟨l0, h0, lp, hlp, h⟩ := h
  refine ⟨l0, lp, h0, hlp, ?_⟩
  split at h
  · left
    simp only [except_bind_eq_ok] at h
    obtain ⟨path, hpath, h⟩ := h
    refine ⟨path, hpath, ?_⟩
    cases h
    rw [nondegeneratePass_degeneratePass]
  · rename_i hnd
    right
    cases h
    refine ⟨by simpa using hnd, fun path => ?_⟩
    exact degeneratePass_eq_targetResults _ _ _ path _ (by simpa using hnd)

theorem rd_head_last (L : List ℚ) (hne : L ≠ []) :
    ∃ l0 lp, rd (floorEps L) 0 = .ok l0 ∧ rd (floorEps L) ((L.length : Int) - 1) = .ok lp ∧
      0 < l0 ∧ 0 < lp := by
  have hlen : 0 < L.length := List.length_pos.mpr hne
  have hL := floorEps_length L
  obtain ⟨l0, h0⟩ := rd_in_range (floorEps L) 0 (le_refl _) (by rw [hL]; omega)
  obtain ⟨lp, hp⟩ := rd_in_range (floorEps L) ((L.length : Int) - 1) (by omega) (by rw [hL]; omega)
  exact ⟨l0, lp, h0, hp, floorEps_pos L _ (rd_ok_mem _ _ _ h0), floorEps_pos L _ (rd_ok_mem _ _ _ hp)⟩

/-- With the forward direction `ml_solver` returns on every non-empty spectrum. -/
theorem ml_solver_forward_total (fuel : Nat) (L k : List ℚ) (hne : L ≠ []) :
    ∃ l0 lp path, rd (floorEps L) 0 = .ok l0 ∧
      rd (floorEps L) ((L.length : Int) - 1) = .ok lp ∧ 0 < l0 ∧ 0 < lp ∧
      path_forward (floorEps L) = .ok path ∧
      ml_solver fuel L k "forward" = .ok (targetResults (floorEps L) l0 lp path k) := by
  obtain ⟨l0, lp, h0, hp, p0, pp⟩ := rd_head_last L hne
  have hne2 : floorEps L ≠ [] := by
    intro h
    have := floorEps_length L
    rw [h] at this
    exact hne (List.length_eq_zero.mp this.symm)
  obtain ⟨path, _, _, _, hpath, _⟩ := path_forward_total (floorEps L) hne2
  refine ⟨l0, lp, path, h0, hp, p0, pp, hpath, ?_⟩
  apply ml_solver_of_path fuel L k "forward" l0 lp path h0 hp
  unfold choosePath
  rw [if_pos rfl]
  exact hpath

theorem targetResults_get (Lc : List ℚ) (l0 lp : ℚ) (path : PathResult) (ks : List ℚ)
    (i : Nat) (hi : i < ks.length) :
    (targetResults Lc l0 lp path ks).Lbar[i]? = some (targetResult Lc l0 lp path ks[i]).1 ∧
    (targetResults Lc l0 lp path ks).uopt[i]? = some (targetResult Lc l0 lp path ks[i]).2.1 ∧
    (targetResults Lc l0 lp path ks).intv[i]? = some (targetResult Lc l0 lp path ks[i]).2.2 := by
  simp [targetResults, List.getElem?_map, List.getElem?_eq_getElem hi]

theorem targetResult_intv (Lc : List ℚ) (l0 lp : ℚ) (hlp : 0 < lp) (path : PathResult) (ki : ℚ) :
    (targetResult Lc l0 lp path ki).2.2 = (if l0 / lp < ki then 1 else 0) := by
  unfold targetResult
  rw [fin_div _ _ (ne_of_gt hlp)]
  simp only [le_fin, lt_fin, decide_eq_true_eq]
  by_cases h : ki ≤ l0 / lp
  · rw [if_pos h, if_neg (not_lt.mpr h)]
  · rw [if_neg h, if_pos (not_le.mp h), if_pos (not_le.mp h)]

/-! ### Non-increasing spectra and the clamp -/

theorem floorEps_sorted (L : List ℚ) (hs : L.Pairwise (fun a b => b ≤ a)) :
    (floorEps L).Pairwise (fun a b => b ≤ a) := by
  unfold floorEps
  apply List.Pairwise.map _ _ hs
  intro a b hab
  show (if b < eps then eps else b) ≤ (if a < eps then eps else a)
  split <;> split <;> linarith

theorem sorted_getElem_le (Lc : List ℚ) (hs : Lc.Pairwise (fun a b => b ≤ a)) (i j : Nat)
    (x y : ℚ) (hij : i ≤ j) (hx : Lc[i]? = some x) (hy : Lc[j]? = some y) : y ≤ x := by
  obtain ⟨hi, rfl⟩ := List.getElem?_eq_some.mp hx
  obtain ⟨hj, rfl⟩ := List.getElem?_eq_some.mp hy
  rcases Nat.lt_or_eq_of_le hij with h | h
  · exact (List.pairwise_iff_getElem.mp hs) i j hi hj h
  · subst h; exact le_refl _

theorem getD_eq_of_rd (Lc : List ℚ) (i : Nat) (x : ℚ) (h : rd Lc (i : Int) = .ok x) :
    Lc.getD i 0 = x ∧ Lc[i]? = some x := by
  have := ((rd_ok_iff _ _ _).mp h).2
  simp only [Int.toNat_ofNat] at this
  exact ⟨by rw [List.getD_eq_getElem?_getD, this]; rfl, this⟩

theorem rd_last_cast (L : List ℚ) (hne : L ≠ []) :
    ((L.length : Int) - 1) = ((L.length - 1 : Nat) : Int) := by
  have := List.length_pos.mpr hne
  omega

/-- One entry of a clamped row, for positive finite `u`, `l` and a target `k >= 1`. -/
theorem clamp_entry (k u l : ℚ) (hk : 1 ≤ k) (hu : 0 < u) (hl : 0 < l) :
    fin 1 / Dbl.min (fin k * fin u) (Dbl.max (fin u) (fin 1 / fin l)) =
      fin (1 / Min.min (k * u) (Max.max u (1 / l))) ∧
    u ≤ Min.min (k * u) (Max.max u (1 / l)) ∧ Min.min (k * u) (Max.max u (1 / l)) ≤ k * u := by
  have hku : u ≤ k * u := by nlinarith
  have hm : u ≤ Min.min (k * u) (Max.max u (1 / l)) := le_min hku (le_max_left _ _)
  refine ⟨?_, hm, min_le_left _ _⟩
  rw [fin_div _ _ (ne_of_gt hl), max_fin, fin_mul, min_fin,
    fin_div _ _ (ne_of_gt (lt_of_lt_of_le hu hm))]

theorem clampRow_fin (Lc : List ℚ) (hpos : ∀ x ∈ Lc, 0 < x) (k u : ℚ) (hk : 1 ≤ k)
    (hu : 0 < u) :
    clampRow Lc (fin k) (fin u) =
      Lc.map (fun l => fin (1 / Min.min (k * u) (Max.max u (1 / l)))) := by
  unfold clampRow
  apply List.map_congr_left
  intro l hl
  exact (clamp_entry k u l hk hu (hpos l hl)).1

theorem foldl_max_mem (l : List Dbl) : ∀ a : Dbl, l.foldl Dbl.max a = a ∨ l.foldl Dbl.max a ∈ l := by
  induction l with
  | nil => intro a; left; rfl
  | cons b t ih =>
    intro a
    rw [List.foldl_cons]
    rcases ih (Dbl.max a b) with h | h
    · rw [h]
      unfold Dbl.max
      split
      · right; exact List.mem_cons_self _ _
      · left; rfl
    · right; exact List.mem_cons_of_mem _ h

theorem foldl_min_mem (l : List Dbl) : ∀ a : Dbl, l.foldl Dbl.min a = a ∨ l.foldl Dbl.min a ∈ l := by
  induction l with
  | nil => intro a; left; rfl
  | cons b t ih =>
    intro a
    rw [List.foldl_cons]
    rcases ih (Dbl.min a b) with h | h
    · rw [h]
      unfold Dbl.min
      split
      · right; exact List.mem_cons_self _ _
      · left; rfl
    · right; exact List.mem_cons_of_mem _ h

theorem maxEntry_mem (row : List Dbl) (h : row ≠ []) : maxEntry row ∈ row := by
  unfold maxEntry
  cases row with
  | nil => exact absurd rfl h
  | cons a t =>
    rcases foldl_max_mem (a :: t) a with e | e
    · simp only [List.headD_cons]; rw [e]; exact List.mem_cons_self _ _
    · exact e

theorem minEntry_mem (row : List Dbl) (h : row ≠ []) : minEntry row ∈ row := by
  unfold minEntry
  cases row with
  | nil => exact absurd rfl h
  | cons a t =>
    rcases foldl_min_mem (a :: t) a with e | e
    · simp only [List.headD_cons]; rw [e]; exact List.mem_cons_self _ _
    · exact e

theorem interpU_at_start (path : PathResult) (kt : List Dbl) (hk : path.k = fin 1 :: kt)
    (k : ℚ) (hk1 : k ≤ 1) : interpU path (fin k) = path.u.getD 0 nan := by
  have hidx : findIdx path.k (fin k) path.k.length 0 = 0 := by
    rw [hk]
    show findIdx (fin 1 :: kt) (fin k) (kt.length + 1) 0 = 0
    rw [findIdx, if_neg]
    rintro ⟨_, h⟩
    simp only [List.getD_cons_zero, lt_fin, decide_eq_true_eq] at h
    linarith
  unfold interpU
  simp only [hidx, if_true]

/-- In a non-increasing list whose first entry does not exceed the mean, the last entry
is as large as the first. -/
theorem sorted_flat (Lc : List ℚ) (hs : Lc.Pairwise (fun a b => b ≤ a)) (l0 lp : ℚ)
    (h0 : Lc[0]? = some l0) (hp : Lc[Lc.length - 1]? = some lp)
    (hm : l0 ≤ Lc.sum / Lc.length) : l0 ≤ lp := by
  have hne : Lc ≠ [] := by
    intro h; rw [h] at h0; simp at h0
  have hlen : 0 < Lc.length := List.length_pos.mpr hne
  have hle : ∀ x ∈ Lc, x ≤ l0 := by
    intro x hx
    obtain ⟨n, hn⟩ := List.mem_iff_getElem?.mp hx
    exact sorted_getElem_le Lc hs 0 n l0 x (Nat.zero_le _) h0 hn
  have hlast : Lc.getLast hne = lp := by
    rw [List.getLast_eq_getElem]
    obtain ⟨_, e⟩ := List.getElem?_eq_some.mp hp
    exact e
  have hsplit := List.dropLast_append_getLast hne
  have hsum : Lc.sum = Lc.dropLast.sum + lp := by
    conv_lhs => rw [← hsplit]
    rw [List.sum_append, hlast]
    simp
  have hd : Lc.dropLast.sum ≤ Lc.dropLast.length • l0 :=
    List.sum_le_card_nsmul _ _ (fun x hx => hle x (List.mem_of_mem_dropLast hx))
  rw [List.length_dropLast, nsmul_eq_mul] at hd
  have hcast : ((Lc.length - 1 : Nat) : ℚ) = (Lc.length : ℚ) - 1 := by
    rw [Nat.cast_sub hlen]; simp
  rw [hcast] at hd
  have hpl : (0 : ℚ) < Lc.length := by positivity
  rw [le_div_iff₀ hpl] at hm
  nlinarith

/-- The bound that `ml_solver` reads off the forward path is finite and positive for
every target between `1` and the ratio of the first to the last floored eigenvalue. -/
theorem forward_bound_pos (L : List ℚ) (hs : L.Pairwise (fun a b => b ≤ a))
    (l0 lp : ℚ) (h0 : (floorEps L)[0]? = some l0)
    (hp : (floorEps L)[L.length - 1]? = some lp) (path : PathResult)
    (hpath : path_forward (floorEps L) = .ok path) (k : ℚ) (hk : k ≤ l0 / lp) :
    IsPos (interpU path (fin k)) := by
  have hL := floorEps_length L
  have hne2 : floorEps L ≠ [] := by
    intro h; rw [h] at h0; simp at h0
  have hpos := floorEps_pos L
  have p0 : 0 < l0 := hpos _ (List.getElem?_mem h0)
  have pp : 0 < lp := hpos _ (List.getElem?_mem hp)
  by_cases hbig : (floorEps L).sum / (floorEps L).length < l0
  · obtain ⟨path1, hp1, hg⟩ := path_forward_good (floorEps L) hne2 l0
      (by rw [floorEps_idem]; exact h0) (by rw [floorEps_idem]; exact hbig)
    rw [hpath] at hp1
    cases hp1
    exact interpU_pos path hg k
  · have hflat : l0 ≤ lp :=
      sorted_flat (floorEps L) (floorEps_sorted L hs) l0 lp h0 (by rw [hL]; exact hp)
        (not_lt.mp hbig)
    have hk1 : k ≤ 1 := by
      have : l0 / lp ≤ 1 := (div_le_one pp).mpr hflat
      linarith
    obtain ⟨path1, kt, ut, vt, hp1, e1, e2, _⟩ := path_forward_total (floorEps L) hne2
    rw [hpath] at hp1
    cases hp1
    rw [interpU_at_start path kt e1 k hk1, e2, floorEps_idem]
    simp only [List.getD_cons_zero]
    rw [mean_eq _ hne2]
    have pm : 0 < (floorEps L).sum / (floorEps L).length := by
      have h1 := sum_pos_of_pos _ hne2 hpos
      have h2 : (0 : ℚ) < (floorEps L).length := by
        have := List.length_pos.mpr hne2
        positivity
      positivity
    rw [fin_div _ _ (ne_of_gt pm)]
    exact ⟨_, rfl, by positivity⟩

/-! ### The test spectrum -/

theorem path_forward_testSpectrum : path_forward testSpectrum = .ok fwdTestPath := by decide!

theorem path_backward_testSpectrum (fuel : Nat) :
    path_backward (fuel + 9) testSpectrum = .ok bwdTestPath :=
  path_backward_fuel_mono 9 (fuel + 9) (Nat.le_add_left _ _) _ _ (by decide!)

theorem ml_solver_map_fuel_mono {α : Type} (f : MLSolverResult → α) (n m : Nat) (hnm : n ≤ m)
    (L k : List ℚ) (direction : String) (v : α)
    (h : (ml_solver n L k direction).map f = .ok v) :
    (ml_solver m L k direction).map f = .ok v := by
  cases hres : ml_solver n L k direction with
  | error e => rw [hres] at h; cases h
  | ok res =>
    rw [hres] at h
    rw [ml_solver_fuel_mono n m hnm L k direction res hres]
    exact h

theorem fwdLen_step (Lc : List ℚ) (lb la : ℚ) (s : FwdState)
    (h : FwdLen Lc.length s)
    (hm : fwdMeasure Lc.length (fwdStep lb la s) < fwdMeasure Lc.length s) :
    FwdLen Lc.length (fwdStep lb la s) := by
  obtain ⟨h1, h2, h3⟩ := h
  obtain ⟨un, vn, kn, e1, e2, e3⟩ := fwdStep_vecs lb la s
  refine ⟨?_, ?_, ?_⟩
  · rw [e1, e3]; simp [h1]
  · rw [e2, e3]; simp [h2]
  · rw [e3]; simp only [List.length_append, List.length_singleton]; omega

theorem dropLast_append_getLastD {α : Type} (l : List α) (d : α) (h : l ≠ []) :
    l = l.dropLast ++ [l.getLastD d] := by
  have e : l.getLastD d = l.getLast h := by
    cases l with
    | nil => exact absurd rfl h
    | cons a t => rw [List.getLastD_cons, List.getLast_eq_getLastD]
  rw [e, List.dropLast_append_getLast]

/-- Shape of the forward path on a non-empty spectrum: it is returned, starts at the
diagonal point, holds at most `p + 2` vertices in three vectors of one length, and
ends with a copy of the last swept `u` next to `v = k = inf`. -/
theorem path_forward_shape (L : List ℚ) (hne : L ≠ []) :
    ∃ (path : PathResult) (kt ut vt uu : List Dbl) (x : Dbl),
      path_forward L = .ok path ∧
      path.k = fin 1 :: kt ∧
      path.u = (fin 1 / mean (floorEps L)) :: ut ∧
      path.v = (fin 1 / mean (floorEps L)) :: vt ∧
      path.k.length ≤ L.length + 2 ∧ path.u.length = path.k.length ∧
      path.v.length = path.k.length ∧
      path.k = path.k.dropLast ++ [pinf] ∧ path.v = path.v.dropLast ++ [pinf] ∧
      path.u = uu ++ [x, x] := by
  have hlen : L.length ≠ 0 := by
    intro h; exact hne (List.length_eq_zero.mp h)
  have hL : (floorEps L).length = L.length := floorEps_length L
  set u0 := fin 1 / mean (floorEps L) with hu0
  obtain ⟨a0, ha, ha0, ha1, _, _⟩ := fwdStartAlpha_spec (floorEps L) u0 L.length 0 (le_refl _)
    (by rw [hL]; omega) (by rw [hL]; omega)
  rw [hL] at ha ha1
  have hinit : FwdRange (floorEps L).length (fwdInit (floorEps L) u0 a0) ∧
      FwdHead u0 (fwdInit (floorEps L) u0 a0) ∧
      FwdLen (floorEps L).length (fwdInit (floorEps L) u0 a0) := by
    refine ⟨?_, ⟨[], [], [], rfl, rfl, rfl⟩, rfl, rfl, ?_⟩
    · unfold FwdRange fwdInit
      simp only [hL]
      omega
    · unfold fwdMeasure fwdInit
      simp only [hL, List.length_singleton]
      omega
  have hμ : fwdMeasure (floorEps L).length (fwdInit (floorEps L) u0 a0) < L.length + 1 := by
    unfold fwdMeasure fwdInit
    simp only [hL]
    omega
  obtain ⟨s1, hloop, ⟨_, ⟨kt, ut, vt, h1, h2, h3⟩, l1, l2, l3⟩, _⟩ :=
    fwdLoop_inv (floorEps L) ((L.length : Int) - (numzero L : Int))
      (fun s => FwdRange (floorEps L).length s ∧ FwdHead u0 s ∧ FwdLen (floorEps L).length s)
      (fwdMeasure (floorEps L).length)
      (by
        intro s hP hal hbe
        have hb : s.beta < ((floorEps L).length : Int) := by
          rw [hL]; have := numzero_le L; omega
        obtain ⟨lb, la, _, _, _, _, hbody, hr, hm⟩ :=
          fwdBody_ok (floorEps L) (floorEps_pos L) s hP.1 hal hb
        exact ⟨_, hbody, ⟨hr, fwdHead_step u0 lb la s hP.2.1, fwdLen_step _ lb la s hP.2.2 hm⟩,
          hm⟩)
      (L.length + 1) _ hinit hμ
  have hune : s1.u_vec ≠ [] := by rw [h2]; simp
  refine ⟨{ k := s1.kmax_vec ++ [pinf], u := s1.u_vec ++ [s1.u_vec.getLastD nan],
            v := s1.v_vec ++ [pinf] },
    kt ++ [pinf], ut ++ [s1.u_vec.getLastD nan], vt ++ [pinf], s1.u_vec.dropLast,
    s1.u_vec.getLastD nan, ?_, ?_, ?_, ?_, ?_, ?_, ?_, ?_, ?_, ?_⟩
  · unfold path_forward
    simp only [if_neg hlen]
    rw [← hu0, ha]
    show (fwdLoop _ _ _ _ >>= _) = _
    rw [hloop]
    rfl
  · simp [h1]
  · simp [h2]
  · simp [h3]
  · simp only [List.length_append, List.length_singleton]
    rw [hL] at l3
    simp only [Int.toNat_ofNat] at l3
    omega
  · simp [l1]
  · simp [l2]
  · simp
  · simp
  · show s1.u_vec ++ [s1.u_vec.getLastD nan] = _
    conv_lhs => rw [dropLast_append_getLastD s1.u_vec nan hune]
    simp

/-! ### The backward sweep: one pass, shape of the path -/

/-- Unfolding of one backward pass that succeeds. -/
theorem bwdBody_ok (Lc : List ℚ) (p : Int) (s : BwdState) (x : Bool × BwdState)
    (h : bwdBody Lc p s = .ok x) :
    ∃ hb vr, bwdBottom Lc s = .ok hb ∧ bwdRight Lc p s = .ok vr ∧
      (((lt (bwdDiag s) vr && lt hb (bwdDiag s)) = true ∧
          x = (true, { s with u_vec := bwdDiag s :: s.u_vec, v_vec := bwdDiag s :: s.v_vec,
                              kmax_vec := fin 1 :: s.kmax_vec })) ∨
       ((lt (bwdDiag s) vr && lt hb (bwdDiag s)) = false ∧
          ∃ sn1 sd1 : Dbl,
            (if lt (abs (bwdUNew hb vr s - vr)) (fin eps) = true then
                ∃ y, rd Lc (s.alpha + 1) = .ok y ∧ sn1 = s.slope_num + fin y
              else sn1 = s.slope_num) ∧
            (if lt (abs (bwdVNew hb vr s - hb)) (fin eps) = true then
                ∃ y, rd Lc (s.beta - 1) = .ok y ∧ sd1 = s.slope_denom + fin y
              else sd1 = s.slope_denom) ∧
            x = (false,
              { alpha := if lt (abs (bwdUNew hb vr s - vr)) (fin eps) = true then s.alpha + 1
                         else s.alpha,
                beta := if lt (abs (bwdVNew hb vr s - hb)) (fin eps) = true then s.beta - 1
                        else s.beta,
                slope_num := sn1, slope_denom := sd1,
                u_cur := bwdUNew hb vr s, v_cur := bwdVNew hb vr s,
                u_vec := bwdUNew hb vr s :: s.u_vec, v_vec := bwdVNew hb vr s :: s.v_vec,
                kmax_vec := (bwdVNew hb vr s / bwdUNew hb vr s) :: s.kmax_vec }))) := by
  unfold bwdBody at h
  rw [except_bind_eq_ok] at h
  obtain ⟨hb, hhb, h⟩ := h
  rw [except_bind_eq_ok] at h
  obtain ⟨vr, hvr, h⟩ := h
  refine ⟨hb, vr, hhb, hvr, ?_⟩
  unfold bwdVNew bwdUNew bwdDiag
  by_cases hd : (lt ((s.slope_num * s.u_cur + s.slope_denom * s.v_cur) /
      (s.slope_num + s.slope_denom)) vr &&
      lt hb ((s.slope_num * s.u_cur + s.slope_denom * s.v_cur) /
        (s.slope_num + s.slope_denom))) = true
  · left
    simp only [hd, if_true] at h
    cases h
    exact ⟨hd, rfl⟩
  · right
    simp only [hd, Bool.false_eq_true, if_false] at h
    rw [except_bind_eq_ok] at h
    obtain ⟨sn1, hsn, h⟩ := h
    rw [except_bind_eq_ok] at h
    obtain ⟨sd1, hsd, h⟩ := h
    cases h
    refine ⟨by simpa using hd, sn1, sd1, ?_, ?_, rfl⟩
    · by_cases hc : lt (abs ((if lt vr (s.u_cur - s.slope_denom * (hb - s.v_cur) / s.slope_num)
          = true then vr else s.u_cur - s.slope_denom * (hb - s.v_cur) / s.slope_num) - vr))
          (fin eps) = true
      · rw [if_pos hc] at hsn ⊢
        rw [except_bind_eq_ok] at hsn
        obtain ⟨y, hy, e⟩ := hsn
        rw [if_pos hc] at hy
        cases e
        exact ⟨y, hy, rfl⟩
      · rw [if_neg hc] at hsn ⊢
        cases hsn
        rfl
    · by_cases hc : lt (abs ((if lt vr (s.u_cur - s.slope_denom * (hb - s.v_cur) / s.slope_num)
          = true then s.v_cur - s.slope_num *
            ((if lt vr (s.u_cur - s.slope_denom * (hb - s.v_cur) / s.slope_num) = true then vr
              else s.u_cur - s.slope_denom * (hb - s.v_cur) / s.slope_num) - s.u_cur) /
            s.slope_denom else hb) - hb)) (fin eps) = true
      · rw [if_pos hc] at hsd ⊢
        rw [except_bind_eq_ok] at hsd
        obtain ⟨y, hy, e⟩ := hsd
        rw [if_pos hc] at hy
        cases e
        exact ⟨y, hy, rfl⟩
      · rw [if_neg hc] at hsd ⊢
        cases hsd
        rfl

theorem bwdBody_vecs (Lc : List ℚ) (p : Int) (s : BwdState) (x : Bool × BwdState)
    (h : bwdBody Lc p s = .ok x) :
    ∃ a b c, x.2.u_vec = a :: s.u_vec ∧ x.2.v_vec = b :: s.v_vec ∧
      x.2.kmax_vec = c :: s.kmax_vec := by
  obtain ⟨hb, vr, _, _, h | h⟩ := bwdBody_ok Lc p s x h
  · obtain ⟨_, rfl⟩ := h
    exact ⟨_, _, _, rfl, rfl, rfl⟩
  · obtain ⟨_, sn1, sd1, _, _, rfl⟩ := h
    exact ⟨_, _, _, rfl, rfl, rfl⟩

/-- The vectors at the end of the backward loop extend the ones at its start to the left. -/
theorem bwdLoop_vecs (Lc : List ℚ) (p : Int) :
    ∀ (n : Nat) (s s1 : BwdState), bwdLoop Lc p n s = .ok s1 →
      ∃ a b c, s1.u_vec = a ++ s.u_vec ∧ s1.v_vec = b ++ s.v_vec ∧
        s1.kmax_vec = c ++ s.kmax_vec ∧ a.length = c.length ∧ b.length = c.length ∧
        c ≠ [] := by
  intro n
  induction n with
  | zero => intro s s1 h; simp [bwdLoop] at h
  | succ n ih =>
    intro s s1 h
    rw [bwdLoop, except_bind_eq_ok] at h
    obtain ⟨x, hx, h⟩ := h
    obtain ⟨a, b, c, e1, e2, e3⟩ := bwdBody_vecs Lc p s x hx
    by_cases hd : x.1 = true
    · rw [if_pos hd] at h
      cases h
      exact ⟨[a], [b], [c], e1, e2, e3, rfl, rfl, by simp⟩
    · rw [if_neg hd] at h
      obtain ⟨a1, b1, c1, f1, f2, f3, l1, l2, _⟩ := ih _ _ h
      refine ⟨a1 ++ [a], b1 ++ [b], c1 ++ [c], ?_, ?_, ?_, ?_, ?_, by simp⟩
      · rw [f1, e1]; simp
      · rw [f2, e2]; simp
      · rw [f3, e3]; simp
      · simp [l1]
      · simp [l2]

/-- Shape of every path the backward solver returns: three vectors of one length that
end with the seed `(u, v, v/u)`, `(u, inf, inf)`. -/
theorem path_backward_shape (fuel : Nat) (L : List ℚ) (path : PathResult)
    (h : path_backward fuel L = .ok path) :
    ∃ (a b c : List Dbl) (u0 v0 : Dbl), path.u = a ++ [u0, u0] ∧ path.v = b ++ [v0, pinf] ∧
      path.k = c ++ [v0 / u0, pinf] ∧ a.length = c.length ∧ b.length = c.length ∧ c ≠ [] := by
  unfold path_backward at h
  simp only [except_bind_eq_ok] at h
  obtain ⟨l0, _, x, _, lr, _, lb, _, s, hs, hp⟩ := h
  obtain ⟨a, b, c, e1, e2, e3, l1, l2, hc⟩ := bwdLoop_vecs _ _ _ _ _ hs
  cases hp
  exact ⟨a, b, c, _, _, e1, e2, e3, l1, l2, hc⟩

/-! ### Start point of the forward path -/

theorem inv_mean_eq (Lc : List ℚ) (hne : Lc ≠ []) (hpos : ∀ x ∈ Lc, 0 < x) :
    fin 1 / mean Lc = fin (1 / (Lc.sum / Lc.length)) ∧ 0 < Lc.sum / Lc.length := by
  have pm : 0 < Lc.sum / Lc.length := by
    have h1 := sum_pos_of_pos Lc hne hpos
    have h2 : (0 : ℚ) < Lc.length := by
      have := List.length_pos.mpr hne
      positivity
    positivity
  rw [mean_eq Lc hne, fin_div _ _ (ne_of_gt pm)]
  exact ⟨rfl, pm⟩

theorem floorEps_ne_nil (L : List ℚ) (hne : L ≠ []) : floorEps L ≠ [] := by
  intro h
  have := floorEps_length L
  rw [h] at this
  exact hne (List.length_eq_zero.mp this.symm)

/-! ### Spectrum preparation and the direction argument -/

theorem numzero_add_filter (L : List ℚ) :
    numzero L + (L.filter (fun x => decide (eps ≤ x))).length = L.length := by
  unfold numzero
  induction L with
  | nil => rfl
  | cons a t ih =>
    by_cases h : a < eps
    · have h2 : ¬ eps ≤ a := not_le.mpr h
      simp only [List.countP_cons, List.filter_cons, h, h2, decide_True, decide_False, if_true,
        Bool.false_eq_true, if_false, List.length_cons]
      omega
    · have h2 : eps ≤ a := not_lt.mp h
      simp only [List.countP_cons, List.filter_cons, h, h2, decide_True, decide_False, if_true,
        Bool.false_eq_true, if_false, List.length_cons]
      omega

theorem ml_solver_floorEps (fuel : Nat) (L k : List ℚ) (direction : String) :
    ml_solver fuel (floorEps L) k direction = ml_solver fuel L k direction := by
  unfold ml_solver
  rw [floorEps_idem, floorEps_length]

theorem ml_solver_bad_direction (fuel : Nat) (L k : List ℚ) (direction : String)
    (hf : direction ≠ "forward") (hb : direction ≠ "backward") (l0 lp : ℚ)
    (h0 : rd (floorEps L) 0 = .ok l0) (hp : rd (floorEps L) ((L.length : Int) - 1) = .ok lp) :
    ml_solver fuel L k direction =
      if k.any (fun ki => le (fin ki) (fin l0 / fin lp)) then .error Err.invalidArgument
      else .ok (degeneratePass (floorEps L) l0 lp k) := by
  unfold ml_solver choosePath
  simp only [h0, hp, if_neg hf, if_neg hb]
  rfl

/-! ### The lookup rule -/

theorem findIdx_below (pk : List Dbl) (kval : Dbl) :
    ∀ (n i j : Nat), i ≤ j → j < findIdx pk kval n i → lt (pk.getD j nan) kval = true := by
  intro n
  induction n with
  | zero =>
    intro i j hij hj
    have e : findIdx pk kval 0 i = i := rfl
    rw [e] at hj
    omega
  | succ n ih =>
    intro i j hij hj
    by_cases hc : i + 1 < pk.length ∧ lt (pk.getD i nan) kval = true
    · have e : findIdx pk kval (n + 1) i = findIdx pk kval n (i + 1) := by
        rw [findIdx, if_pos hc]
      rw [e] at hj
      rcases Nat.eq_or_lt_of_le hij with h | h
      · rw [← h]; exact hc.2
      · exact ih (i + 1) j h hj
    · have e : findIdx pk kval (n + 1) i = i := by
        rw [findIdx, if_neg hc]
      rw [e] at hj
      omega

theorem mul_one_div (x y : Dbl) : x * (fin 1 / y) = x / y := by
  show Dbl.mul x (Dbl.div (fin 1) y) = Dbl.div x y
  cases y with
  | fin b =>
    by_cases hb : b = 0
    · subst hb
      cases x with
      | fin a => simp [Dbl.mul, Dbl.div]
      | pinf => simp [Dbl.mul, Dbl.div]
      | ninf => simp [Dbl.mul, Dbl.div]
      | nan => simp [Dbl.mul, Dbl.div]
    · cases x with
      | fin a => simp [Dbl.mul, Dbl.div, hb, div_eq_mul_inv]
      | pinf =>
        rcases lt_or_gt_of_ne hb with h | h
        · have h1 : ¬ (0 : ℚ) < b := not_lt.mpr (le_of_lt h)
          simp [Dbl.mul, Dbl.div, hb, h, h1]
        · have h1 : ¬ b < 0 := not_lt.mpr (le_of_lt h)
          simp [Dbl.mul, Dbl.div, hb, h, h1]
      | ninf =>
        rcases lt_or_gt_of_ne hb with h | h
        · have h1 : ¬ (0 : ℚ) < b := not_lt.mpr (le_of_lt h)
          simp [Dbl.mul, Dbl.div, hb, h, h1]
        · have h1 : ¬ b < 0 := not_lt.mpr (le_of_lt h)
          simp [Dbl.mul, Dbl.div, hb, h, h1]
      | nan => simp [Dbl.mul, Dbl.div, hb]
  | pinf => cases x <;> simp [Dbl.mul, Dbl.div]
  | ninf => cases x <;> simp [Dbl.mul, Dbl.div]
  | nan => cases x <;> simp [Dbl.mul, Dbl.div]

theorem bwdBody_alive (Lc : List ℚ) (p : Int) (s : BwdState) (sn sd u v lb la : ℚ)
    (h1 : s.slope_num = fin sn) (h2 : s.slope_denom = fin sd) (h3 : s.u_cur = fin u)
    (h4 : s.v_cur = fin v) (hsn : 0 < sn) (hsd : 0 < sd)
    (hbeta : 0 < s.beta) (halpha : s.alpha < p - 1)
    (hlb : rd Lc (s.beta - 1) = .ok lb) (hla : rd Lc (s.alpha + 1) = .ok la)
    (plb : 0 < lb) (pla : 0 < la) :
    bwdBody Lc p s = .ok (bwdNext sn sd u v lb la s) := by
  unfold bwdBody bwdNext qDiag qU qV
  simp only [if_pos hbeta, if_pos halpha, hlb, hla, h1, h2, h3, h4, bind, Except.bind, pure,
    Except.pure, fin_div _ _ (ne_of_gt plb), fin_div _ _ (ne_of_gt pla), fin_mul, fin_add,
    fin_sub, fin_div _ _ (ne_of_gt hsn), fin_div _ _ (ne_of_gt hsd),
    fin_div _ _ (ne_of_gt (add_pos hsn hsd)), lt_fin, abs_fin, Bool.and_eq_true,
    decide_eq_true_eq]
  by_cases hd : (sn * u + sd * v) / (sn + sd) < 1 / la ∧ 1 / lb < (sn * u + sd * v) / (sn + sd)
  · rw [if_pos hd, if_pos hd]
  · rw [if_neg hd, if_neg hd]
    by_cases ho : 1 / la < u - sd * (1 / lb - v) / sn
    · simp only [ho, if_true, fin_sub, fin_mul, fin_div _ _ (ne_of_gt hsd), abs_fin, lt_fin,
        decide_eq_true_eq]
      by_cases hr : |1 / la - 1 / la| < eps <;>
      by_cases hb : |v - sn * (1 / la - u) / sd - 1 / lb| < eps <;>
      simp only [hr, hb, if_true, if_false, hla, hlb]
    · simp only [ho, if_false, fin_sub, abs_fin, lt_fin, decide_eq_true_eq]
      by_cases hr : |u - sd * (1 / lb - v) / sn - 1 / la| < eps <;>
      by_cases hb : |1 / lb - 1 / lb| < eps <;>
      simp only [hr, hb, if_true, if_false, hla, hlb]

theorem qU_qV_range (sn sd u v hb vr : ℚ) (hsn : 0 < sn) (hsd : 0 < sd) (hu : u ≤ vr)
    (hv : hb ≤ v) :
    u ≤ qU sn sd u v hb vr ∧ qU sn sd u v hb vr ≤ vr ∧ hb ≤ qV sn sd u v hb vr ∧
      qV sn sd u v hb vr ≤ v ∧ (qV sn sd u v hb vr = hb ∨ hb < qV sn sd u v hb vr) ∧
      (qU sn sd u v hb vr = vr ∨ qV sn sd u v hb vr = hb) ∧
      sn * qU sn sd u v hb vr + sd * qV sn sd u v hb vr = sn * u + sd * v := by
  have e0 : u - sd * (hb - v) / sn = u + sd * (v - hb) / sn := by ring
  have h0 : 0 ≤ sd * (v - hb) / sn := by
    have : 0 ≤ v - hb := by linarith
    positivity
  have h1 : 0 ≤ sn * (vr - u) / sd := by
    have : 0 ≤ vr - u := by linarith
    positivity
  unfold qU qV
  by_cases ho : vr < u - sd * (hb - v) / sn
  · simp only [ho, if_true]
    have hlt : sn * (vr - u) / sd < v - hb := by
      rw [e0] at ho
      rw [div_lt_iff₀ hsd]
      have h2 : vr - u < sd * (v - hb) / sn := by linarith
      rw [lt_div_iff₀ hsn] at h2
      linarith
    refine ⟨hu, le_refl _, by linarith, by linarith, Or.inr (by linarith), Or.inl trivial, ?_⟩
    field_simp
    ring
  · simp only [ho, if_false]
    refine ⟨by rw [e0]; linarith, not_lt.mp ho, le_refl _, hv, Or.inl trivial, Or.inr trivial, ?_⟩
    field_simp
    ring

theorem diag_between (sn sd U V : ℚ) (hsn : 0 < sn) (hsd : 0 < sd)
    (h : U ≤ qDiag sn sd U V ∨ qDiag sn sd U V ≤ V) : U ≤ V := by
  have hpos : 0 < sn + sd := add_pos hsn hsd
  unfold qDiag at h
  rcases h with h | h
  · rw [le_div_iff₀ hpos] at h
    by_contra hc
    push_neg at hc
    nlinarith
  · rw [div_le_iff₀ hpos] at h
    by_contra hc
    push_neg at hc
    nlinarith

theorem qDiag_line (sn sd u v U V : ℚ) (h : sn * U + sd * V = sn * u + sd * v) :
    qDiag sn sd U V = qDiag sn sd u v := by
  unfold qDiag
  rw [h]

theorem qDiag_mem (sn sd u v : ℚ) (hsn : 0 < sn) (hsd : 0 < sd) (h : u ≤ v) :
    u ≤ qDiag sn sd u v ∧ qDiag sn sd u v ≤ v ∧ (u < v → u < qDiag sn sd u v) ∧
      (u < v → qDiag sn sd u v < v) := by
  have hpos : 0 < sn + sd := add_pos hsn hsd
  unfold qDiag
  refine ⟨?_, ?_, fun h1 => ?_, fun h1 => ?_⟩
  · rw [le_div_iff₀ hpos]; nlinarith
  · rw [div_le_iff₀ hpos]; nlinarith
  · rw [lt_div_iff₀ hpos]; nlinarith
  · rw [div_lt_iff₀ hpos]; nlinarith

/-- After a pass that is not the last one the new point is still on or above the
diagonal. -/
theorem qU_le_qV (sn sd u v hb vr : ℚ) (hsn : 0 < sn) (hsd : 0 < sd) (hu : u ≤ vr)
    (hv : hb ≤ v) (hd : ¬ (qDiag sn sd u v < vr ∧ hb < qDiag sn sd u v)) :
    qU sn sd u v hb vr ≤ qV sn sd u v hb vr := by
  obtain ⟨_, r2, r3, _, _, _, hline⟩ := qU_qV_range sn sd u v hb vr hsn hsd hu hv
  apply diag_between sn sd _ _ hsn hsd
  rw [qDiag_line sn sd u v _ _ hline]
  by_cases h1 : qDiag sn sd u v < vr
  · right
    have : ¬ hb < qDiag sn sd u v := fun h2 => hd ⟨h1, h2⟩
    linarith
  · left
    linarith

/-! ### The backward sweep: ascending `k` -/

theorem rd_sorted (Lc : List ℚ) (hs : Lc.Pairwise (fun a b => b ≤ a)) (i j : Int) (x y : ℚ)
    (hi : rd Lc i = .ok x) (hj : rd Lc j = .ok y) (hij : i ≤ j) : y ≤ x := by
  obtain ⟨h0, hx⟩ := (rd_ok_iff _ _ _).mp hi
  obtain ⟨h1, hy⟩ := (rd_ok_iff _ _ _).mp hj
  exact sorted_getElem_le Lc hs i.toNat j.toNat x y (by omega) hx hy

theorem rd_lt_length (Lc : List ℚ) (i : Int) (x : ℚ) (h : rd Lc i = .ok x) :
    0 ≤ i ∧ i < Lc.length := by
  obtain ⟨h0, hx⟩ := (rd_ok_iff _ _ _).mp h
  obtain ⟨hn, _⟩ := List.getElem?_eq_some.mp hx
  omega

theorem lt_pinf_left (y : Dbl) : lt pinf y = false := by
  cases y <;> rfl

theorem sub_pinf_abs (y : Dbl) : lt (abs (y - pinf)) (fin eps) = false := by
  cases y <;> rfl

/-- With `beta = 0` the lower wall is at infinity: the pass is never the last one and
never moves `beta`. -/
theorem bwdBody_beta_zero (Lc : List ℚ) (p : Int) (s : BwdState) (x : Bool × BwdState)
    (hb : s.beta ≤ 0) (h : bwdBody Lc p s = .ok x) : x.1 = false ∧ x.2.beta = s.beta := by
  obtain ⟨hb1, vr, e1, e2, h | h⟩ := bwdBody_ok Lc p s x h
  · exfalso
    unfold bwdBottom at e1
    rw [if_neg (by omega)] at e1
    cases e1
    obtain ⟨hd, _⟩ := h
    rw [lt_pinf_left] at hd
    simp at hd
  · unfold bwdBottom at e1
    rw [if_neg (by omega)] at e1
    cases e1
    obtain ⟨_, sn1, sd1, _, _, rfl⟩ := h
    simp only [sub_pinf_abs, Bool.false_eq_true, if_false, and_self]

theorem bwdLoop_beta_zero (Lc : List ℚ) (p : Int) :
    ∀ (n : Nat) (s s1 : BwdState), s.beta ≤ 0 → bwdLoop Lc p n s ≠ .ok s1 := by
  intro n
  induction n with
  | zero => intro s s1 _ h; simp [bwdLoop] at h
  | succ n ih =>
    intro s s1 hb h
    rw [bwdLoop, except_bind_eq_ok] at h
    obtain ⟨x, hx, h⟩ := h
    obtain ⟨d, b⟩ := bwdBody_beta_zero Lc p s x hb hx
    rw [d] at h
    simp only [Bool.false_eq_true, if_false] at h
    exact ih x.2 s1 (by omega) h

/-- With `alpha` on the last index the right wall is `0`: the pass reads past the end
of the spectrum. -/
theorem bwdBody_alpha_last (Lc : List ℚ) (s : BwdState) (x : Bool × BwdState)
    (sn sd u v lb : ℚ) (h1 : s.slope_num = fin sn) (h2 : s.slope_denom = fin sd)
    (h3 : s.u_cur = fin u) (h4 : s.v_cur = fin v) (hsn : 0 < sn) (hsd : 0 < sd)
    (hu : 0 < u) (huv : u ≤ v) (hbeta : 0 < s.beta) (hlb : rd Lc (s.beta - 1) = .ok lb)
    (plb : 0 < lb) (hV : 1 / lb ≤ v) (halpha : (Lc.length : Int) - 1 ≤ s.alpha) :
    bwdBody Lc Lc.length s ≠ .ok x := by
  intro h
  obtain ⟨hb1, vr, e1, e2, h | h⟩ := bwdBody_ok Lc _ s x h
  · unfold bwdRight at e2
    rw [if_neg (by omega)] at e2
    cases e2
    obtain ⟨hd, _⟩ := h
    unfold bwdDiag at hd
    rw [h1, h2, h3, h4] at hd
    simp only [fin_mul, fin_add, fin_div _ _ (ne_of_gt (add_pos hsn hsd)), lt_fin,
      Bool.and_eq_true, decide_eq_true_eq] at hd
    have := (qDiag_mem sn sd u v hsn hsd huv).1
    unfold qDiag at this
    linarith [hd.1]
  · unfold bwdRight at e2
    rw [if_neg (by omega)] at e2
    cases e2
    unfold bwdBottom at e1
    rw [if_pos hbeta, hlb] at e1
    cases e1
    obtain ⟨_, sn1, sd1, hr, _, _⟩ := h
    have h0 : 0 ≤ sd * (v - 1 / lb) / sn := by
      have : 0 ≤ v - 1 / lb := by linarith
      positivity
    have hpos : 0 < u - sd * (1 / lb - v) / sn := by
      have e0 : u - sd * (1 / lb - v) / sn = u + sd * (v - 1 / lb) / sn := by ring
      rw [e0]; linarith
    have hun : bwdUNew (fin 1 / fin lb) (fin 0) s = fin 0 := by
      unfold bwdUNew
      rw [h1, h2, h3, h4, fin_div _ _ (ne_of_gt plb)]
      simp only [fin_sub, fin_mul, fin_div _ _ (ne_of_gt hsn), lt_fin, hpos, decide_True,
        if_true]
    rw [hun] at hr
    simp only [fin_sub, abs_fin, lt_fin, sub_self, abs_zero, eps_pos, decide_True, if_true] at hr
    obtain ⟨y, hy, _⟩ := hr
    have := (rd_lt_length _ _ _ hy).2
    omega

theorem bwdMono_step (Lc : List ℚ) (hs : Lc.Pairwise (fun a b => b ≤ a))
    (hpos : ∀ x ∈ Lc, 0 < x) (s : BwdState) (x : Bool × BwdState) (hm : BwdMono Lc s)
    (hbeta : 0 < s.beta) (h : bwdBody Lc Lc.length s = .ok x) :
    (x.1 = true → List.Chain' (fun a b => le a b = true) x.2.kmax_vec) ∧
      (x.1 = false → BwdMono Lc x.2) := by
  obtain ⟨sn, sd, u, v, h1, h2, h3, h4, hsn, hsd, hu, huv, ha0, hbl, hU, hV, kt, hk, hch⟩ := hm
  obtain ⟨lb, hlb⟩ := rd_in_range Lc (s.beta - 1) (by omega) (by omega)
  have plb := hpos _ (rd_ok_mem _ _ _ hlb)
  by_cases halpha : s.alpha < (Lc.length : Int) - 1
  · obtain ⟨la, hla⟩ := rd_in_range Lc (s.alpha + 1) (by omega) (by omega)
    have pla := hpos _ (rd_ok_mem _ _ _ hla)
    rw [bwdBody_alive Lc _ s sn sd u v lb la h1 h2 h3 h4 hsn hsd hbeta halpha hlb hla plb pla] at h
    have hx : x = bwdNext sn sd u v lb la s := by cases h; rfl
    subst hx
    unfold bwdNext
    by_cases hd : qDiag sn sd u v < 1 / la ∧ 1 / lb < qDiag sn sd u v
    · rw [if_pos hd]
      refine ⟨fun _ => ?_, fun hc => by cases hc⟩
      show List.Chain' _ (fin 1 :: s.kmax_vec)
      rw [hk] at hch ⊢
      rw [List.chain'_cons]
      refine ⟨?_, hch⟩
      simp only [le_fin, decide_eq_true_eq]
      exact (one_le_div hu).mpr huv
    · rw [if_neg hd]
      refine ⟨fun hc => (by cases hc), fun _ => ?_⟩
      obtain ⟨r1, r2, r3, r4, _, _, _⟩ :=
        qU_qV_range sn sd u v (1 / lb) (1 / la) hsn hsd (hU la hla) (hV lb hlb)
      have r5 := qU_le_qV sn sd u v (1 / lb) (1 / la) hsn hsd (hU la hla) (hV lb hlb) hd
      have pun : 0 < qU sn sd u v (1 / lb) (1 / la) := lt_of_lt_of_le hu r1
      refine ⟨_, _, _, _, rfl, rfl, rfl, rfl, ?_, ?_, pun, r5, ?_, ?_, ?_, ?_, s.kmax_vec, ?_, ?_⟩
      · split
        · linarith
        · exact hsn
      · split
        · linarith
        · exact hsd
      · show (0 : Int) ≤ (if _ then s.alpha + 1 else s.alpha)
        split
        · show (0 : Int) ≤ s.alpha + 1
          omega
        · exact ha0
      · show (if _ then s.beta - 1 else s.beta) < (Lc.length : Int)
        split
        · show s.beta - 1 < (Lc.length : Int)
          omega
        · exact hbl
      · intro y hy
        have hy' : rd Lc ((if |qU sn sd u v (1 / lb) (1 / la) - 1 / la| < eps then s.alpha + 1
            else s.alpha) + 1) = .ok y := hy
        have py := hpos _ (rd_ok_mem _ _ _ hy')
        have hle : y ≤ la := rd_sorted Lc hs _ _ la y hla hy' (by split <;> omega)
        have : 1 / la ≤ 1 / y := one_div_le_one_div_of_le py hle
        linarith
      · intro y hy
        have hy' : rd Lc ((if |qV sn sd u v (1 / lb) (1 / la) - 1 / lb| < eps then s.beta - 1
            else s.beta) - 1) = .ok y := hy
        have hle : lb ≤ y := rd_sorted Lc hs _ _ y lb hy' hlb (by split <;> omega)
        have : 1 / y ≤ 1 / lb := one_div_le_one_div_of_le plb hle
        linarith
      · show fin _ / fin _ :: _ = _
        rw [fin_div _ _ (ne_of_gt pun)]
      · show List.Chain' _ (fin _ / fin _ :: s.kmax_vec)
        rw [fin_div _ _ (ne_of_gt pun)]
        rw [hk] at hch ⊢
        rw [List.chain'_cons]
        refine ⟨?_, hch⟩
        simp only [le_fin, decide_eq_true_eq]
        exact div_le_div₀ (by linarith) r4 hu r1
  · exfalso
    exact bwdBody_alpha_last Lc s x sn sd u v lb h1 h2 h3 h4 hsn hsd hu huv hbeta hlb plb
      (hV lb hlb) (by omega) h

theorem bwdLoop_mono (Lc : List ℚ) (hs : Lc.Pairwise (fun a b => b ≤ a))
    (hpos : ∀ x ∈ Lc, 0 < x) :
    ∀ (n : Nat) (s s1 : BwdState), BwdMono Lc s → bwdLoop Lc Lc.length n s = .ok s1 →
      List.Chain' (fun a b => le a b = true) s1.kmax_vec := by
  intro n
  induction n with
  | zero => intro s s1 _ h; simp [bwdLoop] at h
  | succ n ih =>
    intro s s1 hm h
    by_cases hbeta : 0 < s.beta
    · rw [bwdLoop, except_bind_eq_ok] at h
      obtain ⟨x, hx, h⟩ := h
      obtain ⟨c1, c2⟩ := bwdMono_step Lc hs hpos s x hm hbeta hx
      by_cases hd : x.1 = true
      · rw [if_pos hd] at h
        cases h
        exact c1 hd
      · rw [if_neg hd] at h
        exact ih x.2 s1 (c2 (by simpa using hd)) h
    · exact absurd h (bwdLoop_beta_zero Lc _ (n + 1) s s1 (by omega))

theorem path_backward_eq (fuel : Nat) (L : List ℚ) :
    path_backward fuel L = bwdInit L >>= fun s0 =>
      bwdLoop (floorEps L) L.length fuel s0 >>= fun s =>
      pure { k := s.kmax_vec, u := s.u_vec, v := s.v_vec } := by
  unfold path_backward bwdInit
  simp only [bind_assoc, pure_bind]

/-- On a non-increasing spectrum with every entry at least machine epsilon the sweep
starts from `alpha = 0`, `beta = p - 1`, `u = 1/L[0]`, `v = 1/L[p-1]`. -/
theorem bwdInit_sorted (L : List ℚ) (hs : L.Pairwise (fun a b => b ≤ a))
    (he : ∀ x ∈ L, eps ≤ x) (hne : L ≠ []) :
    ∃ l0 lr : ℚ, rd L 0 = .ok l0 ∧ rd L ((L.length : Int) - 1) = .ok lr ∧ 0 < lr ∧ lr ≤ l0 ∧
      bwdInit L = .ok
        { alpha := 0, beta := (L.length : Int) - 1, slope_num := fin l0,
          slope_denom := fin lr, u_cur := fin (1 / l0), v_cur := fin (1 / lr),
          u_vec := [fin (1 / l0), fin (1 / l0)], v_vec := [fin (1 / lr), pinf],
          kmax_vec := [fin (1 / lr / (1 / l0)), pinf] } := by
  have hlen : 0 < L.length := List.length_pos.mpr hne
  have hpos : ∀ x ∈ L, 0 < x := fun x hx => lt_of_lt_of_le eps_pos (he x hx)
  obtain ⟨l0, h0⟩ := rd_in_range L 0 (le_refl _) (by omega)
  obtain ⟨lr, hr⟩ := rd_in_range L ((L.length : Int) - 1) (by omega) (by omega)
  have p0 := hpos _ (rd_ok_mem _ _ _ h0)
  have pr := hpos _ (rd_ok_mem _ _ _ hr)
  have hle : lr ≤ l0 := rd_sorted L hs _ _ l0 lr h0 hr (by omega)
  refine ⟨l0, lr, h0, hr, pr, hle, ?_⟩
  have hstart : bwdStartAlpha L L.length L.length (L.length + 1) (0, fin l0, fin (1 / l0))
      = .ok (0, fin l0, fin (1 / l0)) := by
    rw [bwdStartAlpha]
    simp only [h0, bind, Except.bind, fin_div _ _ (ne_of_gt p0), lt_fin, lt_irrefl,
      decide_False, Bool.false_eq_true, if_false]
    by_cases h1 : (0 : Int) < (L.length : Int) - 1
    · obtain ⟨l1, hl1⟩ := rd_in_range L (0 + 1) (by omega) (by omega)
      have p1 := hpos _ (rd_ok_mem _ _ _ hl1)
      have hle1 : l1 ≤ l0 := rd_sorted L hs _ _ l0 l1 h0 hl1 (by omega)
      have : ¬ 1 / l1 < 1 / l0 := not_lt.mpr (one_div_le_one_div_of_le p1 hle1)
      simp only [if_pos h1, hl1, pure, Except.pure, fin_div _ _ (ne_of_gt p1), lt_fin, this,
        decide_False, Bool.false_eq_true, if_false]
    · simp only [if_neg h1, pure, Except.pure, Bool.false_eq_true, if_false]
  unfold bwdInit
  have hz : numzero L = 0 := numzero_of_ge L he
  have e1 : ((L.length : Int) - ((0 : Nat) : Int)) = (L.length : Int) := by simp
  simp only [floorEps_of_ge L he, hz, e1, h0, bind, Except.bind]
  have e2 : (0 + 1 + ((L.length : Int) : ℚ) - ((L.length : Int) : ℚ)) = 1 := by ring
  simp only [e2, fin_div _ _ (ne_of_gt p0), hstart, hr, pure, Except.pure,
    fin_div _ _ (ne_of_gt pr), fin_div _ _ (ne_of_gt (one_div_pos.mpr p0))]

theorem bwdMono_init (L : List ℚ) (hs : L.Pairwise (fun a b => b ≤ a))
    (hpos : ∀ x ∈ L, 0 < x) (l0 lr : ℚ) (h0 : rd L 0 = .ok l0)
    (hr : rd L ((L.length : Int) - 1) = .ok lr) :
    BwdMono L
      { alpha := 0, beta := (L.length : Int) - 1, slope_num := fin l0,
        slope_denom := fin lr, u_cur := fin (1 / l0), v_cur := fin (1 / lr),
        u_vec := [fin (1 / l0), fin (1 / l0)], v_vec := [fin (1 / lr), pinf],
        kmax_vec := [fin (1 / lr / (1 / l0)), pinf] } := by
  have p0 := hpos _ (rd_ok_mem _ _ _ h0)
  have pr := hpos _ (rd_ok_mem _ _ _ hr)
  have hle : lr ≤ l0 := rd_sorted L hs _ _ l0 lr h0 hr (rd_lt_length _ _ _ hr).1
  refine ⟨l0, lr, 1 / l0, 1 / lr, rfl, rfl, rfl, rfl, p0, pr, by positivity,
    one_div_le_one_div_of_le pr hle, le_refl _, ?_, ?_, ?_, [pinf], rfl, ?_⟩
  · show (L.length : Int) - 1 < L.length
    omega
  · intro y hy
    have hy' : rd L (0 + 1) = .ok y := hy
    have py := hpos _ (rd_ok_mem _ _ _ hy')
    exact one_div_le_one_div_of_le py (rd_sorted L hs _ _ l0 y h0 hy' (by omega))
  · intro y hy
    have hy' : rd L ((L.length : Int) - 1 - 1) = .ok y := hy
    exact one_div_le_one_div_of_le pr (rd_sorted L hs _ _ y lr hy' hr (by omega))
  · rw [List.chain'_cons]
    exact ⟨rfl, List.chain'_singleton _⟩

/-- The `k` of every path that the backward solver returns on a non-increasing spectrum
with every entry at least machine epsilon ascend. -/
theorem path_backward_chain (L : List ℚ) (hs : L.Pairwise (fun a b => b ≤ a))
    (he : ∀ x ∈ L, eps ≤ x) (fuel : Nat) (path : PathResult)
    (h : path_backward fuel L = .ok path) :
    List.Chain' (fun a b => le a b = true) path.k := by
  have hne : L ≠ [] := by
    rintro rfl
    cases h
  have hpos : ∀ x ∈ L, 0 < x := fun x hx => lt_of_lt_of_le eps_pos (he x hx)
  obtain ⟨l0, lr, h0, hr, _, _, hinit⟩ := bwdInit_sorted L hs he hne
  rw [path_backward_eq, hinit, floorEps_of_ge L he] at h
  simp only [bind, Except.bind] at h
  split at h
  · cases h
  · rename_i s hl
    cases h
    exact bwdLoop_mono L hs hpos fuel _ s (bwdMono_init L hs hpos l0 lr h0 hr) hl

/-! ### The backward sweep with exact touch tests -/

theorem rd_sorted_strict (Lc : List ℚ) (hs : Lc.Pairwise (fun a b => b < a)) (i j : Int)
    (x y : ℚ) (hi : rd Lc i = .ok x) (hj : rd Lc j = .ok y) (hij : i < j) : y < x := by
  obtain ⟨h0, hx⟩ := (rd_ok_iff _ _ _).mp hi
  obtain ⟨h1, hy⟩ := (rd_ok_iff _ _ _).mp hj
  obtain ⟨hi1, rfl⟩ := List.getElem?_eq_some.mp hx
  obtain ⟨hj1, rfl⟩ := List.getElem?_eq_some.mp hy
  exact (List.pairwise_iff_getElem.mp hs) i.toNat j.toNat hi1 hj1 (by omega)

theorem rd_unique (Lc : List ℚ) (i j : Int) (x y : ℚ) (hi : rd Lc i = .ok x)
    (hj : rd Lc j = .ok y) (hij : i = j) : x = y := by
  subst hij
  rw [hi] at hj
  cases hj
  rfl

/-- What an exact touch test says on finite values. -/
theorem bwdTouch_alive (Lc : List ℚ) (p : Int) (s : BwdState) (sn sd u v lb la : ℚ)
    (h1 : s.slope_num = fin sn) (h2 : s.slope_denom = fin sd) (h3 : s.u_cur = fin u)
    (h4 : s.v_cur = fin v) (hsn : 0 < sn) (hsd : 0 < sd)
    (hbeta : 0 < s.beta) (halpha : s.alpha < p - 1)
    (hlb : rd Lc (s.beta - 1) = .ok lb) (hla : rd Lc (s.alpha + 1) = .ok la)
    (plb : 0 < lb) (pla : 0 < la) (ht : bwdTouch Lc p s = true) :
    (|qU sn sd u v (1 / lb) (1 / la) - 1 / la| < eps → qU sn sd u v (1 / lb) (1 / la) = 1 / la) ∧
    (|qV sn sd u v (1 / lb) (1 / la) - 1 / lb| < eps → qV sn sd u v (1 / lb) (1 / la) = 1 / lb) := by
  unfold bwdTouch bwdBottom bwdRight at ht
  simp only [if_pos hbeta, if_pos halpha, hlb, hla, bind, Except.bind, pure, Except.pure,
    fin_div _ _ (ne_of_gt plb), fin_div _ _ (ne_of_gt pla)] at ht
  have eu : bwdUNew (fin (1 / lb)) (fin (1 / la)) s = fin (qU sn sd u v (1 / lb) (1 / la)) := by
    unfold bwdUNew qU
    simp only [h1, h2, h3, h4, fin_sub, fin_mul, fin_div _ _ (ne_of_gt hsn), lt_fin,
      decide_eq_true_eq]
    split <;> rfl
  have ev : bwdVNew (fin (1 / lb)) (fin (1 / la)) s = fin (qV sn sd u v (1 / lb) (1 / la)) := by
    unfold bwdVNew qV
    rw [eu]
    unfold qU
    simp only [h1, h2, h3, h4, fin_sub, fin_mul, fin_div _ _ (ne_of_gt hsn), lt_fin,
      decide_eq_true_eq]
    split
    · rename_i ho
      simp only [if_pos ho, fin_sub, fin_mul, fin_div _ _ (ne_of_gt hsd)]
    · rfl
  rw [eu, ev] at ht
  simp only [fin_sub, abs_fin, lt_fin, Bool.and_eq_true, Bool.or_eq_true, Bool.not_eq_true',
    decide_eq_false_iff_not, decide_eq_true_eq, Dbl.fin.injEq] at ht
  obtain ⟨t1, t2⟩ := ht
  constructor
  · intro h
    rcases t1 with t1 | t1
    · exact absurd h t1
    · exact t1
  · intro h
    rcases t2 with t2 | t2
    · exact absurd h t2
    · exact t2

/-- Once the two cursors meet, the pass is the last one and the vertex it inserts is
the diagonal point `1/mean`. -/
theorem bwdSweep_done (Lc : List ℚ) (hpos : ∀ x ∈ Lc, 0 < x) (s : BwdState)
    (hm : BwdSweep Lc s) (hc : s.beta ≤ s.alpha + 1) :
    bwdBody Lc Lc.length s = .ok (true,
      { s with u_vec := fin (1 / (Lc.sum / Lc.length)) :: s.u_vec,
               v_vec := fin (1 / (Lc.sum / Lc.length)) :: s.v_vec,
               kmax_vec := fin 1 :: s.kmax_vec }) := by
  obtain ⟨sn, sd, u, v, h1, h2, h3, h4, ⟨a1, a2, a3, a4, a5⟩, hsn, hsd, hline, psn, psd, pu, huv,
    e1, e2, e3, e4⟩ := hm
  obtain ⟨lb, hlb⟩ := rd_in_range Lc (s.beta - 1) (by omega) (by omega)
  obtain ⟨la, hla⟩ := rd_in_range Lc (s.alpha + 1) (by omega) (by omega)
  obtain ⟨x, hx⟩ := rd_in_range Lc s.alpha (by omega) (by omega)
  have plb := hpos _ (rd_ok_mem _ _ _ hlb)
  have pla := hpos _ (rd_ok_mem _ _ _ hla)
  have px := hpos _ (rd_ok_mem _ _ _ hx)
  rw [bwdBody_alive Lc _ s sn sd u v lb la h1 h2 h3 h4 psn psd (by omega) (by omega) hlb hla
    plb pla]
  obtain ⟨d1, d2, d3, d4⟩ := qDiag_mem sn sd u v psn psd huv
  have hlen : (0 : ℚ) < Lc.length := by
    have : 0 < Lc.length := by omega
    exact_mod_cast this
  have hsum : 0 < Lc.sum := sum_pos_of_pos Lc (by intro h; rw [h] at a2; simp at a2; omega) hpos
  have hdone : qDiag sn sd u v < 1 / la ∧ 1 / lb < qDiag sn sd u v := by
    rcases lt_or_eq_of_le huv with hlt | heq
    · have hb : s.beta = s.alpha + 1 := by
        by_contra hne
        have hab : s.alpha = s.beta := by omega
        have := e4 x (hab ▸ hx)
        have := e1 x hx
        linarith
      have := e4 la (hb ▸ hla)
      have hlb2 : rd Lc s.alpha = .ok lb := by
        have : s.beta - 1 = s.alpha := by omega
        rw [← this]; exact hlb
      have := e1 lb hlb2
      exact ⟨by linarith [d4 hlt], by linarith [d3 hlt]⟩
    · have := e2 la hla
      have := e3 lb hlb
      constructor <;> linarith
  have hval : qDiag sn sd u v = 1 / (Lc.sum / Lc.length) := by
    rw [one_div_div]
    unfold qDiag
    rw [hline]
    have hxq := ((rd_ok_iff _ _ _).mp hx).2
    by_cases hb : s.beta = s.alpha + 1
    · have hsd2 : sn + sd = Lc.sum := by
        rw [hsn, hsd, hb]
        exact List.sum_take_add_sum_drop Lc _
      rw [hsd2, hb]
      congr 1
      push_cast
      ring
    · have hab : s.beta = s.alpha := by omega
      have hux : u = 1 / x := le_antisymm (by have := e4 x (hab ▸ hx); linarith) (e1 x hx)
      have hvx : v = 1 / x := le_antisymm (e4 x (hab ▸ hx)) (by have := e1 x hx; linarith)
      have hsd2 : sn + sd = Lc.sum + x := by
        rw [hsn, hsd, hab]
        have t1 : (s.alpha + 1).toNat = s.alpha.toNat + 1 := by omega
        rw [t1, take_succ_sum Lc _ x hxq]
        have := List.sum_take_add_sum_drop Lc s.alpha.toNat
        linarith
      have hl2 : (sn + sd) * (1 / x) = (Lc.length : ℚ) + 1 := by
        have : sn * u + sd * v = (sn + sd) * (1 / x) := by rw [hux, hvx]; ring
        rw [← this, hline, hab]
        push_cast
        ring
      rw [hsd2] at hl2
      have hS : Lc.sum = (Lc.length : ℚ) * x := by
        field_simp at hl2
        linarith
      rw [hsd2, hab, hS]
      push_cast
      field_simp
      ring
  unfold bwdNext
  rw [if_pos hdone, hval]

/-- While the cursors are apart, a pass with an exact touch test is not the last one,
keeps the invariant and brings the cursors closer. -/
theorem bwdSweep_step (Lc : List ℚ) (hs : Lc.Pairwise (fun a b => b < a))
    (hpos : ∀ x ∈ Lc, 0 < x) (s : BwdState) (hm : BwdSweep Lc s)
    (hc : s.alpha + 1 < s.beta) :
    ∃ s1, bwdBody Lc Lc.length s = .ok (false, s1) ∧
      (bwdTouch Lc Lc.length s = true →
        BwdSweep Lc s1 ∧ s1.beta - s1.alpha < s.beta - s.alpha) := by
  obtain ⟨sn, sd, u, v, h1, h2, h3, h4, ⟨a1, a2, a3, a4, a5⟩, hsn, hsd, hline, psn, psd, pu, huv,
    e1, e2, e3, e4⟩ := hm
  obtain ⟨lb, hlb⟩ := rd_in_range Lc (s.beta - 1) (by omega) (by omega)
  obtain ⟨la, hla⟩ := rd_in_range Lc (s.alpha + 1) (by omega) (by omega)
  have plb := hpos _ (rd_ok_mem _ _ _ hlb)
  have pla := hpos _ (rd_ok_mem _ _ _ hla)
  have hsl : Lc.Pairwise (fun a b => b ≤ a) := hs.imp le_of_lt
  have hlalb : lb ≤ la := rd_sorted Lc hsl _ _ la lb hla hlb (by omega)
  have hwall : 1 / la ≤ 1 / lb := one_div_le_one_div_of_le plb hlalb
  obtain ⟨r1, r2, r3, r4, r5, r6, r7⟩ := qU_qV_range sn sd u v (1 / lb) (1 / la) psn psd
    (le_of_lt (e2 la hla)) (le_of_lt (e3 lb hlb))
  have hnd : ¬ (qDiag sn sd u v < 1 / la ∧ 1 / lb < qDiag sn sd u v) := by
    rintro ⟨c1, c2⟩
    linarith
  rw [bwdBody_alive Lc _ s sn sd u v lb la h1 h2 h3 h4 psn psd (by omega) (by omega) hlb hla
    plb pla]
  unfold bwdNext
  rw [if_neg hnd]
  refine ⟨_, rfl, fun ht => ?_⟩
  obtain ⟨t1, t2⟩ := bwdTouch_alive Lc _ s sn sd u v lb la h1 h2 h3 h4 psn psd (by omega)
    (by omega) hlb hla plb pla ht
  generalize qU sn sd u v (1 / lb) (1 / la) = un at t1 t2 r1 r2 r3 r4 r5 r6 r7
  generalize qV sn sd u v (1 / lb) (1 / la) = vn at t1 t2 r1 r2 r3 r4 r5 r6 r7
  have pun : 0 < un := lt_of_lt_of_le pu r1
  have hα : ∃ (α1 : Int) (sn1 : ℚ),
      (if |un - 1 / la| < eps then s.alpha + 1 else s.alpha) = α1 ∧
      (if |un - 1 / la| < eps then sn + la else sn) = sn1 ∧
      ((α1 = s.alpha ∧ sn1 = sn ∧ un < 1 / la) ∨
        (α1 = s.alpha + 1 ∧ sn1 = sn + la ∧ un = 1 / la)) := by
    by_cases c : |un - 1 / la| < eps
    · exact ⟨_, _, rfl, rfl, Or.inr ⟨if_pos c, if_pos c, t1 c⟩⟩
    · refine ⟨_, _, rfl, rfl, Or.inl ⟨if_neg c, if_neg c, lt_of_le_of_ne r2 ?_⟩⟩
      intro h
      apply c
      rw [h, sub_self, abs_zero]
      exact eps_pos
  have hβ : ∃ (β1 : Int) (sd1 : ℚ),
      (if |vn - 1 / lb| < eps then s.beta - 1 else s.beta) = β1 ∧
      (if |vn - 1 / lb| < eps then sd + lb else sd) = sd1 ∧
      ((β1 = s.beta ∧ sd1 = sd ∧ 1 / lb < vn) ∨
        (β1 = s.beta - 1 ∧ sd1 = sd + lb ∧ vn = 1 / lb)) := by
    by_cases c : |vn - 1 / lb| < eps
    · exact ⟨_, _, rfl, rfl, Or.inr ⟨if_pos c, if_pos c, t2 c⟩⟩
    · refine ⟨_, _, rfl, rfl, Or.inl ⟨if_neg c, if_neg c, lt_of_le_of_ne r3 ?_⟩⟩
      intro h
      apply c
      rw [← h, sub_self, abs_zero]
      exact eps_pos
  obtain ⟨α1, sn1, dα, dsn, hα⟩ := hα
  obtain ⟨β1, sd1, dβ, dsd, hβ⟩ := hβ
  rw [dα, dsn, dβ, dsd]
  have hla1 : la * (1 / la) = 1 := by field_simp
  have hlb1 : lb * (1 / lb) = 1 := by field_simp
  have hlaq := ((rd_ok_iff _ _ _).mp hla).2
  have hlbq := ((rd_ok_iff _ _ _).mp hlb).2
  have hmove : β1 - α1 < s.beta - s.alpha := by
    rcases hα with ⟨ea, _, eu⟩ | ⟨ea, _, eu⟩ <;> rcases hβ with ⟨eb, _, ev⟩ | ⟨eb, _, ev⟩
    · exfalso
      rcases r6 with h | h
      · linarith
      · linarith
    · omega
    · omega
    · omega
  refine ⟨⟨sn1, sd1, un, vn, rfl, rfl, rfl, rfl, ?_, ?_, ?_, ?_, ?_, ?_, pun, ?_, ?_, ?_,
    ?_, ?_⟩, hmove⟩
  · show 0 ≤ α1 ∧ α1 ≤ (Lc.length : Int) - 2 ∧ 1 ≤ β1 ∧ β1 ≤ (Lc.length : Int) - 1 ∧ α1 ≤ β1
    rcases hα with ⟨ea, _, _⟩ | ⟨ea, _, _⟩ <;> rcases hβ with ⟨eb, _, _⟩ | ⟨eb, _, _⟩ <;> omega
  · show sn1 = (Lc.take (α1 + 1).toNat).sum
    rcases hα with ⟨ea, es, _⟩ | ⟨ea, es, _⟩
    · rw [ea, es]; exact hsn
    · have t : (α1 + 1).toNat = (s.alpha + 1).toNat + 1 := by omega
      rw [t, take_succ_sum Lc _ la hlaq, es, hsn]
  · show sd1 = (Lc.drop β1.toNat).sum
    rcases hβ with ⟨eb, es, _⟩ | ⟨eb, es, _⟩
    · rw [eb, es]; exact hsd
    · have t : s.beta.toNat = (s.beta - 1).toNat + 1 := by omega
      rw [eb, drop_sum Lc _ lb hlbq, ← t, es, hsd]
      ring
  · show sn1 * un + sd1 * vn = ((α1 + 1 + ((Lc.length : Int) - β1) : Int) : ℚ)
    rw [hline] at r7
    push_cast at r7 ⊢
    rcases hα with ⟨ea, es, eu⟩ | ⟨ea, es, eu⟩ <;> rcases hβ with ⟨eb, es2, ev⟩ | ⟨eb, es2, ev⟩
    · rw [ea, es, eb, es2]; linarith
    · rw [ea, es, eb, es2]
      have : lb * vn = 1 := by rw [ev]; exact hlb1
      push_cast
      linarith
    · rw [ea, es, eb, es2]
      have : la * un = 1 := by rw [eu]; exact hla1
      push_cast
      linarith
    · rw [ea, es, eb, es2]
      have : la * un = 1 := by rw [eu]; exact hla1
      have : lb * vn = 1 := by rw [ev]; exact hlb1
      push_cast
      linarith
  · rcases hα with ⟨_, es, _⟩ | ⟨_, es, _⟩ <;> rw [es] <;> linarith
  · rcases hβ with ⟨_, es, _⟩ | ⟨_, es, _⟩ <;> rw [es] <;> linarith
  · linarith
  · intro x hx
    have hx1 : rd Lc α1 = .ok x := hx
    rcases hα with ⟨ea, _, _⟩ | ⟨ea, _, eu⟩
    · rw [ea] at hx1
      have := e1 x hx1
      linarith
    · rw [ea] at hx1
      rw [rd_unique Lc _ _ x la hx1 hla rfl, eu]
  · intro x hx
    have hx1 : rd Lc (α1 + 1) = .ok x := hx
    rcases hα with ⟨ea, _, eu⟩ | ⟨ea, _, eu⟩
    · rw [ea] at hx1
      rw [rd_unique Lc _ _ x la hx1 hla rfl]
      exact eu
    · rw [ea] at hx1
      have px := hpos _ (rd_ok_mem _ _ _ hx1)
      have hlt : x < la := rd_sorted_strict Lc hs _ _ la x hla hx1 (by omega)
      rw [eu]
      exact one_div_lt_one_div_of_lt px hlt
  · intro x hx
    have hx1 : rd Lc (β1 - 1) = .ok x := hx
    rcases hβ with ⟨eb, _, ev⟩ | ⟨eb, _, ev⟩
    · rw [eb] at hx1
      rw [rd_unique Lc _ _ x lb hx1 hlb rfl]
      exact ev
    · rw [eb] at hx1
      have hlt : lb < x := rd_sorted_strict Lc hs _ _ x lb hx1 hlb (by omega)
      rw [ev]
      exact one_div_lt_one_div_of_lt plb hlt
  · intro x hx
    have hx1 : rd Lc β1 = .ok x := hx
    rcases hβ with ⟨eb, _, _⟩ | ⟨eb, _, ev⟩
    · rw [eb] at hx1
      have := e4 x hx1
      linarith
    · rw [eb] at hx1
      rw [rd_unique Lc _ _ x lb hx1 hlb rfl, ev]

theorem bwdLoop_exact (Lc : List ℚ) (hs : Lc.Pairwise (fun a b => b < a))
    (hpos : ∀ x ∈ Lc, 0 < x) :
    ∀ (n : Nat) (s : BwdState), BwdSweep Lc s → s.beta - s.alpha < n →
      bwdExact Lc Lc.length n s = true →
      ∃ (s1 : BwdState) (kt ut vt : List Dbl), bwdLoop Lc Lc.length n s = .ok s1 ∧
        s1.kmax_vec = fin 1 :: kt ∧ s1.u_vec = fin (1 / (Lc.sum / Lc.length)) :: ut ∧
        s1.v_vec = fin (1 / (Lc.sum / Lc.length)) :: vt := by
  intro n
  induction n with
  | zero =>
    intro s hm hlt _
    obtain ⟨_, _, _, _, _, _, _, _, ⟨_, _, _, _, a5⟩, _⟩ := hm
    simp only [Nat.cast_zero] at hlt
    omega
  | succ n ih =>
    intro s hm hlt hex
    by_cases hc : s.beta ≤ s.alpha + 1
    · rw [bwdLoop, bwdSweep_done Lc hpos s hm hc]
      exact ⟨_, _, _, _, rfl, rfl, rfl, rfl⟩
    · obtain ⟨s1, hb, himp⟩ := bwdSweep_step Lc hs hpos s hm (by omega)
      rw [bwdExact, hb] at hex
      simp only [Bool.and_eq_true] at hex
      obtain ⟨hm1, hlt1⟩ := himp hex.1
      obtain ⟨s2, kt, ut, vt, hl, e1, e2, e3⟩ := ih s1 hm1 (by push_cast at hlt; omega) hex.2
      refine ⟨s2, kt, ut, vt, ?_, e1, e2, e3⟩
      rw [bwdLoop, hb]
      exact hl

theorem bwdSweep_init (L : List ℚ) (hs : L.Pairwise (fun a b => b < a))
    (hpos : ∀ x ∈ L, 0 < x) (hp : 2 ≤ L.length) (l0 lr : ℚ) (h0 : rd L 0 = .ok l0)
    (hr : rd L ((L.length : Int) - 1) = .ok lr) :
    BwdSweep L
      { alpha := 0, beta := (L.length : Int) - 1, slope_num := fin l0,
        slope_denom := fin lr, u_cur := fin (1 / l0), v_cur := fin (1 / lr),
        u_vec := [fin (1 / l0), fin (1 / l0)], v_vec := [fin (1 / lr), pinf],
        kmax_vec := [fin (1 / lr / (1 / l0)), pinf] } := by
  have p0 := hpos _ (rd_ok_mem _ _ _ h0)
  have pr := hpos _ (rd_ok_mem _ _ _ hr)
  have hlt : lr < l0 := rd_sorted_strict L hs _ _ l0 lr h0 hr (by omega)
  have h0q := ((rd_ok_iff _ _ _).mp h0).2
  have hrq := ((rd_ok_iff _ _ _).mp hr).2
  refine ⟨l0, lr, 1 / l0, 1 / lr, rfl, rfl, rfl, rfl, ?_, ?_, ?_, ?_, p0, pr, by positivity,
    le_of_lt (one_div_lt_one_div_of_lt pr hlt), ?_, ?_, ?_, ?_⟩
  · show (0 : Int) ≤ 0 ∧ (0 : Int) ≤ (L.length : Int) - 2 ∧ 1 ≤ (L.length : Int) - 1 ∧
      (L.length : Int) - 1 ≤ (L.length : Int) - 1 ∧ (0 : Int) ≤ (L.length : Int) - 1
    omega
  · show l0 = (L.take ((0 : Int) + 1).toNat).sum
    have t : ((0 : Int) + 1).toNat = 0 + 1 := by omega
    rw [t, take_succ_sum L 0 l0 (by simpa using h0q)]
    simp
  · show lr = (L.drop ((L.length : Int) - 1).toNat).sum
    rw [drop_sum L _ lr hrq]
    have t : ((L.length : Int) - 1).toNat + 1 = L.length := by omega
    rw [t]
    simp
  · show l0 * (1 / l0) + lr * (1 / lr) =
      (((0 : Int) + 1 + ((L.length : Int) - ((L.length : Int) - 1)) : Int) : ℚ)
    have e : ((0 : Int) + 1 + ((L.length : Int) - ((L.length : Int) - 1))) = 2 := by omega
    rw [e]
    field_simp
    norm_num
  · intro x hx
    have hx1 : rd L 0 = .ok x := hx
    rw [rd_unique L _ _ x l0 hx1 h0 rfl]
  · intro x hx
    have hx1 : rd L (0 + 1) = .ok x := hx
    have px := hpos _ (rd_ok_mem _ _ _ hx1)
    exact one_div_lt_one_div_of_lt px (rd_sorted_strict L hs _ _ l0 x h0 hx1 (by omega))
  · intro x hx
    have hx1 : rd L ((L.length : Int) - 1 - 1) = .ok x := hx
    exact one_div_lt_one_div_of_lt pr (rd_sorted_strict L hs _ _ x lr hx1 hr (by omega))
  · intro x hx
    have hx1 : rd L ((L.length : Int) - 1) = .ok x := hx
    rw [rd_unique L _ _ x lr hx1 hr rfl]

/-- On a strictly decreasing spectrum of at least two entries, all at least machine
epsilon, a backward run with exact touch tests returns within `p` passes, and the
first vertex of its path is the diagonal point `(1/mean, 1/mean)` with `k = 1`. -/
theorem path_backward_exact (L : List ℚ) (hs : L.Pairwise (fun a b => b < a))
    (hp : 2 ≤ L.length) (he : ∀ x ∈ L, eps ≤ x) (fuel : Nat) (hf : L.length ≤ fuel)
    (hx : bwdExactRun fuel L = true) :
    ∃ (path : PathResult) (kt ut vt : List Dbl), path_backward fuel L = .ok path ∧
      path.k = fin 1 :: kt ∧ path.u = fin (1 / (L.sum / L.length)) :: ut ∧
      path.v = fin (1 / (L.sum / L.length)) :: vt := by
  have hne : L ≠ [] := by
    rintro rfl
    simp at hp
  have hpos : ∀ x ∈ L, 0 < x := fun x hx => lt_of_lt_of_le eps_pos (he x hx)
  obtain ⟨l0, lr, h0, hr, _, _, hinit⟩ := bwdInit_sorted L (hs.imp le_of_lt) he hne
  unfold bwdExactRun at hx
  rw [hinit, floorEps_of_ge L he] at hx
  obtain ⟨s1, kt, ut, vt, hl, e1, e2, e3⟩ := bwdLoop_exact L hs hpos fuel _
    (bwdSweep_init L hs hpos hp l0 lr h0 hr)
    (by show (L.length : Int) - 1 - 0 < (fuel : Int); omega) hx
  refine ⟨{ k := s1.kmax_vec, u := s1.u_vec, v := s1.v_vec }, kt, ut, vt, ?_, e1, e2, e3⟩
  rw [path_backward_eq, hinit, floorEps_of_ge L he]
  show (bwdLoop L L.length fuel _ >>= fun s => _) = _
  rw [hl]
  rfl

theorem chain_pairs {α : Type} (R : α → α → Prop) :
    ∀ (l : List α), l.Chain' R → ∀ (i : Nat) (a b : α), l[i]? = some a → l[i + 1]? = some b →
      R a b := by
  intro l
  induction l with
  | nil => intro _ i a b h; simp at h
  | cons x t ih =>
    intro hc i a b ha hb
    cases t with
    | nil => simp at hb
    | cons y t1 =>
      rw [List.chain'_cons] at hc
      cases i with
      | zero =>
        simp only [List.getElem?_cons_zero, List.getElem?_cons_succ, zero_add,
          Option.some.injEq] at ha hb
        rw [← ha, ← hb]
        exact hc.1
      | succ j =>
        simp only [List.getElem?_cons_succ] at ha hb
        exact ih hc.2 j a b ha (by simpa using hb)

/-! ### The states of the forward sweep -/

theorem path_forward_eq (L : List ℚ) :
    path_forward L = fwdStart L >>= fun s0 =>
      fwdLoop (floorEps L) ((L.length : Int) - (numzero L : Int)) (L.length + 1) s0 >>= fun s =>
      pure { k := s.kmax_vec ++ [pinf], u := s.u_vec ++ [s.u_vec.getLastD nan],
             v := s.v_vec ++ [pinf] } := by
  unfold path_forward fwdStart
  by_cases h : L.length = 0
  · simp only [if_pos h]
    rfl
  · simp only [if_neg h, bind_assoc, pure_bind]

theorem fwdStates_ne_nil (Lc : List ℚ) (r : Int) (n : Nat) (s : FwdState) :
    ∃ t, fwdStates Lc r n s = s :: t := by
  cases n with
  | zero => exact ⟨[], rfl⟩
  | succ n =>
    rw [fwdStates]
    split
    · split
      · exact ⟨_, rfl⟩
      · exact ⟨[], rfl⟩
    · exact ⟨[], rfl⟩

/-- The last of the loop states is the state the loop returns. -/
theorem fwdStates_last (Lc : List ℚ) (r : Int) :
    ∀ (n : Nat) (s s1 : FwdState), fwdLoop Lc r n s = .ok s1 →
      (fwdStates Lc r n s).getLast? = some s1 ∧
      (fwdStates Lc r n s).length + s.kmax_vec.length = s1.kmax_vec.length + 1 := by
  intro n
  induction n with
  | zero => intro s s1 h; simp [fwdLoop] at h
  | succ n ih =>
    intro s s1 h
    rw [fwdLoop] at h
    rw [fwdStates]
    by_cases hc : 0 ≤ s.alpha ∧ s.beta ≤ r - 1
    · rw [if_pos hc] at h ⊢
      rw [except_bind_eq_ok] at h
      obtain ⟨s2, hb, h⟩ := h
      obtain ⟨i1, i2⟩ := ih s2 s1 h
      obtain ⟨t, ht⟩ := fwdStates_ne_nil Lc r n s2
      simp only [hb]
      constructor
      · rw [ht, List.getLast?_cons_cons, ← ht]
        exact i1
      · have hk : s2.kmax_vec.length = s.kmax_vec.length + 1 := by
          unfold fwdBody at hb
          simp only [except_bind_eq_ok] at hb
          obtain ⟨lb, _, la, _, e⟩ := hb
          cases e
          simp [fwdStep]
        simp only [List.length_cons]
        omega
    · rw [if_neg hc] at h ⊢
      cases h
      simp
      omega

/-- A property that every pass of the loop keeps holds in every loop state, and
consecutive loop states are related by one pass. -/
theorem fwdStates_chain (Lc : List ℚ) (r : Int) (P : FwdState → Prop)
    (hstep : ∀ s s1, P s → 0 ≤ s.alpha → s.beta ≤ r - 1 → fwdBody Lc s = .ok s1 → P s1) :
    ∀ (n : Nat) (s : FwdState), P s →
      List.Chain' (fun a b => P a ∧ 0 ≤ a.alpha ∧ a.beta ≤ r - 1 ∧ fwdBody Lc a = .ok b)
        (fwdStates Lc r n s) ∧
      ∀ x ∈ fwdStates Lc r n s, P x := by
  intro n
  induction n with
  | zero =>
    intro s hP
    simp [fwdStates, hP]
  | succ n ih =>
    intro s hP
    rw [fwdStates]
    by_cases hc : 0 ≤ s.alpha ∧ s.beta ≤ r - 1
    · rw [if_pos hc]
      cases hb : fwdBody Lc s with
      | error e => simp [hP]
      | ok s1 =>
        simp only
        have hP1 := hstep s s1 hP hc.1 hc.2 hb
        obtain ⟨i1, i2⟩ := ih s1 hP1
        obtain ⟨t, ht⟩ := fwdStates_ne_nil Lc r n s1
        constructor
        · rw [ht] at i1 ⊢
          rw [List.chain'_cons]
          exact ⟨⟨hP, hc.1, hc.2, hb⟩, i1⟩
        · intro x hx
          rcases List.mem_cons.mp hx with hx | hx
          · rw [hx]; exact hP
          · exact i2 x hx
    · rw [if_neg hc]
      simp [hP]

theorem fwdBody_move (Lc : List ℚ) (hpos : ∀ x ∈ Lc, 0 < x) (s s1 : FwdState)
    (h : fwdBody Lc s = .ok s1) :
    (s1.alpha = s.alpha ∨ s1.alpha = s.alpha - 1) ∧
    (s1.beta = s.beta ∨ s1.beta = s.beta + 1) ∧
    (s1.alpha = s.alpha - 1 ∨ s1.beta = s.beta + 1) := by
  unfold fwdBody at h
  simp only [except_bind_eq_ok] at h
  obtain ⟨lb, hlb, la, hla, e⟩ := h
  cases e
  exact fwdStep_move lb la (ne_of_gt (hpos _ (rd_ok_mem _ _ _ hla)))
    (ne_of_gt (hpos _ (rd_ok_mem _ _ _ hlb))) s

theorem forwardStates_chain (L : List ℚ) (P : FwdState → Prop)
    (hinit : ∀ s0, fwdStart L = .ok s0 → P s0)
    (hstep : ∀ s s1, P s → 0 ≤ s.alpha → s.beta ≤ (L.length : Int) - (numzero L : Int) - 1 →
      fwdBody (floorEps L) s = .ok s1 → P s1) :
    List.Chain' (fun a b => P a ∧ 0 ≤ a.alpha ∧
        a.beta ≤ (L.length : Int) - (numzero L : Int) - 1 ∧ fwdBody (floorEps L) a = .ok b)
      (forwardStates L) ∧
    ∀ x ∈ forwardStates L, P x := by
  unfold forwardStates
  cases h : fwdStart L with
  | error e => simp
  | ok s0 => exact fwdStates_chain (floorEps L) _ P hstep (L.length + 1) s0 (hinit s0 h)

/-- The loop states of `path_forward(L)` end with the state from which the returned path
is built, and there is one loop state per recorded vertex. -/
theorem forwardStates_last (L : List ℚ) (path : PathResult) (h : path_forward L = .ok path) :
    ∃ sN, (forwardStates L).getLast? = some sN ∧ path.k = sN.kmax_vec ++ [pinf] ∧
      path.u = sN.u_vec ++ [sN.u_vec.getLastD nan] ∧ path.v = sN.v_vec ++ [pinf] ∧
      (forwardStates L).length = sN.kmax_vec.length := by
  rw [path_forward_eq] at h
  simp only [except_bind_eq_ok] at h
  obtain ⟨s0, h0, sN, hl, e⟩ := h
  cases e
  obtain ⟨i1, i2⟩ := fwdStates_last _ _ _ _ _ hl
  refine ⟨sN, ?_, rfl, rfl, rfl, ?_⟩
  · unfold forwardStates
    rw [h0]
    exact i1
  · unfold forwardStates
    rw [h0]
    have hk : s0.kmax_vec.length = 1 := by
      unfold fwdStart at h0
      split at h0
      · cases h0
      · rw [except_bind_eq_ok] at h0
        obtain ⟨a, _, e⟩ := h0
        cases e
        rfl
    simp only [hk] at i2
    show (fwdStates _ _ _ s0).length = _
    omega

/-- Geometry of one forward pass on finite values with nonzero sums. -/
theorem fwdStep_geom (lb la sn sd u v : ℚ) (hla : 0 < la) (hlb : 0 < lb) (hsn : sn ≠ 0)
    (hsd : sd ≠ 0) (s : FwdState) (h1 : s.slope_num = fin sn) (h2 : s.slope_denom = fin sd)
    (h3 : s.u_cur = fin u) (h4 : s.v_cur = fin v) :
    ∃ un vn : ℚ, (fwdStep lb la s).u_cur = fin un ∧ (fwdStep lb la s).v_cur = fin vn ∧
      sn * (un - u) + sd * (vn - v) = 0 ∧ 1 / la ≤ un ∧ (vn = 1 / lb ∨ un = 1 / la) ∧
      (fwdStep lb la s).kmax_vec = s.kmax_vec ++ [fin (vn / un)] ∧
      (fwdStep lb la s).u_vec = s.u_vec ++ [fin un] ∧
      (fwdStep lb la s).v_vec = s.v_vec ++ [fin vn] := by
  have hla0 : la ≠ 0 := ne_of_gt hla
  have hlb0 : lb ≠ 0 := ne_of_gt hlb
  have hinv : 0 < 1 / la := by positivity
  unfold fwdStep
  simp only [h1, h2, h3, h4, fin_div _ _ hla0, fin_div _ _ hlb0, fin_sub, fin_mul,
    fin_div _ _ hsn, lt_fin]
  by_cases ho : u - sd * (1 / lb - v) / sn < 1 / la
  · simp only [ho, decide_True, if_true, fin_sub, fin_mul, fin_div _ _ hsd,
      fin_div _ _ (ne_of_gt hinv)]
    refine ⟨1 / la, v - sn * (1 / la - u) / sd, rfl, rfl, ?_, le_refl _, Or.inr rfl, rfl, rfl,
      rfl⟩
    field_simp
    ring
  · have hun : 0 < u - sd * (1 / lb - v) / sn := lt_of_lt_of_le hinv (not_lt.mp ho)
    simp only [ho, decide_False, Bool.false_eq_true, if_false, fin_div _ _ (ne_of_gt hun)]
    refine ⟨u - sd * (1 / lb - v) / sn, 1 / lb, rfl, rfl, ?_, not_lt.mp ho, Or.inl rfl, rfl,
      rfl, rfl⟩
    field_simp
    ring

theorem sum_lt_of_strict (L : List ℚ) (hs : L.Pairwise (fun a b => b < a)) (hp : 2 ≤ L.length)
    (l0 : ℚ) (h0 : L[0]? = some l0) : L.sum / L.length < l0 := by
  match L, hp, h0, hs with
  | a :: b :: t, _, h0, hs =>
    simp only [List.getElem?_cons_zero, Option.some.injEq] at h0
    subst h0
    rw [List.pairwise_cons] at hs
    have hb : b < a := hs.1 b (List.mem_cons_self _ _)
    have ht : t.sum ≤ t.length • a :=
      List.sum_le_card_nsmul t a (fun x hx => le_of_lt (hs.1 x (List.mem_cons_of_mem _ hx)))
    have hlen : (0 : ℚ) < ((a :: b :: t).length : ℚ) := by
      simp only [List.length_cons]
      positivity
    rw [div_lt_iff₀ hlen]
    simp only [List.sum_cons, List.length_cons, nsmul_eq_mul] at ht ⊢
    push_cast
    nlinarith

/-- On a spectrum whose largest entry lies above the mean, the loop states of
`path_forward` keep the invariant `FwdGood` (for the constant `c = L'[alpha0]`), and
consecutive loop states are related by one pass. -/
theorem forwardStates_good (L : List ℚ) (hne : L ≠ []) (l0 : ℚ)
    (h0 : (floorEps L)[0]? = some l0) (hbig : (floorEps L).sum / (floorEps L).length < l0) :
    ∃ (a0 : Int) (c : ℚ), rd (floorEps L) a0 = .ok c ∧
      (a0 < (L.length : Int) - 1 → c < l0) ∧
      fwdStart L = .ok (fwdInit (floorEps L)
        (fin (1 / ((floorEps L).sum / (floorEps L).length))) a0) ∧
      List.Chain' (fun a b =>
        (FwdRange (floorEps L).length a ∧ FwdGood (floorEps L) c a ∧ a0 + 1 ≤ a.beta) ∧
          0 ≤ a.alpha ∧ a.beta ≤ (L.length : Int) - (numzero L : Int) - 1 ∧
          fwdBody (floorEps L) a = .ok b) (forwardStates L) ∧
      ∀ x ∈ forwardStates L,
        FwdRange (floorEps L).length x ∧ FwdGood (floorEps L) c x ∧ a0 + 1 ≤ x.beta := by
  have hlen : L.length ≠ 0 := by
    intro h; exact hne (List.length_eq_zero.mp h)
  have hL : (floorEps L).length = L.length := floorEps_length L
  have hLne : floorEps L ≠ [] := floorEps_ne_nil L hne
  have hpos := floorEps_pos L
  obtain ⟨hu0, pm⟩ := inv_mean_eq (floorEps L) hLne hpos
  generalize hLc : floorEps L = Lc at *
  generalize hm : Lc.sum / Lc.length = m at *
  have pl0 : 0 < l0 := hpos _ (List.getElem?_mem h0)
  obtain ⟨a0, ha, ha0, ha1, hstop, _⟩ := fwdStartAlpha_spec Lc (fin (1 / m)) L.length 0
    (le_refl _) (by rw [hL]; omega) (by rw [hL]; omega)
  rw [hL] at ha ha1 hstop
  obtain ⟨c, hc⟩ := rd_in_range Lc a0 ha0 (by rw [hL]; exact ha1)
  have gc := ((rd_ok_iff _ _ _).mp hc).2
  have pc : 0 < c := hpos _ (rd_ok_mem _ _ _ hc)
  have hfact : a0 < (L.length : Int) - 1 → c < l0 := by
    intro h
    obtain ⟨la, hla, ht⟩ := hstop h
    rw [hc] at hla
    cases hla
    rw [fin_div _ _ (ne_of_gt pc)] at ht
    simp only [lt_fin, decide_eq_false_iff_not, not_lt] at ht
    have : c ≤ m := (one_div_le_one_div pm pc).mp ht
    linarith
  have hstart : fwdStart L = .ok (fwdInit Lc (fin (1 / m)) a0) := by
    unfold fwdStart
    rw [if_neg hlen, hLc, hu0, ha]
    rfl
  have hinit : FwdRange Lc.length (fwdInit Lc (fin (1 / m)) a0) ∧
      FwdGood Lc c (fwdInit Lc (fin (1 / m)) a0) ∧
      a0 + 1 ≤ (fwdInit Lc (fin (1 / m)) a0).beta := by
    refine ⟨?_, ?_, le_refl _⟩
    · unfold FwdRange fwdInit
      simp only [hL]
      omega
    · refine ⟨_, _, 1 / m, 1 / m, rfl, rfl, rfl, rfl, ?_, ?_, ?_, ?_, rfl⟩
      · have e : (a0 + 1).toNat = a0.toNat + 1 := by omega
        show sumRange Lc 0 a0.toNat + c = (Lc.take (a0 + 1).toNat).sum
        rw [e, take_succ_sum Lc _ c gc]
        simp [sumRange]
      · show sumRange Lc (a0 + 1).toNat Lc.length = (Lc.drop (a0 + 1).toNat).sum
        simp [sumRange]
      · intro x hx
        simp [fwdInit] at hx
        exact ⟨_, hx, by positivity⟩
      · intro x hx
        simp [fwdInit] at hx
        exact ⟨_, hx⟩
  have key := forwardStates_chain L
    (fun s => FwdRange Lc.length s ∧ FwdGood Lc c s ∧ a0 + 1 ≤ s.beta)
    (by
      intro s0 hs0
      rw [hstart] at hs0
      cases hs0
      exact hinit)
    (by
      intro s s1 hP hal hbe hbody
      rw [hLc] at hbody
      have hb : s.beta < (Lc.length : Int) := by
        rw [hL]; have := numzero_le L; omega
      have hcl : c < l0 := hfact (by rw [hL] at hb; omega)
      obtain ⟨lb, la, hbody2, hr, hg, _, hbeta⟩ :=
        fwdGood_step Lc hpos c l0 h0 hcl s hP.1 hP.2.1 hal hb
      rw [hbody2] at hbody
      cases hbody
      exact ⟨hr, hg, by omega⟩)
  rw [hLc] at key
  exact ⟨a0, c, hc, hfact, hstart, key.1, key.2⟩

/-! ### Backward runs that never return -/

theorem bwdLoop_succ_eq (Lc : List ℚ) (p : Int) (n : Nat) (s : BwdState) :
    bwdLoop Lc p (n + 1) s =
      bwdBody Lc p s >>= fun x => if x.1 then pure x.2 else bwdLoop Lc p n x.2 := rfl

/-- From a state that one pass takes, without finishing, to a state with `beta = 0`, the
backward loop never returns. -/
theorem bwdLoop_dead_after (Lc : List ℚ) (p : Int) (s s1 : BwdState)
    (hb : bwdBody Lc p s = .ok (false, s1)) (h0 : s1.beta ≤ 0) (n : Nat) (s2 : BwdState) :
    bwdLoop Lc p n s ≠ .ok s2 := by
  cases n with
  | zero => intro h; simp [bwdLoop] at h
  | succ n =>
    rw [bwdLoop_succ_eq, hb]
    exact bwdLoop_beta_zero Lc p n s1 s2 h0

/-- On `L = [c, c]` and on `L = [10, 1e-20]` no number of passes lets `path_backward`
return. -/
theorem path_backward_never (fuel : Nat) (path : PathResult) :
    path_backward fuel [10, 1 / 10 ^ 20] ≠ .ok path ∧
    ∀ c : ℚ, path_backward fuel [c, c] ≠ .ok path := by
  constructor
  · intro h
    rw [path_backward_eq] at h
    have hi : bwdInit [10, 1 / 10 ^ 20] = .ok
        { alpha := 0, beta := 0, slope_num := fin 10, slope_denom := fin 10,
          u_cur := fin (1 / 5), v_cur := fin (1 / 10),
          u_vec := [fin (1 / 5), fin (1 / 5)], v_vec := [fin (1 / 10), pinf],
          kmax_vec := [fin (1 / 2), pinf] } := by decide!
    rw [hi] at h
    simp only [except_bind_eq_ok] at h
    obtain ⟨s0, h0, s1, hl, _⟩ := h
    cases h0
    exact bwdLoop_beta_zero _ _ fuel _ s1 (le_refl _) hl
  · intro c h
    by_cases hc : c < eps
    · unfold path_backward at h
      simp only [except_bind_eq_ok] at h
      obtain ⟨l0, _, x, _, lr, hlr, _⟩ := h
      have hz : numzero [c, c] = 2 := by simp [numzero, hc]
      rw [hz] at hlr
      have := (rd_lt_length _ _ _ hlr).1
      simp at this
    · have hce : eps ≤ c := not_lt.mp hc
      have pc : 0 < c := lt_of_lt_of_le eps_pos hce
      have he : ∀ x ∈ [c, c], eps ≤ x := by
        intro x hx
        simp at hx
        rw [hx]; exact hce
      obtain ⟨l0, lr, h0, hr, _, _, hinit⟩ := bwdInit_sorted [c, c] (by simp) he (by simp)
      have e0 : l0 = c := by
        have : rd [c, c] 0 = .ok c := rfl
        rw [this] at h0
        cases h0; rfl
      have er : lr = c := by
        have : rd [c, c] (((([c, c] : List ℚ).length : Nat) : Int) - 1) = .ok c := rfl
        rw [this] at hr
        cases hr; rfl
      rw [e0, er] at hinit
      rw [path_backward_eq, hinit, floorEps_of_ge _ he] at h
      simp only [except_bind_eq_ok] at h
      obtain ⟨s0, h0', s1, hl, _⟩ := h
      cases h0'
      have hd : ¬ (qDiag c c (1 / c) (1 / c) < 1 / c ∧ 1 / c < qDiag c c (1 / c) (1 / c)) := by
        rintro ⟨a, b⟩
        exact lt_asymm a b
      have hq : qV c c (1 / c) (1 / c) (1 / c) (1 / c) = 1 / c := by
        unfold qV
        simp
      have hb := bwdBody_alive [c, c] (([c, c] : List ℚ).length : Int)
        { alpha := 0, beta := (([c, c] : List ℚ).length : Int) - 1, slope_num := fin c,
          slope_denom := fin c, u_cur := fin (1 / c), v_cur := fin (1 / c),
          u_vec := [fin (1 / c), fin (1 / c)], v_vec := [fin (1 / c), pinf],
          kmax_vec := [fin (1 / c / (1 / c)), pinf] }
        c c (1 / c) (1 / c) c c rfl rfl rfl rfl pc pc (by simp) (by simp) rfl rfl pc pc
      unfold bwdNext at hb
      rw [if_neg hd] at hb
      refine bwdLoop_dead_after _ _ _ _ hb ?_ fuel s1 hl
      show (if |qV c c (1 / c) (1 / c) (1 / c) (1 / c) - 1 / c| < eps then _ else _) ≤ (0 : Int)
      rw [hq, sub_self, abs_zero, if_pos eps_pos]
      simp

/-! ### A batch of targets and its single queries -/

/-- What `ml_solver` returns when the two reads succeed and no target needs a path. -/
theorem ml_solver_degenerate_only (fuel : Nat) (L k : List ℚ) (direction : String) (l0 lp : ℚ)
    (path : PathResult) (h0 : rd (floorEps L) 0 = .ok l0)
    (hp : rd (floorEps L) ((L.length : Int) - 1) = .ok lp)
    (hany : k.any (fun ki => le (fin ki) (fin l0 / fin lp)) = false) :
    ml_solver fuel L k direction = .ok (targetResults (floorEps L) l0 lp path k) := by
  unfold ml_solver
  simp only [h0, hp]
  show (if _ then _ else _) = _
  rw [if_neg (by simp only [hany, Bool.false_eq_true, not_false_eq_true])]
  show Except.ok _ = _
  rw [degeneratePass_eq_targetResults _ _ _ path _ hany]

/-- Every result of a batch of targets is, target by target, the result of the single
query. -/
theorem ml_solver_batch_single (fuel : Nat) (L ks : List ℚ) (direction : String)
    (res : MLSolverResult) (h : ml_solver fuel L ks direction = .ok res)
    (i : Nat) (hi : i < ks.length) :
    ∃ (row : List Dbl) (u : Dbl) (f : Int),
      ml_solver fuel L [ks[i]] direction = .ok ⟨[row], [u], [f]⟩ ∧
      res.Lbar[i]? = some row ∧ res.uopt[i]? = some u ∧ res.intv[i]? = some f := by
  obtain ⟨l0, lp, h0, hp, hshape⟩ := ml_solver_ok_shape fuel L ks direction res h
  have key : ∀ path, res = targetResults (floorEps L) l0 lp path ks →
      ml_solver fuel L [ks[i]] direction = .ok (targetResults (floorEps L) l0 lp path [ks[i]]) →
      ∃ (row : List Dbl) (u : Dbl) (f : Int),
        ml_solver fuel L [ks[i]] direction = .ok ⟨[row], [u], [f]⟩ ∧
        res.Lbar[i]? = some row ∧ res.uopt[i]? = some u ∧ res.intv[i]? = some f := by
    intro path hr hsingle
    obtain ⟨t1, t2, t3⟩ := targetResults_get (floorEps L) l0 lp path ks i hi
    rw [hr]
    exact ⟨_, _, _, hsingle, t1, t2, t3⟩
  rcases hshape with ⟨path, hpath, hr⟩ | ⟨hany, hall⟩
  · apply key path hr
    by_cases hnd : le (fin ks[i]) (fin l0 / fin lp) = true
    · exact ml_solver_of_path fuel L [ks[i]] direction l0 lp path h0 hp hpath
    · exact ml_solver_degenerate_only fuel L [ks[i]] direction l0 lp path h0 hp
        (by simpa using hnd)
  · apply key ⟨[], [], []⟩ (hall _)
    apply ml_solver_degenerate_only fuel L [ks[i]] direction l0 lp _ h0 hp
    have := List.any_eq_false.mp hany ks[i] (List.getElem_mem hi)
    simpa using this

/-- A batch returns as soon as each of its single queries does. -/
theorem ml_solver_batch_of_singles (fuel : Nat) (L ks : List ℚ) (direction : String)
    (hne : L ≠ [])
    (h : ∀ (i : Nat) (hi : i < ks.length), ∃ r, ml_solver fuel L [ks[i]] direction = .ok r) :
    ∃ res, ml_solver fuel L ks direction = .ok res := by
  obtain ⟨l0, lp, h0, hp, _, _⟩ := rd_head_last L hne
  by_cases hany : ks.any (fun ki => le (fin ki) (fin l0 / fin lp)) = true
  · obtain ⟨ki, hmem, hle⟩ := List.any_eq_true.mp hany
    obtain ⟨i, hi, rfl⟩ := List.getElem_of_mem hmem
    obtain ⟨r, hr⟩ := h i hi
    obtain ⟨l0', lp', h0', hp', hshape⟩ := ml_solver_ok_shape fuel L [ks[i]] direction r hr
    rw [h0] at h0'
    rw [hp] at hp'
    cases h0'
    cases hp'
    rcases hshape with ⟨path, hpath, _⟩ | ⟨hany1, _⟩
    · exact ⟨_, ml_solver_of_path fuel L ks direction l0 lp path h0 hp hpath⟩
    · simp only [List.any_cons, List.any_nil, Bool.or_false] at hany1
      rw [hany1] at hle
      cases hle
  · exact ⟨_, ml_solver_degenerate_only fuel L ks direction l0 lp ⟨[], [], []⟩ h0 hp
      (by simpa using hany)⟩

/-! ### The penalty grid in closed form -/

theorem foldl_min_fin (l : List ℚ) : ∀ a : ℚ, ∃ q : ℚ,
    List.foldl Dbl.min (fin a) (l.map fin) = fin q ∧ q ≤ a ∧ (∀ x ∈ l, q ≤ x) ∧
      (q = a ∨ q ∈ l) := by
  induction l with
  | nil => intro a; exact ⟨a, rfl, le_refl _, by simp, Or.inl rfl⟩
  | cons b t ih =>
    intro a
    obtain ⟨q, h1, h2, h3, h4⟩ := ih (Min.min a b)
    refine ⟨q, ?_, le_trans h2 (min_le_left _ _), ?_, ?_⟩
    · simp only [List.map_cons, List.foldl_cons, min_fin]
      exact h1
    · intro x hx
      rcases List.mem_cons.mp hx with hx | hx
      · rw [hx]; exact le_trans h2 (min_le_right _ _)
      · exact h3 x hx
    · rcases h4 with h4 | h4
      · rcases min_choice a b with hc | hc
        · left; rw [h4, hc]
        · right; rw [h4, hc]; exact List.mem_cons_self _ _
      · right; exact List.mem_cons_of_mem _ h4

theorem foldl_max_fin (l : List ℚ) : ∀ a : ℚ, ∃ q : ℚ,
    List.foldl Dbl.max (fin a) (l.map fin) = fin q ∧ a ≤ q ∧ (∀ x ∈ l, x ≤ q) ∧
      (q = a ∨ q ∈ l) := by
  induction l with
  | nil => intro a; exact ⟨a, rfl, le_refl _, by simp, Or.inl rfl⟩
  | cons b t ih =>
    intro a
    obtain ⟨q, h1, h2, h3, h4⟩ := ih (Max.max a b)
    refine ⟨q, ?_, le_trans (le_max_left _ _) h2, ?_, ?_⟩
    · simp only [List.map_cons, List.foldl_cons, max_fin]
      exact h1
    · intro x hx
      rcases List.mem_cons.mp hx with hx | hx
      · rw [hx]; exact le_trans (le_max_right _ _) h2
      · exact h3 x hx
    · rcases h4 with h4 | h4
      · rcases max_choice a b with hc | hc
        · left; rw [h4, hc]
        · right; rw [h4, hc]; exact List.mem_cons_self _ _
      · right; exact List.mem_cons_of_mem _ h4

theorem minEntry_fin (l : List ℚ) (m : ℚ) (hm : m ∈ l) (hle : ∀ x ∈ l, m ≤ x) :
    minEntry (l.map fin) = fin m := by
  cases l with
  | nil => simp at hm
  | cons a t =>
    obtain ⟨q, h1, h2, h3, h4⟩ := foldl_min_fin (a :: t) a
    unfold minEntry
    simp only [List.map_cons, List.headD_cons] at h1 ⊢
    rw [h1]
    congr 1
    apply le_antisymm
    · exact h3 m hm
    · rcases h4 with h4 | h4
      · rw [h4]; exact hle a (List.mem_cons_self _ _)
      · exact hle q h4

theorem maxEntry_fin (l : List ℚ) (m : ℚ) (hm : m ∈ l) (hle : ∀ x ∈ l, x ≤ m) :
    maxEntry (l.map fin) = fin m := by
  cases l with
  | nil => simp at hm
  | cons a t =>
    obtain ⟨q, h1, h2, h3, h4⟩ := foldl_max_fin (a :: t) a
    unfold maxEntry
    simp only [List.map_cons, List.headD_cons] at h1 ⊢
    rw [h1]
    congr 1
    apply le_antisymm
    · rcases h4 with h4 | h4
      · rw [h4]; exact hle a (List.mem_cons_self _ _)
      · exact hle q h4
    · exact h3 m hm

/-- The grid in closed form. -/
theorem kgrid_eq (g : ℚ) (n : Nat) (hg : 1 < g) (hn : 2 ≤ n) :
    kgrid g n = (List.range n).map
      (fun i : Nat => fin (g / (1 + (i : ℚ) * (g - 1) / ((n : ℚ) - 1)))) := by
  have hn1 : (0 : ℚ) < (n : ℚ) - 1 := by
    have : (2 : ℚ) ≤ (n : ℚ) := by exact_mod_cast hn
    linarith
  have hg1 : 0 < g - 1 := by linarith
  have hg0 : 0 < g := by linarith
  have hXpos : ∀ i : Nat, 0 < 1 + (i : ℚ) * ((g - 1) / ((n : ℚ) - 1)) := by
    intro i
    have : 0 ≤ (i : ℚ) * ((g - 1) / ((n : ℚ) - 1)) := by positivity
    linarith
  have hXle : ∀ i : Nat, i < n → 1 + (i : ℚ) * ((g - 1) / ((n : ℚ) - 1)) ≤ g := by
    intro i hi
    have h1 : (i : ℚ) ≤ (n : ℚ) - 1 := by
      have : (i : ℚ) + 1 ≤ (n : ℚ) := by exact_mod_cast hi
      linarith
    have h2 : (i : ℚ) * ((g - 1) / ((n : ℚ) - 1)) ≤ ((n : ℚ) - 1) * ((g - 1) / ((n : ℚ) - 1)) :=
      mul_le_mul_of_nonneg_right h1 (by positivity)
    have h3 : ((n : ℚ) - 1) * ((g - 1) / ((n : ℚ) - 1)) = g - 1 := by field_simp
    linarith
  have hx : linSpaced n 1 g =
      (List.range n).map (fun i : Nat => 1 + (i : ℚ) * ((g - 1) / ((n : ℚ) - 1))) := by
    unfold linSpaced
    apply List.map_congr_left
    intro i _
    by_cases h : i + 1 = n
    · rw [if_pos h]
      have : (n : ℚ) - 1 = (i : ℚ) := by rw [← h]; push_cast; ring
      rw [this]
      have hi : (i : ℚ) ≠ 0 := by rw [← this]; exact ne_of_gt hn1
      field_simp
    · rw [if_neg h]
  have hy : (linSpaced n 1 g).map (fun xi => fin 1 / fin xi) =
      ((List.range n).map
        (fun i : Nat => 1 / (1 + (i : ℚ) * ((g - 1) / ((n : ℚ) - 1))))).map fin := by
    rw [hx, List.map_map, List.map_map]
    apply List.map_congr_left
    intro i _
    simp only [Function.comp]
    rw [fin_div _ _ (ne_of_gt (hXpos i))]
  have hmin : minEntry ((linSpaced n 1 g).map (fun xi => fin 1 / fin xi)) = fin (1 / g) := by
    rw [hy]
    apply minEntry_fin
    · rw [List.mem_map]
      refine ⟨n - 1, List.mem_range.mpr (by omega), ?_⟩
      have : ((n - 1 : Nat) : ℚ) = (n : ℚ) - 1 := by
        rw [Nat.cast_sub (by omega)]; simp
      rw [this]
      congr 1
      field_simp
    · intro x hx1
      rw [List.mem_map] at hx1
      obtain ⟨i, hi, rfl⟩ := hx1
      exact one_div_le_one_div_of_le (hXpos i) (hXle i (List.mem_range.mp hi))
  have hy1 : ((linSpaced n 1 g).map (fun xi => fin 1 / fin xi)).map (fun yi => yi - fin (1 / g)) =
      ((List.range n).map
        (fun i : Nat => 1 / (1 + (i : ℚ) * ((g - 1) / ((n : ℚ) - 1))) - 1 / g)).map fin := by
    rw [hy, List.map_map, List.map_map, List.map_map]
    apply List.map_congr_left
    intro i _
    simp only [Function.comp, fin_sub]
  have hmax : maxEntry (((linSpaced n 1 g).map (fun xi => fin 1 / fin xi)).map
      (fun yi => yi - fin (1 / g))) = fin (1 - 1 / g) := by
    rw [hy1]
    apply maxEntry_fin
    · rw [List.mem_map]
      refine ⟨0, List.mem_range.mpr (by omega), ?_⟩
      simp
    · intro x hx1
      rw [List.mem_map] at hx1
      obtain ⟨i, hi, rfl⟩ := hx1
      have : 1 / (1 + (i : ℚ) * ((g - 1) / ((n : ℚ) - 1))) ≤ 1 / 1 :=
        one_div_le_one_div_of_le one_pos (by
          have : 0 ≤ (i : ℚ) * ((g - 1) / ((n : ℚ) - 1)) := by positivity
          linarith)
      simp only [div_one] at this
      linarith
  have hd : (1 : ℚ) - 1 / g ≠ 0 := by
    have : 1 / g < 1 := by rw [div_lt_one hg0]; exact hg
    linarith
  unfold kgrid
  simp only [hmin, hmax]
  rw [hy1, List.map_map, List.map_map, List.map_map]
  apply List.map_congr_left
  intro i _
  simp only [Function.comp, fin_div _ _ hd, fin_mul, fin_add]
  congr 1
  have := hXpos i
  have hX : 1 + (i : ℚ) * (g - 1) / ((n : ℚ) - 1) = 1 + (i : ℚ) * ((g - 1) / ((n : ℚ) - 1)) := by
    ring
  rw [hX]
  field_simp
  ring

/-! ### The corner at which the backward sweep starts -/

theorem findIdx_unique (pk : List Dbl) (kval : Dbl) (idx : Nat) (hlen : idx < pk.length)
    (hbelow : ∀ j : Nat, j < idx → lt (pk.getD j nan) kval = true)
    (hat : lt (pk.getD idx nan) kval = false) :
    findIdx pk kval pk.length 0 = idx := by
  obtain ⟨_, h2, _, h4⟩ := findIdx_spec pk kval pk.length 0 (by omega) (by omega)
  have hb := findIdx_below pk kval pk.length 0
  rcases Nat.lt_trichotomy (findIdx pk kval pk.length 0) idx with h | h | h
  · have := h4 (by omega)
    rw [hbelow _ h] at this
    cases this
  · exact h
  · have := hb idx (Nat.zero_le _) h
    rw [hat] at this
    cases this

/-- The point at which the ray `v = k u` meets the segment from `(u0, v0)` to `(u1, v1)`,
when `v0/u0 < k ≤ v1/u1`: its `u` is the harmonic interpolation of `u0` and `u1` in `k`. -/
theorem harmonic_on_segment (u0 v0 u1 v1 k : ℚ) (pu0 : 0 < u0) (pu1 : 0 < u1)
    (hlo : v0 / u0 < k) (hhi : k ≤ v1 / u1) :
    0 < (1 - (k - v0 / u0) / (v1 / u1 - v0 / u0)) * (1 / u0) +
        (k - v0 / u0) / (v1 / u1 - v0 / u0) * (1 / u1) ∧
      (1 / ((1 - (k - v0 / u0) / (v1 / u1 - v0 / u0)) * (1 / u0) +
        (k - v0 / u0) / (v1 / u1 - v0 / u0) * (1 / u1)) - u0) * (v1 - v0) =
      (k * (1 / ((1 - (k - v0 / u0) / (v1 / u1 - v0 / u0)) * (1 / u0) +
        (k - v0 / u0) / (v1 / u1 - v0 / u0) * (1 / u1))) - v0) * (u1 - u0) := by
  have hd : 0 < v1 / u1 - v0 / u0 := by linarith
  have ht0 : 0 < (k - v0 / u0) / (v1 / u1 - v0 / u0) := div_pos (by linarith) hd
  have ht1 : (k - v0 / u0) / (v1 / u1 - v0 / u0) ≤ 1 := by
    rw [div_le_one hd]; linarith
  generalize hk0 : v0 / u0 = k0 at *
  generalize hk1 : v1 / u1 = k1 at *
  have e0 : v0 = k0 * u0 := by rw [← hk0]; field_simp
  have e1 : v1 = k1 * u1 := by rw [← hk1]; field_simp
  generalize ht : (k - k0) / (k1 - k0) = t at *
  have hk : k = k0 + t * (k1 - k0) := by
    rw [← ht]; field_simp
  have hpos : 0 < (1 - t) * (1 / u0) + t * (1 / u1) := by
    have a1 : 0 ≤ (1 - t) * (1 / u0) := mul_nonneg (by linarith) (by positivity)
    have a2 : 0 < t * (1 / u1) := mul_pos ht0 (by positivity)
    linarith
  refine ⟨hpos, ?_⟩
  rw [e0, e1, hk]
  have hne : (1 - t) * (1 / u0) + t * (1 / u1) ≠ 0 := ne_of_gt hpos
  have hne2 : (1 - t) * u1 + t * u0 ≠ 0 := by
    have a1 : 0 ≤ (1 - t) * u1 := mul_nonneg (by linarith) (le_of_lt pu1)
    have a2 : 0 < t * u0 := mul_pos ht0 pu0
    linarith
  have : 1 / ((1 - t) * (1 / u0) + t * (1 / u1)) = u0 * u1 / ((1 - t) * u1 + t * u0) := by
    field_simp
  rw [this]
  field_simp
  ring

/-- The same point as a convex combination of the two vertices. -/
theorem harmonic_segment_param (u0 v0 u1 v1 k : ℚ) (pu0 : 0 < u0) (pu1 : 0 < u1)
    (hlo : v0 / u0 < k) (hhi : k ≤ v1 / u1) :
    ∃ s : ℚ, 0 < s ∧ s ≤ 1 ∧
      1 / ((1 - (k - v0 / u0) / (v1 / u1 - v0 / u0)) * (1 / u0) +
        (k - v0 / u0) / (v1 / u1 - v0 / u0) * (1 / u1)) = (1 - s) * u0 + s * u1 ∧
      k * (1 / ((1 - (k - v0 / u0) / (v1 / u1 - v0 / u0)) * (1 / u0) +
        (k - v0 / u0) / (v1 / u1 - v0 / u0) * (1 / u1))) = (1 - s) * v0 + s * v1 := by
  have hd : 0 < v1 / u1 - v0 / u0 := by linarith
  have ht0 : 0 < (k - v0 / u0) / (v1 / u1 - v0 / u0) := div_pos (by linarith) hd
  have ht1 : (k - v0 / u0) / (v1 / u1 - v0 / u0) ≤ 1 := by
    rw [div_le_one hd]; linarith
  generalize hk0 : v0 / u0 = k0 at *
  generalize hk1 : v1 / u1 = k1 at *
  have e0 : v0 = k0 * u0 := by rw [← hk0]; field_simp
  have e1 : v1 = k1 * u1 := by rw [← hk1]; field_simp
  generalize ht : (k - k0) / (k1 - k0) = t at *
  have hk : k = k0 + t * (k1 - k0) := by
    rw [← ht]; field_simp
  have hne2 : 0 < (1 - t) * u1 + t * u0 := by
    have a1 : 0 ≤ (1 - t) * u1 := mul_nonneg (by linarith) (le_of_lt pu1)
    have a2 : 0 < t * u0 := mul_pos ht0 pu0
    linarith
  have hne : (1 - t) * (1 / u0) + t * (1 / u1) ≠ 0 := by
    have a1 : 0 ≤ (1 - t) * (1 / u0) := mul_nonneg (by linarith) (by positivity)
    have a2 : 0 < t * (1 / u1) := mul_pos ht0 (by positivity)
    linarith
  have hu : 1 / ((1 - t) * (1 / u0) + t * (1 / u1)) = u0 * u1 / ((1 - t) * u1 + t * u0) := by
    field_simp
  refine ⟨t * u0 / ((1 - t) * u1 + t * u0), div_pos (mul_pos ht0 pu0) hne2, ?_, ?_, ?_⟩
  · rw [div_le_one hne2]
    have a1 : 0 ≤ (1 - t) * u1 := mul_nonneg (by linarith) (le_of_lt pu1)
    linarith
  · rw [hu]
    field_simp
    ring
  · rw [hu, e0, e1, hk]
    field_simp
    ring

/-! ### The last finite vertex of the backward path -/

theorem clampRow_one (Lc : List ℚ) (hpos : ∀ x ∈ Lc, 0 < x) (m : ℚ) (hm : 0 < m) :
    clampRow Lc (fin 1) (fin (1 / m)) = List.replicate Lc.length (fin m) := by
  rw [clampRow_fin Lc hpos 1 (1 / m) (le_refl _) (one_div_pos.mpr hm), List.eq_replicate_iff]
  refine ⟨by simp, ?_⟩
  intro b hb
  rw [List.mem_map] at hb
  obtain ⟨l, _, rfl⟩ := hb
  rw [one_mul, min_eq_left (le_max_left _ _), one_div_one_div]

/-! ### Order of a clamped row -/

theorem pairwise_fin (qs : List ℚ) (h : qs.Pairwise (fun a b => b ≤ a)) :
    (qs.map fin).Pairwise (fun a b => le b a = true) := by
  rw [List.pairwise_map]
  refine h.imp ?_
  intro a b hab
  simp only [le_fin, decide_eq_true_eq]
  exact hab

theorem clamp_mono (k u a b : ℚ) (hk : 1 ≤ k) (hu : 0 < u) (hb : 0 < b) (hab : b ≤ a) :
    1 / Min.min (k * u) (Max.max u (1 / b)) ≤ 1 / Min.min (k * u) (Max.max u (1 / a)) := by
  have ha : 0 < a := lt_of_lt_of_le hb hab
  have hku : u ≤ k * u := by nlinarith
  have hpos : 0 < Min.min (k * u) (Max.max u (1 / a)) :=
    lt_of_lt_of_le hu (le_min hku (le_max_left _ _))
  apply one_div_le_one_div_of_le hpos
  apply min_le_min (le_refl _)
  apply max_le_max (le_refl _)
  exact one_div_le_one_div_of_le hb hab

theorem clampRow_sorted (Lc : List ℚ) (hpos : ∀ x ∈ Lc, 0 < x)
    (hs : Lc.Pairwise (fun a b => b ≤ a)) (k u : ℚ) (hk : 1 ≤ k) (hu : 0 < u) :
    ∃ qs : List ℚ, clampRow Lc (fin k) (fin u) = qs.map fin ∧ qs.length = Lc.length ∧
      qs.Pairwise (fun a b => b ≤ a) := by
  refine ⟨Lc.map (fun l => 1 / Min.min (k * u) (Max.max u (1 / l))), ?_, by simp, ?_⟩
  · rw [clampRow_fin Lc hpos k u hk hu, List.map_map]
    rfl
  · rw [List.pairwise_map]
    refine List.Pairwise.imp_of_mem ?_ hs
    intro a b _ hb hab
    exact clamp_mono k u a b hk hu (hpos b hb) hab

/-! ### Reads and divisors of the forward sweep -/

theorem fwdLoop_exit (Lc : List ℚ) (r : Int) :
    ∀ (n : Nat) (s s1 : FwdState), fwdLoop Lc r n s = .ok s1 →
      ¬ (0 ≤ s1.alpha ∧ s1.beta ≤ r - 1) := by
  intro n
  induction n with
  | zero => intro s s1 h; simp [fwdLoop] at h
  | succ n ih =>
    intro s s1 h
    rw [fwdLoop] at h
    by_cases hc : 0 ≤ s.alpha ∧ s.beta ≤ r - 1
    · rw [if_pos hc] at h
      have h2 : (fwdBody Lc s >>= fun s2 => fwdLoop Lc r n s2) = .ok s1 := h
      rw [except_bind_eq_ok] at h2
      obtain ⟨s2, _, h3⟩ := h2
      exact ih s2 s1 h3
    · rw [if_neg hc] at h
      cases h
      exact hc

/-! ## Lemmas on the double-precision model -/

/-! ### Rounding -/

theorem round_fin (q : ℚ) (h : |q| < 2 ^ 1024 - 2 ^ 970) : Dbl.round (fin q) = fin (roundQ q) := by
  show (if (2 : ℚ) ^ 1024 - 2 ^ 970 ≤ |q| then (if 0 < q then pinf else ninf)
    else fin (roundQ q)) = _
  rw [if_neg (not_le.mpr h)]

theorem round_zero : Dbl.round (fin 0) = fin 0 := by
  rw [round_fin 0 (by norm_num)]
  unfold roundQ
  rw [if_pos rfl]

/-- The rounding at a few values: `1/3`, a tie above `1` (to even, downwards) and one
(to even, upwards), half the smallest subnormal (to zero), three halves of it (to even,
upwards), the largest double, and the overflow threshold. -/
theorem round_examples :
    Dbl.round (fin (1 / 3)) = fin (6004799503160661 / 2 ^ 54) ∧
    Dbl.round (fin (1 + 1 / 2 ^ 53)) = fin 1 ∧
    Dbl.round (fin (1 + 3 / 2 ^ 53)) = fin (1 + 1 / 2 ^ 51) ∧
    Dbl.round (fin (1 / 2 ^ 1075)) = fin 0 ∧
    Dbl.round (fin (3 / 2 ^ 1075)) = fin (1 / 2 ^ 1073) ∧
    Dbl.round (fin (-3 / 2 ^ 1075)) = fin (-1 / 2 ^ 1073) ∧
    Dbl.round (fin (2 ^ 1024 - 2 ^ 971)) = fin (2 ^ 1024 - 2 ^ 971) ∧
    Dbl.round (fin (2 ^ 1024 - 2 ^ 970 - 1)) = fin (2 ^ 1024 - 2 ^ 971) ∧
    Dbl.round (fin (2 ^ 1024 - 2 ^ 970)) = pinf ∧
    Dbl.round (fin (-(2 ^ 1024))) = ninf := by
  refine ⟨by decide!, by decide!, by decide!, by decide!, by decide!, by decide!, by decide!,
    by decide!, by decide!, by decide!⟩

theorem round_pinf : Dbl.round pinf = pinf := rfl
theorem round_ninf : Dbl.round ninf = ninf := rfl
theorem round_nan : Dbl.round nan = nan := rfl

theorem sub64_self (q : ℚ) : sub64 (fin q) (fin q) = fin 0 := by
  unfold sub64
  rw [fin_sub, sub_self, round_zero]

theorem inv64_fin (l : ℚ) (h : eps ≤ l) : ∃ q : ℚ, div64 (fin 1) (fin l) = fin q := by
  have hl : 0 < l := lt_of_lt_of_le eps_pos h
  unfold div64
  rw [fin_div _ _ (ne_of_gt hl)]
  refine ⟨_, round_fin _ ?_⟩
  have h1 : 1 / l ≤ 1 / eps := one_div_le_one_div_of_le eps_pos h
  have h2 : (1 : ℚ) / eps = 2 ^ 52 := by unfold eps; norm_num
  rw [abs_of_pos (by positivity)]
  calc 1 / l ≤ 2 ^ 52 := by rw [← h2]; exact h1
    _ < 2 ^ 1024 - 2 ^ 970 := by norm_num

theorem le_not_lt (a b : Dbl) (h : le a b = true) : lt b a = false := by
  cases a <;> cases b <;> simp_all [le, lt]

/-! ### The forward sweep in double precision returns -/

theorem fwdStep_flags64 (lb la : ℚ) (hla : eps ≤ la) (hlb : eps ≤ lb) (s : FwdState) :
    ∃ hl ht : Bool,
      (F64.fwdStep lb la s).alpha = (if hl = true then s.alpha - 1 else s.alpha) ∧
      (F64.fwdStep lb la s).beta = (if ht = true then s.beta + 1 else s.beta) ∧
      (hl = true ∨ ht = true) := by
  obtain ⟨ql, hql⟩ := inv64_fin la hla
  obtain ⟨qt, hqt⟩ := inv64_fin lb hlb
  refine ⟨_, _, rfl, rfl, ?_⟩
  simp only [hql, hqt]
  generalize sub64 s.u_cur (div64 (mul64 s.slope_denom (sub64 (fin qt) s.v_cur)) s.slope_num) = u0
  cases ho : lt u0 (fin ql)
  · right; simp [sub64_self, eps_pos]
  · left; simp [sub64_self, eps_pos]

theorem fwdStep_move64 (lb la : ℚ) (hla : eps ≤ la) (hlb : eps ≤ lb) (s : FwdState) :
    ((F64.fwdStep lb la s).alpha = s.alpha ∨ (F64.fwdStep lb la s).alpha = s.alpha - 1) ∧
    ((F64.fwdStep lb la s).beta = s.beta ∨ (F64.fwdStep lb la s).beta = s.beta + 1) ∧
    ((F64.fwdStep lb la s).alpha = s.alpha - 1 ∨ (F64.fwdStep lb la s).beta = s.beta + 1) := by
  obtain ⟨hl, ht, e1, e2, e3⟩ := fwdStep_flags64 lb la hla hlb s
  rw [e1, e2]
  cases hl <;> cases ht <;> simp at e3 ⊢

theorem fwdBody_ok64 (Lc : List ℚ) (hge : ∀ x ∈ Lc, eps ≤ x) (s : FwdState)
    (hr : FwdRange Lc.length s) (ha : 0 ≤ s.alpha) (hb : s.beta < Lc.length) :
    ∃ s1, F64.fwdBody Lc s = .ok s1 ∧ FwdRange Lc.length s1 ∧
      fwdMeasure Lc.length s1 < fwdMeasure Lc.length s := by
  obtain ⟨h1, h2, h3, h4⟩ := hr
  obtain ⟨lb, hlb⟩ := rd_in_range Lc s.beta h3 hb
  obtain ⟨la, hla⟩ := rd_in_range Lc s.alpha ha h2
  have glb := hge _ (rd_ok_mem _ _ _ hlb)
  have gla := hge _ (rd_ok_mem _ _ _ hla)
  obtain ⟨m1, m2, m3⟩ := fwdStep_move64 lb la gla glb s
  refine ⟨F64.fwdStep lb la s, ?_, ?_, ?_⟩
  · unfold F64.fwdBody
    rw [hlb, hla]
    rfl
  · unfold FwdRange
    omega
  · unfold fwdMeasure
    omega

theorem fwdLoop_total64 (Lc : List ℚ) (hge : ∀ x ∈ Lc, eps ≤ x) (r : Int)
    (hr : r ≤ Lc.length) :
    ∀ (n : Nat) (s : FwdState), FwdRange Lc.length s → fwdMeasure Lc.length s < n →
      ∃ s1, F64.fwdLoop Lc r n s = .ok s1 := by
  intro n
  induction n with
  | zero => intro s _ h; omega
  | succ n ih =>
    intro s hP hm
    rw [F64.fwdLoop]
    by_cases hc : 0 ≤ s.alpha ∧ s.beta ≤ r - 1
    · rw [if_pos hc]
      obtain ⟨s1, hb, hP1, hm1⟩ := fwdBody_ok64 Lc hge s hP hc.1 (by omega)
      obtain ⟨s2, hl⟩ := ih s1 hP1 (by omega)
      refine ⟨s2, ?_⟩
      rw [hb]
      exact hl
    · rw [if_neg hc]
      exact ⟨s, rfl⟩

theorem fwdStartAlpha_total64 (Lc : List ℚ) (u : Dbl) :
    ∀ (n : Nat) (a : Int), 0 ≤ a → a < Lc.length → (Lc.length : Int) ≤ n + a →
      ∃ a1, F64.fwdStartAlpha Lc Lc.length u n a = .ok a1 ∧ a ≤ a1 ∧ a1 < Lc.length := by
  intro n
  induction n with
  | zero => intro a h0 h1 h2; omega
  | succ n ih =>
    intro a h0 h1 h2
    rw [F64.fwdStartAlpha]
    by_cases hc : a < (Lc.length : Int) - 1
    · rw [if_pos hc]
      obtain ⟨la, hla⟩ := rd_in_range Lc a h0 h1
      have e : (rd Lc a >>= fun la =>
          if lt (div64 (fin 1) (fin la)) u = true then F64.fwdStartAlpha Lc Lc.length u n (a + 1)
          else pure a) = (if lt (div64 (fin 1) (fin la)) u = true then
            F64.fwdStartAlpha Lc Lc.length u n (a + 1) else pure a) := by
        rw [hla]; rfl
      rw [e]
      by_cases ht : lt (div64 (fin 1) (fin la)) u = true
      · rw [if_pos ht]
        obtain ⟨a1, e1, e2, e3⟩ := ih (a + 1) (by omega) (by omega)
          (by push_cast at h2 ⊢; omega)
        exact ⟨a1, e1, by omega, e3⟩
      · rw [if_neg ht]
        exact ⟨a, rfl, le_refl _, h1⟩
    · rw [if_neg hc]
      exact ⟨a, rfl, le_refl _, h1⟩

/-- The forward path in double precision returns on every non-empty spectrum. -/
theorem path_forward_total64 (L : List ℚ) (hne : L ≠ []) :
    ∃ path, F64.path_forward L = .ok path := by
  have hlen : L.length ≠ 0 := by
    intro h; exact hne (List.length_eq_zero.mp h)
  have hL : (floorEps L).length = L.length := floorEps_length L
  obtain ⟨a0, ha, ha0, ha1⟩ := fwdStartAlpha_total64 (floorEps L)
    (div64 (fin 1) (F64.mean (floorEps L))) L.length 0 (le_refl _)
    (by rw [hL]; omega) (by rw [hL]; omega)
  rw [hL] at ha ha1
  obtain ⟨s1, hloop⟩ := fwdLoop_total64 (floorEps L) (floorEps_ge L)
    ((L.length : Int) - (numzero L : Int)) (by rw [hL]; omega) (L.length + 1)
    (F64.fwdInit (floorEps L) (div64 (fin 1) (F64.mean (floorEps L))) a0)
    (by
      unfold FwdRange F64.fwdInit
      simp only [hL]
      omega)
    (by
      unfold fwdMeasure F64.fwdInit
      simp only [hL]
      omega)
  refine ⟨{ k := s1.kmax_vec ++ [pinf], u := s1.u_vec ++ [s1.u_vec.getLastD nan],
            v := s1.v_vec ++ [pinf] }, ?_⟩
  unfold F64.path_forward
  simp only [if_neg hlen]
  rw [ha]
  show (F64.fwdLoop _ _ _ _ >>= _) = _
  rw [hloop]
  rfl

/-! ### The degenerate flags in double precision -/

theorem nondegeneratePass_intv64 (Lc : List ℚ) (path : PathResult) (nd : List (Nat × ℚ)) :
    ∀ res : MLSolverResult,
      (F64.nondegeneratePass Lc path nd res).intv =
        nd.foldl (fun l x => l.set x.1 ((fun _ => (0 : Int)) x.2)) res.intv := by
  have hz : ((nd.map (fun x => x.2)).zip
      ((nd.map (fun x => x.2)).map (fun kval => F64.interpU path (fin kval)))).zip
        (nd.map (fun x => x.1))
      = nd.map (fun x => ((x.2, F64.interpU path (fin x.2)), x.1)) := by
    induction nd with
    | nil => rfl
    | cons a t ih => simp only [List.map_cons, List.zip_cons_cons, ih]
  intro res
  unfold F64.nondegeneratePass
  simp only [hz, List.foldl_map]
  induction nd generalizing res with
  | nil => rfl
  | cons a t ih =>
    simp only [List.foldl_cons]
    rw [ih]
    simp only [List.map_cons, List.zip_cons_cons] at hz
    exact (List.cons.inj hz).2

/-- The flags that `ml_solver` returns in double precision: a target is flagged exactly
when it exceeds the rounded quotient `ratio`. -/
theorem ml_solver_intv64 (fuel : Nat) (L ks : List ℚ) (direction : String)
    (res : MLSolverResult) (l0 lp : ℚ) (h0 : rd (floorEps L) 0 = .ok l0)
    (hp : rd (floorEps L) ((L.length : Int) - 1) = .ok lp)
    (h : F64.ml_solver fuel L ks direction = .ok res) :
    res.intv = ks.map (fun ki => if lt (div64 (fin l0) (fin lp)) (fin ki) then 1 else 0) := by
  unfold F64.ml_solver at h
  simp only [h0, hp] at h
  have h' : (if ks.any (fun ki => le (fin ki) (div64 (fin l0) (fin lp))) = true then
      F64.choosePath fuel direction (floorEps L) >>= fun path =>
        pure (F64.nondegeneratePass (floorEps L) path
          (nonDegenerate (div64 (fin l0) (fin lp)) ks)
          (F64.degeneratePass (floorEps L) (div64 (fin l0) (fin lp)) l0 lp ks))
      else pure (F64.degeneratePass (floorEps L) (div64 (fin l0) (fin lp)) l0 lp ks)) =
      .ok res := h
  split at h'
  · rw [except_bind_eq_ok] at h'
    obtain ⟨path, _, e⟩ := h'
    cases e
    rw [nondegeneratePass_intv64]
    unfold nonDegenerate
    have h3 := foldl_set_enum (fun ki => le (fin ki) (div64 (fin l0) (fin lp)))
      (fun _ => (0 : Int)) ks
      (F64.degeneratePass (floorEps L) (div64 (fin l0) (fin lp)) l0 lp ks).intv
      (by simp [F64.degeneratePass])
    rw [h3]
    simp only [F64.degeneratePass, List.zipWith_map_right, zipWith_same]
    apply List.map_congr_left
    intro a _
    by_cases hc : le (fin a) (div64 (fin l0) (fin lp)) = true
    · rw [if_pos hc, le_not_lt _ _ hc]
      rfl
    · rw [if_neg hc]
  · cases h'
    rfl

/-! ### Dead states of the backward sweep in double precision -/

theorem sub64_pinf_abs (y : Dbl) : lt (abs (sub64 y pinf)) (fin eps) = false := by
  cases y <;> rfl

/-- With `beta = 0` the lower wall is at infinity: the pass is never the last one and
never moves `beta`. -/
theorem bwdBody_beta_zero64 (Lc : List ℚ) (p : Int) (s : BwdState) (x : Bool × BwdState)
    (hb : s.beta ≤ 0) (h : F64.bwdBody Lc p s = .ok x) : x.1 = false ∧ x.2.beta = s.beta := by
  unfold F64.bwdBody at h
  rw [if_neg (by omega)] at h
  simp only [pure_bind] at h
  rw [except_bind_eq_ok] at h
  obtain ⟨vr, _, h⟩ := h
  simp only [lt_pinf_left, Bool.and_false, Bool.false_eq_true, if_false, sub64_pinf_abs] at h
  rw [except_bind_eq_ok] at h
  obtain ⟨sn1, _, h⟩ := h
  simp only [pure_bind] at h
  cases h
  exact ⟨rfl, rfl⟩

theorem bwdLoop_beta_zero64 (Lc : List ℚ) (p : Int) :
    ∀ (n : Nat) (s s1 : BwdState), s.beta ≤ 0 → F64.bwdLoop Lc p n s ≠ .ok s1 := by
  intro n
  induction n with
  | zero => intro s s1 _ h; simp [F64.bwdLoop] at h
  | succ n ih =>
    intro s s1 hb h
    rw [F64.bwdLoop, except_bind_eq_ok] at h
    obtain ⟨x, hx, h⟩ := h
    obtain ⟨d, b⟩ := bwdBody_beta_zero64 Lc p s x hb hx
    rw [d] at h
    simp only [Bool.false_eq_true, if_false] at h
    exact ih x.2 s1 (by omega) h

/-- From a state that one pass takes, without finishing, to a state with `beta = 0`, the
backward loop in double precision never returns. -/
theorem bwdLoop_dead_after64 (Lc : List ℚ) (p : Int) (s s1 : BwdState)
    (hb : F64.bwdBody Lc p s = .ok (false, s1)) (h0 : s1.beta ≤ 0) (n : Nat) (s2 : BwdState) :
    F64.bwdLoop Lc p n s ≠ .ok s2 := by
  cases n with
  | zero => intro h; simp [F64.bwdLoop] at h
  | succ n =>
    have e : F64.bwdLoop Lc p (n + 1) s =
        F64.bwdBody Lc p s >>= fun x => if x.1 then pure x.2 else F64.bwdLoop Lc p n x.2 := rfl
    rw [e, hb]
    exact bwdLoop_beta_zero64 Lc p n s1 s2 h0

/-- On the strictly decreasing pair `[0x1.0624dd2f1a9ffp-10, 0x1.0624dd2f1a9fep-10]` the
backward sweep in double precision never returns: in the first pass the candidate on the
diagonal rounds onto a wall, the pass touches both walls and leaves `beta = 0`. -/
theorem path_backward_never64 (fuel : Nat) (path : PathResult) :
    F64.path_backward fuel [4611686018427391 / 2 ^ 62, 4611686018427390 / 2 ^ 62] ≠ .ok path := by
  intro h
  unfold F64.path_backward at h
  simp only [except_bind_eq_ok] at h
  obtain ⟨s0, h0, s1, hl, _⟩ := h
  have hb : (F64.bwdInit [4611686018427391 / 2 ^ 62, 4611686018427390 / 2 ^ 62] >>= fun s =>
      F64.bwdBody (floorEps [4611686018427391 / 2 ^ 62, 4611686018427390 / 2 ^ 62])
        (([4611686018427391 / 2 ^ 62, 4611686018427390 / 2 ^ 62] : List ℚ).length : Int) s >>=
      fun x => pure (x.1, x.2.beta)) = .ok (false, 0) := by decide!
  rw [h0] at hb
  simp only [except_bind_eq_ok] at hb
  obtain ⟨s0', e0, x, hx, e⟩ := hb
  cases e0
  simp only [pure, Except.pure, Except.ok.injEq, Prod.mk.injEq] at e
  have hx' : F64.bwdBody (floorEps [4611686018427391 / 2 ^ 62, 4611686018427390 / 2 ^ 62])
      (([4611686018427391 / 2 ^ 62, 4611686018427390 / 2 ^ 62] : List ℚ).length : Int) s0 =
      .ok (false, x.2) := by
    rw [hx, ← e.1]
  exact bwdLoop_dead_after64 _ _ s0 x.2 hx' (le_of_eq e.2) fuel s1 hl

/-! ## The claims -/

/-- Claim C1: for every non-empty, non-increasing spectrum `L` and every target
`k >= 1`, `ml_solver(L, [k], "forward")` returns one row of clamped eigenvalues, all
of them positive (and finite), and the quotient of any two entries of the row, in
particular largest over smallest, is at most `k`. -/
theorem ml_solver_forward_condition_cap (fuel : Nat) (L : List ℚ) (k : ℚ) (hne : L ≠ [])
    (hs : L.Pairwise (fun a b => b ≤ a)) (hk : 1 ≤ k) :
    ∃ row u iv, ml_solver fuel L [k] "forward" = .ok ⟨[row], [u], [iv]⟩ ∧
      row.length = L.length ∧
      (∀ x ∈ row, ∃ q : ℚ, x = fin q ∧ 0 < q) ∧
      (∀ x ∈ row, ∀ y ∈ row, le (x / y) (fin k) = true) ∧
      le (maxEntry row / minEntry row) (fin k) = true := by
  obtain ⟨l0, lp, path, h0, hp, p0, pp, hpath, hml⟩ := ml_solver_forward_total fuel L [k] hne
  have hL := floorEps_length L
  have hpos := floorEps_pos L
  have hlen : 0 < L.length := List.length_pos.mpr hne
  obtain ⟨_, g0⟩ := getD_eq_of_rd (floorEps L) 0 l0 h0
  rw [rd_last_cast L hne] at hp
  obtain ⟨_, gp⟩ := getD_eq_of_rd (floorEps L) (L.length - 1) lp hp
  have hbnd : ∀ x ∈ floorEps L, lp ≤ x ∧ x ≤ l0 := by
    intro x hx
    obtain ⟨n, hn⟩ := List.mem_iff_getElem?.mp hx
    have hnlt : n < (floorEps L).length := (List.getElem?_eq_some.mp hn).1
    exact ⟨sorted_getElem_le _ (floorEps_sorted L hs) n (L.length - 1) x lp (by omega) hn gp,
      sorted_getElem_le _ (floorEps_sorted L hs) 0 n l0 x (Nat.zero_le _) g0 hn⟩
  have pk : 0 < k := by linarith
  -- it suffices to bound the quotients of the entries of the row
  have finish : ∀ (row : List Dbl) (u : Dbl) (iv : Int),
      targetResult (floorEps L) l0 lp path k = (row, u, iv) → row.length = L.length →
      (∀ x ∈ row, ∃ q : ℚ, x = fin q ∧ 0 < q) →
      (∀ x ∈ row, ∀ y ∈ row, le (x / y) (fin k) = true) →
      ∃ row u iv, ml_solver fuel L [k] "forward" = .ok ⟨[row], [u], [iv]⟩ ∧
        row.length = L.length ∧
        (∀ x ∈ row, ∃ q : ℚ, x = fin q ∧ 0 < q) ∧
        (∀ x ∈ row, ∀ y ∈ row, le (x / y) (fin k) = true) ∧
        le (maxEntry row / minEntry row) (fin k) = true := by
    intro row u iv htr hrl hrp hrq
    have hrne : row ≠ [] := by
      intro h; rw [h] at hrl; simp at hrl; omega
    refine ⟨row, u, iv, ?_, hrl, hrp, hrq,
      hrq _ (maxEntry_mem row hrne) _ (minEntry_mem row hrne)⟩
    rw [hml]
    simp only [targetResults, List.map_cons, List.map_nil, htr]
  by_cases hdeg : k ≤ l0 / lp
  · -- interpolated target
    obtain ⟨uq, hu, puq⟩ := forward_bound_pos L hs l0 lp g0 gp path hpath k hdeg
    have htr : targetResult (floorEps L) l0 lp path k =
        ((floorEps L).map (fun l => fin (1 / Min.min (k * uq) (Max.max uq (1 / l)))),
          fin uq, 0) := by
      unfold targetResult
      rw [fin_div _ _ (ne_of_gt pp)]
      simp only [le_fin, decide_eq_true_eq]
      rw [if_pos hdeg, hu, clampRow_fin _ hpos _ _ hk puq]
    have hent : ∀ x ∈ (floorEps L).map (fun l => fin (1 / Min.min (k * uq) (Max.max uq (1 / l)))),
        ∃ q : ℚ, x = fin (1 / q) ∧ uq ≤ q ∧ q ≤ k * uq := by
      intro x hx
      obtain ⟨l, hl, rfl⟩ := List.mem_map.mp hx
      obtain ⟨_, b1, b2⟩ := clamp_entry k uq l hk puq (hpos l hl)
      exact ⟨_, rfl, b1, b2⟩
    refine finish _ _ _ htr (by simp [hL]) ?_ ?_
    · intro x hx
      obtain ⟨q, rfl, b1, _⟩ := hent x hx
      exact ⟨_, rfl, by have : 0 < q := lt_of_lt_of_le puq b1; positivity⟩
    · intro x hx y hy
      obtain ⟨q, rfl, b1, b2⟩ := hent x hx
      obtain ⟨q2, rfl, c1, c2⟩ := hent y hy
      have pq : 0 < q := lt_of_lt_of_le puq b1
      have pq2 : 0 < q2 := lt_of_lt_of_le puq c1
      rw [fin_div _ _ (by positivity)]
      simp only [le_fin, decide_eq_true_eq]
      have e : 1 / q / (1 / q2) = q2 / q := by field_simp
      rw [e, div_le_iff₀ pq]
      have := mul_le_mul_of_nonneg_left b1 (le_of_lt pk)
      linarith
  · -- degenerate target
    have hdeg2 : l0 / lp < k := not_le.mp hdeg
    have htr : targetResult (floorEps L) l0 lp path k =
        ((floorEps L).map fin, Dbl.max (fin 1 / (fin k * fin lp)) (fin 1 / fin l0), 1) := by
      unfold targetResult
      rw [fin_div _ _ (ne_of_gt pp)]
      simp only [le_fin, lt_fin, decide_eq_true_eq]
      rw [if_neg hdeg, if_pos hdeg2]
    refine finish _ _ _ htr (by simp [hL]) ?_ ?_
    · intro x hx
      obtain ⟨l, hl, rfl⟩ := List.mem_map.mp hx
      exact ⟨l, rfl, hpos l hl⟩
    · intro x hx y hy
      obtain ⟨a, ha, rfl⟩ := List.mem_map.mp hx
      obtain ⟨b, hb, rfl⟩ := List.mem_map.mp hy
      have pb : 0 < b := hpos b hb
      rw [fin_div _ _ (ne_of_gt pb)]
      simp only [le_fin, decide_eq_true_eq]
      rw [div_le_iff₀ pb]
      rw [div_lt_iff₀ pp] at hdeg2
      have h1 := (hbnd a ha).2
      have h2 := (hbnd b hb).1
      nlinarith

/-- Witness of C1: the spectrum `[2, 1]` with target `k = 3/2`. -/
theorem ml_solver_forward_condition_cap_witness :
    ([2, 1] : List ℚ) ≠ [] ∧ List.Pairwise (fun a b : ℚ => b ≤ a) [2, 1] ∧ (1 : ℚ) ≤ 3 / 2 ∧
    ∃ row u iv, ml_solver 0 [2, 1] [3 / 2] "forward" = .ok ⟨[row], [u], [iv]⟩ ∧
      row.length = ([2, 1] : List ℚ).length ∧
      (∀ x ∈ row, ∃ q : ℚ, x = fin q ∧ 0 < q) ∧
      (∀ x ∈ row, ∀ y ∈ row, le (x / y) (fin (3 / 2)) = true) ∧
      le (maxEntry row / minEntry row) (fin (3 / 2)) = true :=
  ⟨by simp, by simp, by norm_num,
   ml_solver_forward_condition_cap 0 [2, 1] (3 / 2) (by simp) (by simp) (by norm_num)⟩

/-- Claim C2 fails on the code: on the test spectrum `L[i] = 100/(i+1)` with target
`k = 2` the forward direction resolves `uopt = 1661562/68384965` (about `0.024297`)
and the backward direction (for any fuel of at least nine passes) `uopt = 441/17585`
(about `0.025078`); they differ by about three percent of the larger value, far
more than the relative tolerance `1e-6`. -/
theorem ml_solver_forward_backward_disagree (fuel : Nat) :
    (ml_solver fuel testSpectrum [2] "forward").map (fun r => r.uopt)
      = .ok [fin (1661562 / 68384965)] ∧
    (ml_solver (fuel + 9) testSpectrum [2] "backward").map (fun r => r.uopt)
      = .ok [fin (441 / 17585)] ∧
    (1 / 1000000 : ℚ) * |441 / 17585| < |1661562 / 68384965 - 441 / 17585| := by
  refine ⟨?_, ?_, by norm_num [abs_lt, abs_of_pos, abs_of_neg]⟩
  · rw [ml_solver_forward_fuel fuel 0]
    decide!
  · exact ml_solver_map_fuel_mono _ 9 (fuel + 9) (Nat.le_add_left _ _) _ _ _ _ (by decide!)

/-- Claim C3 fails on the code: on the test spectrum `L[i] = 100/(i+1)` the forward
path starts with `k[0] = 1` and continues with `k[1] = 8431080/15728911` (about
`0.536`), so the `k` sequence decreases at its first step. -/
theorem path_forward_k_not_monotone :
    path_forward testSpectrum = .ok fwdTestPath ∧
    fwdTestPath.k[0]? = some (fin 1) ∧
    fwdTestPath.k[1]? = some (fin (8431080 / 15728911)) ∧
    le (fin 1) (fin (8431080 / 15728911)) = false :=
  ⟨path_forward_testSpectrum, rfl, rfl, by decide!⟩

/-- Claim C4 fails on the code: on the test spectrum `L[i] = 100/(i+1)` the second
vertex of the forward path is `u = 1/25`, `v = 1686216/78644555` (about `0.0214`),
`k = 8431080/15728911` (about `0.536`): there `v < u` and `k < 1`. -/
theorem path_forward_vertex_below_diagonal :
    path_forward testSpectrum = .ok fwdTestPath ∧
    fwdTestPath.u[1]? = some (fin (1 / 25)) ∧
    fwdTestPath.v[1]? = some (fin (1686216 / 78644555)) ∧
    fwdTestPath.k[1]? = some (fin (8431080 / 15728911)) ∧
    lt (fin (1686216 / 78644555)) (fin (1 / 25)) = true ∧
    lt (fin (8431080 / 15728911)) (fin 1) = true :=
  ⟨path_forward_testSpectrum, rfl, rfl, rfl, by decide!, by decide!⟩

/-- Claim C5: for the spectrum `L[i] = 100/(i+1)`, `i < 10`, the call
`ml_solver(L, [2, 10], "forward")` returns two rows, and largest entry over smallest
entry is exactly `2` in the first row and exactly `10` in the second. -/
theorem ml_solver_test_ratios (fuel : Nat) :
    (ml_solver fuel testSpectrum [2, 10] "forward").map
        (fun r => r.Lbar.map (fun row => maxEntry row / minEntry row))
      = .ok [fin 2, fin 10] := by
  rw [ml_solver_forward_fuel fuel 0]
  decide!

/-- Claim C6 fails on the code: for `L = [2, 1]` and `k = 3/2` the forward direction
returns the row `[3/2, 1]`, and clamping that row again at `k = 3/2` returns
`[5/4, 1]`, not the row itself.  The backward direction has the fixed point: it
returns `[7/4, 7/6]` and returns it again from `[7/4, 7/6]`. -/
theorem ml_solver_clamp_not_idempotent (fuel : Nat) :
    (ml_solver fuel [2, 1] [3 / 2] "forward").map (fun r => r.Lbar)
      = .ok [[fin (3 / 2), fin 1]] ∧
    (ml_solver fuel [3 / 2, 1] [3 / 2] "forward").map (fun r => r.Lbar)
      = .ok [[fin (5 / 4), fin 1]] ∧
    (ml_solver (fuel + 1) [2, 1] [3 / 2] "backward").map (fun r => r.Lbar)
      = .ok [[fin (7 / 4), fin (7 / 6)]] ∧
    (ml_solver (fuel + 1) [7 / 4, 7 / 6] [3 / 2] "backward").map (fun r => r.Lbar)
      = .ok [[fin (7 / 4), fin (7 / 6)]] := by
  refine ⟨?_, ?_, ?_, ?_⟩
  · rw [ml_solver_forward_fuel fuel 0]; decide!
  · rw [ml_solver_forward_fuel fuel 0]; decide!
  · exact ml_solver_map_fuel_mono _ 1 (fuel + 1) (Nat.le_add_left _ _) _ _ _ _ (by decide!)
  · exact ml_solver_map_fuel_mono _ 1 (fuel + 1) (Nat.le_add_left _ _) _ _ _ _ (by decide!)

/-- Claim C7 fails on the code: for the full-rank spectrum `L = [2, 1]` and the
target `k = L[0]/L[1] = 2` the forward direction resolves `uopt = 2/3` and the row
`[3/2, 1]`, where the degenerate-branch bound is `max(1/2, 1/(2*1)) = 1/2` and the
claimed row is `L = [2, 1]`.  The backward direction returns `1/2` and `[2, 1]`. -/
theorem ml_solver_boundary_target_differs (fuel : Nat) :
    ml_solver fuel [2, 1] [2] "forward"
      = .ok ⟨[[fin (3 / 2), fin 1]], [fin (2 / 3)], [0]⟩ ∧
    Dbl.max (fin 1 / fin 2) (fin 1 / (fin 2 * fin 1)) = fin (1 / 2) ∧
    ml_solver (fuel + 1) [2, 1] [2] "backward"
      = .ok ⟨[[fin 2, fin 1]], [fin (1 / 2)], [0]⟩ := by
  refine ⟨?_, by decide!, ?_⟩
  · rw [ml_solver_forward_fuel fuel 0]; decide!
  · exact ml_solver_fuel_mono 1 (fuel + 1) (Nat.le_add_left _ _) _ _ _ _ (by decide!)

/-- Claim C8 fails as stated: for `L = [2, 1]` (rank 2) the target `k = 2` equals
`L'[0]/L'[r-1]`, and for `L = [10, 0]` (rank 1) the target `k = 2` exceeds
`L'[0]/L'[r-1] = 1`, yet in both cases `ml_solver`, computing in double precision,
leaves `intv = 0`. -/
theorem ml_solver_degenerate_flag_counterexample :
    (sampleCond [2, 1] ≤ 2 ∧
      (F64.ml_solver 0 [2, 1] [2] "forward").map (fun r => r.intv) = .ok [0]) ∧
    (sampleCond [10, 0] ≤ 2 ∧
      (F64.ml_solver 0 [10, 0] [2] "forward").map (fun r => r.intv) = .ok [0]) := by
  decide!

/-- Claim C8, as amended: for every non-empty spectrum `L` and every target list,
`ml_solver` returns (forward direction), and in every result it returns the flag
`intv[i]` is `1` exactly when `k_i` is strictly greater than `ratio`, the double nearest
to `L'[0] / L'[p-1]` (the quotient as the code computes it, with the last entry of the
floored spectrum `L'`), and is `0` otherwise. -/
theorem ml_solver_degenerate_iff (fuel : Nat) (L ks : List ℚ) (hne : L ≠ []) :
    (∃ res, F64.ml_solver fuel L ks "forward" = .ok res) ∧
    ∀ (direction : String) (res : MLSolverResult),
      F64.ml_solver fuel L ks direction = .ok res →
      ∀ (i : Nat) (hi : i < ks.length),
        res.intv[i]? = some
          (if lt (div64 (fin ((floorEps L).getD 0 0)) (fin ((floorEps L).getD (L.length - 1) 0)))
              (fin ks[i]) = true then 1 else 0) := by
  obtain ⟨l0, lp, h0, hp, p0, pp⟩ := rd_head_last L hne
  have hlen : 0 < L.length := List.length_pos.mpr hne
  have e0 : (floorEps L).getD 0 0 = l0 := by
    have := ((rd_ok_iff _ _ _).mp h0).2
    simp only [Int.toNat_zero] at this
    rw [List.getD_eq_getElem?_getD, this]; rfl
  have ep : (floorEps L).getD (L.length - 1) 0 = lp := by
    have := ((rd_ok_iff _ _ _).mp hp).2
    have e : ((L.length : Int) - 1).toNat = L.length - 1 := by omega
    rw [e] at this
    rw [List.getD_eq_getElem?_getD, this]; rfl
  rw [e0, ep]
  constructor
  · obtain ⟨path, hpath⟩ := path_forward_total64 (floorEps L) (floorEps_ne_nil L hne)
    have hch : F64.choosePath fuel "forward" (floorEps L) = .ok path := by
      unfold F64.choosePath
      rw [if_pos rfl, hpath]
    unfold F64.ml_solver
    simp only [h0, hp, hch, bind, Except.bind]
    by_cases hc : ks.any (fun ki => le (fin ki) (div64 (fin l0) (fin lp))) = true
    · rw [if_pos hc]
      exact ⟨_, rfl⟩
    · rw [if_neg hc]
      exact ⟨_, rfl⟩
  · intro direction res hres i hi
    rw [ml_solver_intv64 fuel L ks direction res l0 lp h0 hp hres, List.getElem?_map,
      List.getElem?_eq_getElem hi]
    rfl

/-- Witness of C8 as amended: the spectrum `[10, 7]` with the targets `fl(10/7)`, the
double nearest to the quotient, which is interpolated (row `[8.5, 7]`), and `2`, which is
degenerate. -/
theorem ml_solver_degenerate_iff_witness :
    ([10, 7] : List ℚ) ≠ [] ∧
    ((∃ res, F64.ml_solver 0 [10, 7] [6433713753386423 / 2 ^ 52, 2] "forward" = .ok res) ∧
    ∀ (direction : String) (res : MLSolverResult),
      F64.ml_solver 0 [10, 7] [6433713753386423 / 2 ^ 52, 2] direction = .ok res →
      ∀ (i : Nat) (hi : i < ([6433713753386423 / 2 ^ 52, 2] : List ℚ).length),
        res.intv[i]? = some
          (if lt (div64 (fin ((floorEps [10, 7]).getD 0 0))
                (fin ((floorEps [10, 7]).getD (([10, 7] : List ℚ).length - 1) 0)))
              (fin ([6433713753386423 / 2 ^ 52, 2] : List ℚ)[i]) = true then 1 else 0)) ∧
    div64 (fin 10) (fin 7) = fin (6433713753386423 / 2 ^ 52) ∧
    F64.ml_solver 0 [10, 7] [6433713753386423 / 2 ^ 52, 2] "forward" =
      .ok ⟨[[fin (17 / 2), fin 7], [fin 10, fin 7]],
        [fin (4238682002231055 / 2 ^ 55), fin (3602879701896397 / 2 ^ 55)], [0, 1]⟩ :=
  ⟨by simp, ml_solver_degenerate_iff 0 [10, 7] [6433713753386423 / 2 ^ 52, 2] (by simp),
    by decide!, by decide!⟩

/-- Claim C9: for every non-empty non-increasing spectrum `L` and every target list,
`ml_solver` returns (forward direction), and wherever a result marks target `i`
degenerate (`intv[i] = 1`) its row `Lbar[i]` is the floored spectrum `L'` entry for
entry and `uopt[i] = max(1 / L'[0], 1 / (k_i * L'[r-1]))`, `r` the rank of `L` (when
`r = 0` the index `r - 1` is read as `0`). -/
theorem ml_solver_degenerate_output (fuel : Nat) (L ks : List ℚ) (hne : L ≠ [])
    (hs : L.Pairwise (fun a b => b ≤ a)) :
    (∃ res, ml_solver fuel L ks "forward" = .ok res) ∧
    ∀ (direction : String) (res : MLSolverResult),
      ml_solver fuel L ks direction = .ok res →
      ∀ (i : Nat) (hi : i < ks.length), res.intv[i]? = some 1 →
        res.Lbar[i]? = some ((floorEps L).map fin) ∧
        res.uopt[i]? = some (fin (Max.max (1 / (floorEps L).getD 0 0)
          (1 / (ks[i] * (floorEps L).getD (rank L - 1) 0)))) := by
  obtain ⟨l0, lp, path, h0, hp, p0, pp, _, hml⟩ := ml_solver_forward_total fuel L ks hne
  refine ⟨⟨_, hml⟩, ?_⟩
  intro direction res hres i hi hflag
  have hlen : 0 < L.length := List.length_pos.mpr hne
  have hL := floorEps_length L
  obtain ⟨e0, g0⟩ := getD_eq_of_rd (floorEps L) 0 l0 h0
  rw [rd_last_cast L hne] at hp
  obtain ⟨_, gp⟩ := getD_eq_of_rd (floorEps L) (L.length - 1) lp hp
  have hrk : rank L - 1 < (floorEps L).length := by
    rw [hL]; unfold rank; omega
  have gr : (floorEps L)[rank L - 1]? = some ((floorEps L).getD (rank L - 1) 0) := by
    rw [List.getD_eq_getElem _ _ hrk]
    exact List.getElem?_eq_getElem hrk
  have hlr : lp ≤ (floorEps L).getD (rank L - 1) 0 :=
    sorted_getElem_le _ (floorEps_sorted L hs) _ _ _ _ (by unfold rank; omega) gr gp
  rw [e0]
  generalize (floorEps L).getD (rank L - 1) 0 = lr at hlr
  obtain ⟨l0', lp', h0', hp', hshape⟩ := ml_solver_ok_shape fuel L ks direction res hres
  rw [h0] at h0'; cases h0'
  rw [rd_last_cast L hne, hp] at hp'; cases hp'
  have key : ∀ path', res = targetResults (floorEps L) l0 lp path' ks →
      res.Lbar[i]? = some ((floorEps L).map fin) ∧
      res.uopt[i]? = some (fin (Max.max (1 / l0) (1 / (ks[i] * lr)))) := by
    intro path' hr
    subst hr
    obtain ⟨t1, t2, t3⟩ := targetResults_get (floorEps L) l0 lp path' ks i hi
    rw [t3, targetResult_intv _ _ _ pp] at hflag
    have hk : l0 / lp < ks[i] := by
      by_contra hc
      rw [if_neg hc] at hflag
      cases hflag
    have hk2 : l0 < ks[i] * lp := (div_lt_iff₀ pp).mp hk
    have hkpos : 0 < ks[i] := lt_trans (div_pos p0 pp) hk
    have hbranch : targetResult (floorEps L) l0 lp path' ks[i] =
        ((floorEps L).map fin, Dbl.max (fin 1 / (fin ks[i] * fin lp)) (fin 1 / fin l0), 1) := by
      unfold targetResult
      rw [fin_div _ _ (ne_of_gt pp)]
      simp only [le_fin, lt_fin, decide_eq_true_eq]
      rw [if_neg (not_le.mpr hk), if_pos hk]
    rw [t1, t2, hbranch]
    refine ⟨rfl, ?_⟩
    simp only [fin_mul]
    rw [fin_div _ _ (ne_of_gt (lt_trans p0 hk2)), fin_div _ _ (ne_of_gt p0), max_fin]
    have h1 : 1 / (ks[i] * lp) ≤ 1 / l0 :=
      (one_div_le_one_div (lt_trans p0 hk2) p0).mpr (le_of_lt hk2)
    have h2 : 1 / (ks[i] * lr) ≤ 1 / l0 := by
      have : l0 ≤ ks[i] * lr := by
        have := mul_le_mul_of_nonneg_left hlr (le_of_lt hkpos)
        linarith
      exact (one_div_le_one_div (lt_of_lt_of_le p0 this) p0).mpr this
    rw [max_eq_right h1, max_eq_left h2]
  rcases hshape with ⟨path', _, hr⟩ | ⟨_, hall⟩
  · exact key path' hr
  · exact key path (hall path)

/-- Witness of C9: the spectrum `[2, 1]` with targets `2` and `3`. -/
theorem ml_solver_degenerate_output_witness :
    ([2, 1] : List ℚ) ≠ [] ∧ List.Pairwise (fun a b : ℚ => b ≤ a) [2, 1] ∧
    ((∃ res, ml_solver 0 [2, 1] [2, 3] "forward" = .ok res) ∧
    ∀ (direction : String) (res : MLSolverResult),
      ml_solver 0 [2, 1] [2, 3] direction = .ok res →
      ∀ (i : Nat) (hi : i < ([2, 3] : List ℚ).length), res.intv[i]? = some 1 →
        res.Lbar[i]? = some ((floorEps [2, 1]).map fin) ∧
        res.uopt[i]? = some (fin (Max.max (1 / (floorEps [2, 1]).getD 0 0)
          (1 / (([2, 3] : List ℚ)[i] * (floorEps [2, 1]).getD (rank [2, 1] - 1) 0))))) :=
  ⟨by simp, by simp, ml_solver_degenerate_output 0 [2, 1] [2, 3] (by simp) (by simp)⟩

/-- Claim C13 fails on the code in two ways.  First, by the absolute tolerance of the
touch tests: the spectrum `[5e16, 2e16, 1e16]` is strictly decreasing with every entry
above machine epsilon, yet the first vertex of the backward path is `u = v = 3.6e-17`,
while `1/mean(L) = 3.75e-17`, which is where `path_forward` starts; in the first pass the
new point `u = 3e-17` is within machine epsilon of the right wall `5e-17` without lying
on it, and `alpha` moves all the same (exact arithmetic; in double precision the two
first vertices differ in the same way).  Second, by rounding: on the strictly decreasing
pair of doubles `[0x1.0624dd2f1a9ffp-10, 0x1.0624dd2f1a9fep-10]` every touch test is
exact in exact arithmetic, where the sweep returns after two passes, but in double
precision the candidate on the diagonal rounds onto a wall and `path_backward` never
returns. -/
theorem path_backward_end_point_counterexample :
    (List.Pairwise (fun a b : ℚ => b < a)
      [50000000000000000, 20000000000000000, 10000000000000000] ∧
    (∀ x ∈ ([50000000000000000, 20000000000000000, 10000000000000000] : List ℚ), eps ≤ x) ∧
    path_backward 2 [50000000000000000, 20000000000000000, 10000000000000000] = .ok
      { k := [fin 1, fin (5 / 3), fin 5, pinf],
        u := [fin (9 / 250000000000000000), fin (3 / 100000000000000000),
              fin (1 / 50000000000000000), fin (1 / 50000000000000000)],
        v := [fin (9 / 250000000000000000), fin (1 / 20000000000000000),
              fin (1 / 10000000000000000), pinf] } ∧
    fin 1 / mean [50000000000000000, 20000000000000000, 10000000000000000]
      = fin (3 / 80000000000000000) ∧
    (path_forward [50000000000000000, 20000000000000000, 10000000000000000]).map
      (fun p => (p.k.head?, p.u.head?, p.v.head?)) =
      .ok (some (fin 1), some (fin (3 / 80000000000000000)),
        some (fin (3 / 80000000000000000))) ∧
    bwdExactRun 2 [50000000000000000, 20000000000000000, 10000000000000000] = false ∧
    (F64.path_backward 2 [50000000000000000, 20000000000000000, 10000000000000000]).map
      (fun p => (p.k.head?, p.u.head?, p.v.head?)) =
      .ok (some (fin 1), some (fin (5841333965851681 / 2 ^ 107)),
        some (fin (5841333965851681 / 2 ^ 107))) ∧
    (F64.path_forward [50000000000000000, 20000000000000000, 10000000000000000]).map
      (fun p => (p.k.head?, p.u.head?, p.v.head?)) =
      .ok (some (fin 1), some (fin (6084722881095501 / 2 ^ 107)),
        some (fin (6084722881095501 / 2 ^ 107)))) ∧
    (List.Pairwise (fun a b : ℚ => b < a)
      [4611686018427391 / 2 ^ 62, 4611686018427390 / 2 ^ 62] ∧
    (∀ x ∈ ([4611686018427391 / 2 ^ 62, 4611686018427390 / 2 ^ 62] : List ℚ),
      eps ≤ x ∧ IsDouble x) ∧
    bwdExactRun 2 [4611686018427391 / 2 ^ 62, 4611686018427390 / 2 ^ 62] = true ∧
    (path_backward 2 [4611686018427391 / 2 ^ 62, 4611686018427390 / 2 ^ 62]).map
      (fun p => p.k.length) = .ok 3 ∧
    F64.path_backward 100 [4611686018427391 / 2 ^ 62, 4611686018427390 / 2 ^ 62] =
      .error Err.fuel ∧
    ∀ (fuel : Nat) (path : PathResult),
      F64.path_backward fuel [4611686018427391 / 2 ^ 62, 4611686018427390 / 2 ^ 62] ≠
        .ok path) :=
  ⟨⟨by decide!, by decide!, by decide!, by decide!, by decide!, by decide!, by decide!,
      by decide!⟩,
    by decide!, by decide!, by decide!, by decide!, by decide!,
    fun fuel path => path_backward_never64 fuel path⟩

/-- Claim C13, amended: in exact arithmetic, for every strictly decreasing spectrum `L` of `p >= 2` entries,
all at least machine epsilon, on which every touch test of the backward sweep is exact
(an index moves only when the new point lies on the wall), `path_backward(L)` returns
within `p` passes a path whose first vertex is the diagonal point `k[0] = 1`,
`u[0] = v[0] = 1/mean(L)`, the point at which `path_forward(L)` starts. -/
theorem path_backward_end_point (L : List ℚ) (hs : L.Pairwise (fun a b => b < a))
    (hp : 2 ≤ L.length) (he : ∀ x ∈ L, eps ≤ x) (fuel : Nat) (hf : L.length ≤ fuel)
    (hx : bwdExactRun fuel L = true) :
    ∃ (path fpath : PathResult) (kt ut vt kt1 ut1 vt1 : List Dbl),
      path_backward fuel L = .ok path ∧ path.k = fin 1 :: kt ∧
      path.u = fin (1 / (L.sum / L.length)) :: ut ∧
      path.v = fin (1 / (L.sum / L.length)) :: vt ∧
      path_forward L = .ok fpath ∧ fpath.k = fin 1 :: kt1 ∧
      fpath.u = fin (1 / (L.sum / L.length)) :: ut1 ∧
      fpath.v = fin (1 / (L.sum / L.length)) :: vt1 := by
  have hne : L ≠ [] := by
    rintro rfl
    simp at hp
  have hpos : ∀ x ∈ L, 0 < x := fun x hx => lt_of_lt_of_le eps_pos (he x hx)
  obtain ⟨path, kt, ut, vt, h, e1, e2, e3⟩ := path_backward_exact L hs hp he fuel hf hx
  obtain ⟨fpath, kt1, ut1, vt1, _, _, hfw, f1, f2, f3, _⟩ := path_forward_shape L hne
  rw [floorEps_of_ge L he, (inv_mean_eq L hne hpos).1] at f2 f3
  exact ⟨path, fpath, kt, ut, vt, kt1, ut1, vt1, h, e1, e2, e3, hfw, f1, f2, f3⟩

/-- Witness of C13 as amended: the spectrum `L[i] = 100/(i+1)`, `i = 0..9`, with ten
passes allowed. -/
theorem path_backward_end_point_witness :
    (testSpectrum.Pairwise (fun a b => b < a) ∧ 2 ≤ testSpectrum.length ∧
      (∀ x ∈ testSpectrum, eps ≤ x) ∧ testSpectrum.length ≤ 10 ∧
      bwdExactRun 10 testSpectrum = true) ∧
    ∃ (path fpath : PathResult) (kt ut vt kt1 ut1 vt1 : List Dbl),
      path_backward 10 testSpectrum = .ok path ∧ path.k = fin 1 :: kt ∧
      path.u = fin (1 / (testSpectrum.sum / testSpectrum.length)) :: ut ∧
      path.v = fin (1 / (testSpectrum.sum / testSpectrum.length)) :: vt ∧
      path_forward testSpectrum = .ok fpath ∧ fpath.k = fin 1 :: kt1 ∧
      fpath.u = fin (1 / (testSpectrum.sum / testSpectrum.length)) :: ut1 ∧
      fpath.v = fin (1 / (testSpectrum.sum / testSpectrum.length)) :: vt1 :=
  ⟨⟨by decide!, by decide, by decide!, by decide, by decide!⟩,
    path_backward_end_point testSpectrum (by decide!) (by decide) (by decide!) 10 (by decide)
      (by decide!)⟩

/-- Claim C14 fails on the code: on the strictly decreasing spectrum `[33, 20, 18, 1]`
`path_backward`, computing in double precision, returns six vertices whose `k` start
with `1, 1 - 2^-53`, so `k[0] > k[1]`.  The mean of this spectrum is its entry `18`, and
in exact arithmetic the second pass lands on the diagonal point itself, so that the sweep
returns after three passes with `k = 1, 1, 7, 33`.  In double precision the second pass
lands just above the diagonal (`k = 1 + 25 * 2^-52`), the third one unit in the last
place below it (`k = 1 - 2^-53`), and the fourth puts the diagonal point in front. -/
theorem path_backward_k_rounding_counterexample :
    List.Pairwise (fun a b : ℚ => b < a) [33, 20, 18, 1] ∧
    (∀ x ∈ ([33, 20, 18, 1] : List ℚ), eps ≤ x ∧ IsDouble x) ∧
    F64.path_backward 4 [33, 20, 18, 1] =
      .ok ⟨[fin 1, fin (9007199254740991 / 2 ^ 53), fin (4503599627370521 / 2 ^ 52),
          fin (7881299347898367 / 2 ^ 50), fin 33, pinf],
        [fin (2001599834386887 / 2 ^ 55), fin (8006399337547549 / 2 ^ 57),
          fin (2001599834386887 / 2 ^ 55), fin (3602879701896397 / 2 ^ 56),
          fin (1091781727847393 / 2 ^ 55), fin (1091781727847393 / 2 ^ 55)],
        [fin (2001599834386887 / 2 ^ 55), fin (2001599834386887 / 2 ^ 55),
          fin (1000799917193449 / 2 ^ 54), fin (3152519739159347 / 2 ^ 53), fin 1, pinf]⟩ ∧
    le (fin 1) (fin (9007199254740991 / 2 ^ 53)) = false ∧
    path_backward 3 [33, 20, 18, 1] =
      .ok ⟨[fin 1, fin 1, fin 7, fin 33, pinf],
        [fin (1 / 18), fin (1 / 18), fin (1 / 20), fin (1 / 33), fin (1 / 33)],
        [fin (1 / 18), fin (1 / 18), fin (7 / 20), fin 1, pinf]⟩ := by
  refine ⟨by decide!, by decide!, by decide!, by decide!, by decide!⟩

/-- Claim C14, amended: in exact arithmetic, for every strictly decreasing spectrum `L` of `p >= 2` entries, all at
least machine epsilon, the `k` of every path that `path_backward(L)` returns are
non-decreasing from the first vertex to the last (`k[i] <= k[i+1]` for consecutive
vertices); and `path_backward(L)` does return, within `p` passes, whenever every touch
test of the sweep is exact. -/
theorem path_backward_k_monotone (L : List ℚ) (hs : L.Pairwise (fun a b => b < a))
    (hp : 2 ≤ L.length) (he : ∀ x ∈ L, eps ≤ x) :
    (∀ (fuel : Nat) (path : PathResult), path_backward fuel L = .ok path →
      ∀ (i : Nat) (a b : Dbl), path.k[i]? = some a → path.k[i + 1]? = some b →
        le a b = true) ∧
    (∀ (fuel : Nat), L.length ≤ fuel → bwdExactRun fuel L = true →
      ∃ path : PathResult, path_backward fuel L = .ok path) := by
  constructor
  · intro fuel path h
    exact chain_pairs _ path.k (path_backward_chain L (hs.imp le_of_lt) he fuel path h)
  · intro fuel hf hx
    obtain ⟨path, _, _, _, h, _⟩ := path_backward_exact L hs hp he fuel hf hx
    exact ⟨path, h⟩

/-- Witness of C14 as amended: the spectrum `L[i] = 100/(i+1)`, `i = 0..9`, on which the nine
passes of the backward sweep return the path `bwdTestPath`. -/
theorem path_backward_k_monotone_witness :
    (testSpectrum.Pairwise (fun a b => b < a) ∧ 2 ≤ testSpectrum.length ∧
      (∀ x ∈ testSpectrum, eps ≤ x) ∧ path_backward 9 testSpectrum = .ok bwdTestPath) ∧
    ((∀ (fuel : Nat) (path : PathResult), path_backward fuel testSpectrum = .ok path →
      ∀ (i : Nat) (a b : Dbl), path.k[i]? = some a → path.k[i + 1]? = some b →
        le a b = true) ∧
    (∀ (fuel : Nat), testSpectrum.length ≤ fuel → bwdExactRun fuel testSpectrum = true →
      ∃ path : PathResult, path_backward fuel testSpectrum = .ok path)) :=
  ⟨⟨by decide!, by decide, by decide!, by decide!⟩,
    path_backward_k_monotone testSpectrum (by decide!) (by decide) (by decide!)⟩

/-- Claim C15: for every non-empty spectrum `L`, `path_forward(L)` returns a path of at
least two vertices whose last vertex has `k = inf`, `v = inf` and the `u` of the vertex
just before it; and every path that `path_backward(L)` returns, whatever `L` and the
number of passes, has the same form. -/
theorem path_final_segment (L : List ℚ) (hne : L ≠ []) :
    (∃ (path : PathResult) (a b c : List Dbl) (x y z : Dbl), path_forward L = .ok path ∧
      path.u = a ++ [x, x] ∧ path.v = b ++ [y, pinf] ∧ path.k = c ++ [z, pinf] ∧
      a.length = c.length ∧ b.length = c.length) ∧
    ∀ (fuel : Nat) (L1 : List ℚ) (path : PathResult), path_backward fuel L1 = .ok path →
      ∃ (a b c : List Dbl) (x y z : Dbl),
        path.u = a ++ [x, x] ∧ path.v = b ++ [y, pinf] ∧ path.k = c ++ [z, pinf] ∧
        a.length = c.length ∧ b.length = c.length := by
  constructor
  · obtain ⟨path, kt, ut, vt, uu, x, h, hk, hu, hv, _, l1, l2, ek, ev, eu⟩ :=
      path_forward_shape L hne
    have hlen : path.u.length = uu.length + 2 := by rw [eu]; simp
    have hkl : path.k.length = uu.length + 2 := by omega
    have hvl : path.v.length = uu.length + 2 := by omega
    have hkd : path.k.dropLast ≠ [] := by
      intro hc
      have := congrArg List.length hc
      simp at this
      omega
    have hvd : path.v.dropLast ≠ [] := by
      intro hc
      have := congrArg List.length hc
      simp at this
      omega
    refine ⟨path, uu, path.v.dropLast.dropLast, path.k.dropLast.dropLast, x,
      path.v.dropLast.getLast hvd, path.k.dropLast.getLast hkd, h, eu, ?_, ?_, ?_, ?_⟩
    · conv_lhs => rw [ev, ← List.dropLast_append_getLast hvd]
      simp
    · conv_lhs => rw [ek, ← List.dropLast_append_getLast hkd]
      simp
    · simp; omega
    · simp; omega
  · intro fuel L1 path h
    obtain ⟨a, b, c, u0, v0, e1, e2, e3, l1, l2, _⟩ := path_backward_shape fuel L1 path h
    exact ⟨a, b, c, u0, v0, v0 / u0, e1, e2, e3, l1, l2⟩

/-- Witness of C15: the spectrum `[2, 1]`. -/
theorem path_final_segment_witness :
    ([2, 1] : List ℚ) ≠ [] ∧
    ((∃ (path : PathResult) (a b c : List Dbl) (x y z : Dbl), path_forward [2, 1] = .ok path ∧
      path.u = a ++ [x, x] ∧ path.v = b ++ [y, pinf] ∧ path.k = c ++ [z, pinf] ∧
      a.length = c.length ∧ b.length = c.length) ∧
    ∀ (fuel : Nat) (L1 : List ℚ) (path : PathResult), path_backward fuel L1 = .ok path →
      ∃ (a b c : List Dbl) (x y z : Dbl),
        path.u = a ++ [x, x] ∧ path.v = b ++ [y, pinf] ∧ path.k = c ++ [z, pinf] ∧
        a.length = c.length ∧ b.length = c.length) :=
  ⟨by simp, path_final_segment [2, 1] (by simp)⟩

/-- Claim C16: the flooring step keeps the length and the order of `L` and replaces
exactly the entries below machine epsilon by machine epsilon; the rank `r = p - numzero`
of the path solvers is the number of original entries that are at least machine
epsilon; `ml_solver` works on the floored spectrum only; and for
`L = [10, 5, 2, 1e-20]` the last entry becomes machine epsilon and the rank is `3`. -/
theorem spectrum_preparation (L : List ℚ) :
    (floorEps L).length = L.length ∧
    (∀ (i : Nat) (x : ℚ), L[i]? = some x →
      (floorEps L)[i]? = some (if x < eps then eps else x)) ∧
    (∀ (i : Nat), L[i]? = none → (floorEps L)[i]? = none) ∧
    rank L = (L.filter (fun x => decide (eps ≤ x))).length ∧
    (L.length : Int) - (numzero L : Int) = ((L.filter (fun x => decide (eps ≤ x))).length : Int) ∧
    (∀ (fuel : Nat) (k : List ℚ) (direction : String),
      ml_solver fuel L k direction = ml_solver fuel (floorEps L) k direction) ∧
    floorEps [10, 5, 2, 1 / 10 ^ 20] = [10, 5, 2, eps] ∧
    rank [10, 5, 2, 1 / 10 ^ 20] = 3 := by
  refine ⟨floorEps_length L, ?_, ?_, ?_, ?_, ?_, by decide!, by decide!⟩
  · intro i x hx
    simp [floorEps, List.getElem?_map, hx]
  · intro i hx
    simp [floorEps, List.getElem?_map, hx]
  · have := numzero_add_filter L
    unfold rank
    omega
  · have := numzero_add_filter L
    omega
  · intro fuel k direction
    exact (ml_solver_floorEps fuel L k direction).symm

/-- Counterexample to C17: the target `1/2` is below one, and `ml_solver` returns a
result for it. -/
theorem ml_solver_target_below_one_returns :
    ml_solver 0 [2, 1] [1 / 2] "forward" =
      .ok { Lbar := [[fin 3, fin 3]], uopt := [fin (2 / 3)], intv := [0] } := by
  decide!

/-- Claim C17, amended: `ml_solver` checks no target.  For every non-empty spectrum and
every target list, also one that contains some target below one, the forward direction
returns a result, with one row, one bound and one flag per target. -/
theorem ml_solver_no_target_check (fuel : Nat) (L k : List ℚ) (hne : L ≠ []) :
    ∃ res : MLSolverResult, ml_solver fuel L k "forward" = .ok res ∧
      res.Lbar.length = k.length ∧ res.uopt.length = k.length ∧ res.intv.length = k.length := by
  obtain ⟨l0, lp, path, _, _, _, _, _, h⟩ := ml_solver_forward_total fuel L k hne
  exact ⟨_, h, by simp [targetResults], by simp [targetResults], by simp [targetResults]⟩

/-- Witness of C17: the spectrum `[2, 1]` with the target `1/2`. -/
theorem ml_solver_no_target_check_witness :
    ([2, 1] : List ℚ) ≠ [] ∧
    ∃ res : MLSolverResult, ml_solver 0 [2, 1] [1 / 2] "forward" = .ok res ∧
      res.Lbar.length = ([1 / 2] : List ℚ).length ∧
      res.uopt.length = ([1 / 2] : List ℚ).length ∧
      res.intv.length = ([1 / 2] : List ℚ).length :=
  ⟨by simp, ml_solver_no_target_check 0 [2, 1] [1 / 2] (by simp)⟩

/-- Claim C18 fails on the code: the direction `"sideways"` is neither `"forward"` nor
`"backward"` and the target list is not empty, yet `ml_solver([2, 1], [3], "sideways")`
returns the degenerate result, in double precision as in exact arithmetic.  The check
of the direction is made only where the path is chosen: with the target `2`, which is
not degenerate, the same call fails with the invalid-argument error, and so does
`ml_solver([19, 9], [fl(19/9)], "sideways")`, whose target equals the rounded quotient. -/
theorem ml_solver_unknown_direction_returns :
    F64.ml_solver 0 [2, 1] [3] "sideways" =
      .ok { Lbar := [[fin 2, fin 1]], uopt := [fin (1 / 2)], intv := [1] } ∧
    ml_solver 0 [2, 1] [3] "sideways" =
      .ok { Lbar := [[fin 2, fin 1]], uopt := [fin (1 / 2)], intv := [1] } ∧
    F64.ml_solver 0 [2, 1] [2] "sideways" = .error Err.invalidArgument ∧
    div64 (fin 19) (fin 9) = fin (4753799606668857 / 2 ^ 51) ∧
    F64.ml_solver 0 [19, 9] [4753799606668857 / 2 ^ 51] "sideways" =
      .error Err.invalidArgument := by
  refine ⟨by decide!, by decide!, by decide!, by decide!, by decide!⟩

/-- Counterexample to C19: on the empty spectrum `path_forward` fails on an undefined
read, which is not an invalid-input error. -/
theorem path_forward_empty_not_invalid :
    path_forward [] = .error Err.outOfRange ∧
      path_forward [] ≠ .error Err.invalidArgument := by
  decide

/-- Claim C19, amended: on the empty spectrum none of the three entry points checks the
length: each of them fails on a read that has no defined value (the mean of an empty
vector, the entry `0` of an empty vector), whatever the targets, the direction and the
number of passes allowed, and none of them returns a path or a result. -/
theorem empty_spectrum_undefined_read (fuel : Nat) (k : List ℚ) (direction : String) :
    path_forward [] = .error Err.outOfRange ∧
    path_backward fuel [] = .error Err.outOfRange ∧
    ml_solver fuel [] k direction = .error Err.outOfRange := by
  refine ⟨rfl, rfl, rfl⟩

/-- Claim C20: for every non-empty spectrum `L` of length `p` the sweep loop of
`path_forward` makes at most `p` passes, so `path_forward` returns and its path holds
at most `p + 2` vertices; and in every pass, from any state with `alpha >= 0` and
`beta <= r - 1`, `alpha` goes down by one or `beta` goes up by one. -/
theorem path_forward_terminates (L : List ℚ) (hne : L ≠ []) :
    (∃ (path : PathResult) (n : Nat), path_forward L = .ok path ∧ n ≤ L.length ∧
      path.k.length = n + 2 ∧ path.u.length = n + 2 ∧ path.v.length = n + 2) ∧
    ∀ s : FwdState, FwdRange L.length s → 0 ≤ s.alpha →
      s.beta ≤ (L.length : Int) - (numzero L : Int) - 1 →
      ∃ s1, fwdBody (floorEps L) s = .ok s1 ∧
        (s1.alpha = s.alpha ∨ s1.alpha = s.alpha - 1) ∧
        (s1.beta = s.beta ∨ s1.beta = s.beta + 1) ∧
        (s1.alpha = s.alpha - 1 ∨ s1.beta = s.beta + 1) := by
  constructor
  · obtain ⟨path, kt, ut, vt, uu, x, h, hk, hu, hv, hl, l1, l2, _, _, eu⟩ :=
      path_forward_shape L hne
    have hlen : path.u.length = uu.length + 2 := by rw [eu]; simp
    exact ⟨path, uu.length, h, by omega, by omega, by omega, by omega⟩
  · intro s hr ha hb
    have hL := floorEps_length L
    obtain ⟨lb, la, _, _, plb, pla, hbody, _, _⟩ :=
      fwdBody_ok (floorEps L) (floorEps_pos L) s (by rw [hL]; exact hr) ha
        (by rw [hL]; have := numzero_le L; omega)
    exact ⟨_, hbody, fwdStep_move lb la (ne_of_gt pla) (ne_of_gt plb) s⟩

/-- Witness of C20: the spectrum `[2, 1]`. -/
theorem path_forward_terminates_witness :
    ([2, 1] : List ℚ) ≠ [] ∧
    ((∃ (path : PathResult) (n : Nat), path_forward [2, 1] = .ok path ∧
      n ≤ ([2, 1] : List ℚ).length ∧
      path.k.length = n + 2 ∧ path.u.length = n + 2 ∧ path.v.length = n + 2) ∧
    ∀ s : FwdState, FwdRange ([2, 1] : List ℚ).length s → 0 ≤ s.alpha →
      s.beta ≤ (([2, 1] : List ℚ).length : Int) - (numzero [2, 1] : Int) - 1 →
      ∃ s1, fwdBody (floorEps [2, 1]) s = .ok s1 ∧
        (s1.alpha = s.alpha ∨ s1.alpha = s.alpha - 1) ∧
        (s1.beta = s.beta ∨ s1.beta = s.beta + 1) ∧
        (s1.alpha = s.alpha - 1 ∨ s1.beta = s.beta + 1)) :=
  ⟨by simp, path_forward_terminates [2, 1] (by simp)⟩

/-- Claim C21 fails on the code, on its own edge-case witnesses: for `L = [10, 1e-20]`
and for `L = [c, c]` (every `c`) no number of passes lets `path_backward` return, and
after `100` passes the loop is still running.  For `[10, 1e-20]` the rank is `1`, so the
sweep starts at `beta = 0`; for `[c, c]` the first pass touches both walls and leaves
`beta = 0`.  With `beta = 0` the lower wall is `h_bottom = inf`: the diagonal test
`v_new > h_bottom` fails, the step gives `u_new = -inf`, `v_new = inf`, and afterwards
`NaN`, so neither index moves again. -/
theorem path_backward_edge_cases_diverge (fuel : Nat) (path : PathResult) :
    path_backward fuel [10, 1 / 10 ^ 20] ≠ .ok path ∧
    (∀ c : ℚ, path_backward fuel [c, c] ≠ .ok path) ∧
    path_backward 100 [10, 1 / 10 ^ 20] = .error Err.fuel ∧
    path_backward 100 [1, 1] = .error Err.fuel ∧
    List.Pairwise (fun a b : ℚ => b ≤ a) [10, 1 / 10 ^ 20] ∧ rank [10, 1 / 10 ^ 20] = 1 :=
  ⟨(path_backward_never fuel path).1, (path_backward_never fuel path).2, by decide!,
    by decide!, by decide!, by decide!⟩

/-- Claim C22 fails on the code for the backward direction: with `L = [1, 1]` the
batch `[1, 2]` never returns (the target `1` needs the backward path, which diverges on
this spectrum), while the single query for its second target `2` returns the
degenerate result.  What holds: whenever a batch returns, for every direction, its
`i`-th row, bound and flag are those of the single query for `ks[i]`, which returns
too; a batch returns as soon as all its single queries do; and in the forward direction
every batch on a non-empty spectrum returns. -/
theorem ml_solver_batch_depends_on_path (fuel : Nat) :
    (∀ res, ml_solver fuel [1, 1] [1, 2] "backward" ≠ .ok res) ∧
    ml_solver fuel [1, 1] [2] "backward" = .ok ⟨[[fin 1, fin 1]], [fin 1], [1]⟩ ∧
    (∀ (L ks : List ℚ) (direction : String) (res : MLSolverResult),
      ml_solver fuel L ks direction = .ok res → ∀ (i : Nat) (hi : i < ks.length),
        ∃ (row : List Dbl) (u : Dbl) (f : Int),
          ml_solver fuel L [ks[i]] direction = .ok ⟨[row], [u], [f]⟩ ∧
          res.Lbar[i]? = some row ∧ res.uopt[i]? = some u ∧ res.intv[i]? = some f) ∧
    (∀ (L ks : List ℚ) (direction : String), L ≠ [] →
      (∀ (i : Nat) (hi : i < ks.length), ∃ r, ml_solver fuel L [ks[i]] direction = .ok r) →
      ∃ res, ml_solver fuel L ks direction = .ok res) ∧
    (∀ (L ks : List ℚ), L ≠ [] → ∃ res, ml_solver fuel L ks "forward" = .ok res) := by
  refine ⟨?_, ?_, ?_, ?_, ?_⟩
  · intro res h
    obtain ⟨l0, lp, h0, hp, hshape⟩ := ml_solver_ok_shape fuel [1, 1] [1, 2] "backward" res h
    have e0 : rd (floorEps [1, 1]) 0 = .ok 1 := by decide!
    have ep : rd (floorEps [1, 1]) ((([1, 1] : List ℚ).length : Int) - 1) = .ok 1 := by decide!
    rw [e0] at h0
    rw [ep] at hp
    cases h0
    cases hp
    rcases hshape with ⟨p, hpath, _⟩ | ⟨hany, _⟩
    · have hf : floorEps [1, 1] = [1, 1] := by decide!
      rw [hf] at hpath
      have : choosePath fuel "backward" [1, 1] = path_backward fuel [1, 1] := by
        unfold choosePath
        rw [if_neg (by decide), if_pos rfl]
      rw [this] at hpath
      exact (path_backward_never fuel p).2 1 hpath
    · revert hany
      decide!
  · have e0 : rd (floorEps [1, 1]) 0 = .ok 1 := by decide!
    have ep : rd (floorEps [1, 1]) ((([1, 1] : List ℚ).length : Int) - 1) = .ok 1 := by decide!
    rw [ml_solver_degenerate_only fuel [1, 1] [2] "backward" 1 1 ⟨[], [], []⟩ e0 ep (by decide!)]
    decide!
  · intro L ks direction res h i hi
    exact ml_solver_batch_single fuel L ks direction res h i hi
  · intro L ks direction hne h
    exact ml_solver_batch_of_singles fuel L ks direction hne h
  · intro L ks hne
    obtain ⟨_, _, _, _, _, _, _, _, h⟩ := ml_solver_forward_total fuel L ks hne
    exact ⟨_, h⟩

/-- C23: for every `gridmax > 1` and `numpts ≥ 2`, `kgrid gridmax numpts` is a list of
`numpts` finite values whose entry `i` is `gridmax / (1 + i * (gridmax - 1) / (numpts - 1))`;
every entry lies between `1` and `gridmax`, the first entry is `gridmax`, the last one is
`1`, and the entries are strictly decreasing.  On the grid of the test, `kgrid 20 10`, the
values are `20, 45/7, 180/47, 30/11, 36/17, 45/26, 60/41, 90/71, 180/161, 1`. -/
theorem kgrid_closed_form (gridmax : ℚ) (numpts : Nat) (hg : 1 < gridmax) (hn : 2 ≤ numpts) :
    ∃ qs : List ℚ, kgrid gridmax numpts = qs.map fin ∧ qs.length = numpts ∧
      (∀ i : Nat, i < numpts →
        qs[i]? = some (gridmax / (1 + (i : ℚ) * (gridmax - 1) / ((numpts : ℚ) - 1)))) ∧
      (∀ x ∈ qs, 1 ≤ x ∧ x ≤ gridmax) ∧
      qs.head? = some gridmax ∧ qs.getLast? = some 1 ∧
      qs.Pairwise (fun a b => b < a) := by
  have hn1 : (0 : ℚ) < (numpts : ℚ) - 1 := by
    have : (2 : ℚ) ≤ (numpts : ℚ) := by exact_mod_cast hn
    linarith
  have hg1 : 0 < gridmax - 1 := by linarith
  have hg0 : 0 < gridmax := by linarith
  have hXpos : ∀ i : Nat, 0 < 1 + (i : ℚ) * (gridmax - 1) / ((numpts : ℚ) - 1) := by
    intro i
    have : 0 ≤ (i : ℚ) * (gridmax - 1) / ((numpts : ℚ) - 1) := by positivity
    linarith
  have hget : ∀ i : Nat, i < numpts →
      ((List.range numpts).map (fun i : Nat =>
        gridmax / (1 + (i : ℚ) * (gridmax - 1) / ((numpts : ℚ) - 1))))[i]? =
        some (gridmax / (1 + (i : ℚ) * (gridmax - 1) / ((numpts : ℚ) - 1))) := by
    intro i hi
    rw [List.getElem?_map, List.getElem?_range hi]
    rfl
  refine ⟨(List.range numpts).map (fun i : Nat =>
    gridmax / (1 + (i : ℚ) * (gridmax - 1) / ((numpts : ℚ) - 1))), ?_, ?_, hget, ?_, ?_, ?_, ?_⟩
  · rw [kgrid_eq gridmax numpts hg hn, List.map_map]
    rfl
  · simp
  · intro x hx
    rw [List.mem_map] at hx
    obtain ⟨i, hi, rfl⟩ := hx
    have hi1 : (i : ℚ) ≤ (numpts : ℚ) - 1 := by
      have : (i : ℚ) + 1 ≤ (numpts : ℚ) := by exact_mod_cast List.mem_range.mp hi
      linarith
    have hi0 : (0 : ℚ) ≤ (i : ℚ) := Nat.cast_nonneg i
    constructor
    · rw [le_div_iff₀ (hXpos i), one_mul]
      have : (i : ℚ) * (gridmax - 1) / ((numpts : ℚ) - 1) ≤ gridmax - 1 := by
        rw [div_le_iff₀ hn1]
        nlinarith
      linarith
    · rw [div_le_iff₀ (hXpos i)]
      have : 0 ≤ (i : ℚ) * (gridmax - 1) / ((numpts : ℚ) - 1) := by positivity
      nlinarith
  · rw [List.head?_eq_getElem?, hget 0 (by omega)]
    simp
  · rw [List.getLast?_eq_getElem?, List.length_map, List.length_range,
      hget (numpts - 1) (by omega)]
    congr 1
    have : ((numpts - 1 : Nat) : ℚ) = (numpts : ℚ) - 1 := by
      rw [Nat.cast_sub (by omega)]; simp
    rw [this]
    field_simp
  · rw [List.pairwise_map]
    refine List.Pairwise.imp ?_ (List.pairwise_lt_range numpts)
    intro a b hab
    have hab1 : (a : ℚ) < (b : ℚ) := by exact_mod_cast hab
    apply div_lt_div_of_pos_left hg0 (hXpos a)
    have : (a : ℚ) * (gridmax - 1) / ((numpts : ℚ) - 1) <
        (b : ℚ) * (gridmax - 1) / ((numpts : ℚ) - 1) := by
      apply div_lt_div_of_pos_right _ hn1
      exact mul_lt_mul_of_pos_right hab1 hg1
    linarith

/-- Witness for C23 at the grid of the test, `kgrid 20 10`, together with its values. -/
theorem kgrid_closed_form_witness :
    ((1 : ℚ) < 20 ∧ 2 ≤ 10) ∧
      (∃ qs : List ℚ, kgrid 20 10 = qs.map fin ∧ qs.length = 10 ∧
        (∀ i : Nat, i < 10 →
          qs[i]? = some ((20 : ℚ) / (1 + (i : ℚ) * (20 - 1) / (((10 : Nat) : ℚ) - 1)))) ∧
        (∀ x ∈ qs, 1 ≤ x ∧ x ≤ (20 : ℚ)) ∧
        qs.head? = some 20 ∧ qs.getLast? = some 1 ∧
        qs.Pairwise (fun a b => b < a)) ∧
      kgrid 20 10 = [fin 20, fin (45 / 7), fin (180 / 47), fin (30 / 11), fin (36 / 17),
        fin (45 / 26), fin (60 / 41), fin (90 / 71), fin (180 / 161), fin 1] :=
  ⟨⟨by norm_num, by norm_num⟩, kgrid_closed_form 20 10 (by norm_num) (by norm_num), by decide!⟩

/-- Claim C24: in every iteration of the loop of `path_forward`, `alpha` stays or goes
down by exactly one, `beta` stays or goes up by exactly one, and at least one of the
two moves; hence over the whole sweep `alpha` never increases and `beta` never
decreases.  Both move in one iteration on `L = [6, 3, 2, 1]`, whose loop states have
`(alpha, beta) = (1, 2), (0, 2), (-1, 3)`.  The loop states are those of the run: the
last one is the state the returned path is built from. -/
theorem path_forward_two_pointer (L : List ℚ) :
    List.Chain' (fun s s1 : FwdState =>
        (s1.alpha = s.alpha ∨ s1.alpha = s.alpha - 1) ∧
        (s1.beta = s.beta ∨ s1.beta = s.beta + 1) ∧
        (s1.alpha = s.alpha - 1 ∨ s1.beta = s.beta + 1)) (forwardStates L) ∧
    List.Pairwise (fun s s1 : FwdState => s1.alpha ≤ s.alpha ∧ s.beta ≤ s1.beta)
      (forwardStates L) ∧
    (∀ path, path_forward L = .ok path →
      ∃ sN, (forwardStates L).getLast? = some sN ∧ path.k = sN.kmax_vec ++ [pinf] ∧
        (forwardStates L).length = sN.kmax_vec.length) ∧
    (forwardStates [6, 3, 2, 1]).map (fun s => (s.alpha, s.beta)) = [(1, 2), (0, 2), (-1, 3)] := by
  have hch := (forwardStates_chain L (fun _ => True) (fun _ _ => trivial)
    (fun _ _ _ _ _ _ => trivial)).1
  have hmove : List.Chain' (fun s s1 : FwdState =>
        (s1.alpha = s.alpha ∨ s1.alpha = s.alpha - 1) ∧
        (s1.beta = s.beta ∨ s1.beta = s.beta + 1) ∧
        (s1.alpha = s.alpha - 1 ∨ s1.beta = s.beta + 1)) (forwardStates L) :=
    hch.imp (fun a b h => fwdBody_move (floorEps L) (floorEps_pos L) a b h.2.2.2)
  refine ⟨hmove, ?_, ?_, by decide!⟩
  · haveI : IsTrans FwdState (fun s s1 : FwdState => s1.alpha ≤ s.alpha ∧ s.beta ≤ s1.beta) :=
      ⟨fun a b c h1 h2 => ⟨le_trans h2.1 h1.1, le_trans h1.2 h2.2⟩⟩
    rw [← List.chain'_iff_pairwise]
    exact hmove.imp (fun a b h => by omega)
  · intro path h
    obtain ⟨sN, e1, e2, _, _, e5⟩ := forwardStates_last L path h
    exact ⟨sN, e1, e2, e5⟩

/-- Claim C25 fails on the code.  On the test spectrum `L[i] = 100/(i+1)` the second
iteration of the loop of `path_forward` starts with `alpha = 2` and
`slope_num = 475/3`, while the entries with index in `[0, 2)` sum to `150`; on
`L = [3, 2, 1]` it starts with `alpha = 0` and `slope_num = 1`, while the sum over
`[0, 0)` is `0`.  What the code keeps, on every strictly decreasing spectrum of at least
two entries, all at least machine epsilon, is `slope_num = L[0] + .. + L[alpha] -
L[alpha0]`, with `alpha0` the starting index, and `slope_denom = L[beta] + .. + L[p-1]`:
the update `slope_num -= L_copy(alpha); alpha--` removes the entry at `alpha`, which
the sum over `[0, alpha)` never held. -/
theorem path_forward_running_sum_defect :
    ((forwardStates testSpectrum).map (fun s =>
        (s.alpha, s.slope_num, fin (sumRange testSpectrum 0 s.alpha.toNat))))[1]?
      = some (2, fin (475 / 3), fin 150) ∧
    ((forwardStates [3, 2, 1]).map (fun s =>
        (s.alpha, s.slope_num, fin (sumRange [3, 2, 1] 0 s.alpha.toNat))))[1]?
      = some (0, fin 1, fin 0) ∧
    ∀ L : List ℚ, L.Pairwise (fun a b => b < a) → 2 ≤ L.length → (∀ x ∈ L, eps ≤ x) →
      ∃ (a0 : Int) (c : ℚ) (t : List FwdState), rd L a0 = .ok c ∧
        forwardStates L = fwdInit L (fin (1 / (L.sum / L.length))) a0 :: t ∧
        ∀ s ∈ forwardStates L,
          s.slope_num = fin ((L.take (s.alpha + 1).toNat).sum - c) ∧
          s.slope_denom = fin ((L.drop s.beta.toNat).sum) := by
  refine ⟨by decide!, by decide!, ?_⟩
  intro L hs hp he
  have hne : L ≠ [] := by
    rintro rfl
    simp at hp
  have hfl := floorEps_of_ge L he
  obtain ⟨l0, h0⟩ : ∃ l0, L[0]? = some l0 := ⟨L[0], List.getElem?_eq_getElem (by omega)⟩
  obtain ⟨a0, c, hc, _, hstart, _, hall⟩ := forwardStates_good L hne l0 (by rw [hfl]; exact h0)
    (by rw [hfl]; exact sum_lt_of_strict L hs hp l0 h0)
  rw [hfl] at hc hstart hall
  obtain ⟨t, ht⟩ := fwdStates_ne_nil L ((L.length : Int) - (numzero L : Int)) (L.length + 1)
    (fwdInit L (fin (1 / (L.sum / L.length))) a0)
  have hst : forwardStates L = fwdInit L (fin (1 / (L.sum / L.length))) a0 :: t := by
    unfold forwardStates
    rw [hstart, hfl]
    exact ht
  refine ⟨a0, c, t, hc, hst, ?_⟩
  · intro s hs1
    obtain ⟨_, ⟨sn, sd, u, v, e1, e2, _, _, hsn, hsd, _⟩, _⟩ := hall s hs1
    refine ⟨?_, ?_⟩
    · rw [e1, ← hsn]
      congr 1
      ring
    · rw [e2, hsd]

/-- Claim C26 fails on the code: `[7 + 7 * 2^-50, 7 + 6 * 2^-50]` is a strictly
decreasing spectrum of two doubles, both above machine epsilon, on which the double
`1/mean(L)` equals the double `1/L[0]`.  The start search of `path_forward` stops at
`alpha = 0`, the loop is entered with `slope_num = 0` (the empty sum), and its only pass
computes `0 / 0`: the vertex it records has `u = NaN` and `k = NaN`, which lies on no
line and on no wall. -/
theorem path_forward_nan_vertex :
    List.Pairwise (fun a b : ℚ => b < a) [7 + 7 / 2 ^ 50, 7 + 6 / 2 ^ 50] ∧
    (∀ x ∈ ([7 + 7 / 2 ^ 50, 7 + 6 / 2 ^ 50] : List ℚ), eps ≤ x ∧ IsDouble x) ∧
    div64 (fin 1) (F64.mean [7 + 7 / 2 ^ 50, 7 + 6 / 2 ^ 50]) =
      div64 (fin 1) (fin (7 + 7 / 2 ^ 50)) ∧
    (F64.fwdStart [7 + 7 / 2 ^ 50, 7 + 6 / 2 ^ 50]).map
        (fun s => (s.alpha, s.beta, s.slope_num, s.slope_denom)) =
      .ok (0, 1, fin 0, fin (7 + 6 / 2 ^ 50)) ∧
    F64.path_forward [7 + 7 / 2 ^ 50, 7 + 6 / 2 ^ 50] =
      .ok ⟨[fin 1, nan, pinf],
        [fin (2573485501354567 / 2 ^ 54), nan, nan],
        [fin (2573485501354567 / 2 ^ 54), fin (2573485501354567 / 2 ^ 54), pinf]⟩ := by
  refine ⟨by decide!, by decide!, by decide!, by decide!, by decide!⟩

/-- Claim C26 in exact arithmetic: for every strictly decreasing spectrum of `p >= 2` entries, all at least
machine epsilon, every iteration of the loop of `path_forward`, from a loop state `s` to
the next `s1`, works on finite values and produces a vertex `(u_new, v_new)` with
`slope_num*(u_new - u_cur) + slope_denom*(v_new - v_cur) = 0` (sums and point of `s`),
`u_new >= 1/L[alpha]`, and `v_new = 1/L[beta]` or `u_new = 1/L[alpha]`; the vertex is
appended to the path with `k = v_new/u_new`.  The loop states are those of the run:
`path_forward` returns the path built from the last one. -/
theorem path_forward_step_geometry (L : List ℚ) (hs : L.Pairwise (fun a b => b < a))
    (hp : 2 ≤ L.length) (he : ∀ x ∈ L, eps ≤ x) :
    List.Chain' (fun s s1 : FwdState =>
      ∃ sn sd u v la lb un vn : ℚ,
        s.slope_num = fin sn ∧ s.slope_denom = fin sd ∧ s.u_cur = fin u ∧ s.v_cur = fin v ∧
        rd L s.alpha = .ok la ∧ rd L s.beta = .ok lb ∧
        s1.u_cur = fin un ∧ s1.v_cur = fin vn ∧
        sn * (un - u) + sd * (vn - v) = 0 ∧ 1 / la ≤ un ∧ (vn = 1 / lb ∨ un = 1 / la) ∧
        s1.kmax_vec = s.kmax_vec ++ [fin (vn / un)] ∧ s1.u_vec = s.u_vec ++ [fin un] ∧
        s1.v_vec = s.v_vec ++ [fin vn]) (forwardStates L) ∧
    ∃ (path : PathResult) (sN : FwdState), path_forward L = .ok path ∧
      (forwardStates L).getLast? = some sN ∧ path.k = sN.kmax_vec ++ [pinf] ∧
      path.u = sN.u_vec ++ [sN.u_vec.getLastD nan] ∧ path.v = sN.v_vec ++ [pinf] := by
  have hne : L ≠ [] := by
    rintro rfl
    simp at hp
  have hpos : ∀ x ∈ L, 0 < x := fun x hx => lt_of_lt_of_le eps_pos (he x hx)
  have hfl := floorEps_of_ge L he
  obtain ⟨l0, h0⟩ : ∃ l0, L[0]? = some l0 := ⟨L[0], List.getElem?_eq_getElem (by omega)⟩
  obtain ⟨a0, c, hc, hfact, _, hch, _⟩ := forwardStates_good L hne l0 (by rw [hfl]; exact h0)
    (by rw [hfl]; exact sum_lt_of_strict L hs hp l0 h0)
  rw [hfl] at hc hch
  constructor
  · refine hch.imp ?_
    rintro s s1 ⟨⟨hr, hg, hb0⟩, hal, hbe, hbody⟩
    have hb : s.beta < (L.length : Int) := by
      have := numzero_le L; omega
    obtain ⟨lb, la, hlb, hla, plb, pla, hbody2, _, _⟩ := fwdBody_ok L hpos s hr hal hb
    rw [hbody2] at hbody
    cases hbody
    obtain ⟨sn, sd, u, v, e1, e2, e3, e4, hsn, hsd, _⟩ := hg
    obtain ⟨r1, r2, r3, r4⟩ := hr
    have glb := ((rd_ok_iff _ _ _).mp hlb).2
    have psn : 0 < sn := by
      have := head_le_take_sum L hpos l0 h0 (s.alpha + 1).toNat (by omega)
      have := hfact (by omega)
      linarith
    have psd : 0 < sd := by
      rw [hsd, drop_sum L _ lb glb]
      have : 0 ≤ (L.drop (s.beta.toNat + 1)).sum :=
        sum_nonneg_of_pos _ (fun x hx => hpos x (List.mem_of_mem_drop hx))
      linarith
    obtain ⟨un, vn, f1, f2, f3, f4, f5, f6, f7, f8⟩ :=
      fwdStep_geom lb la sn sd u v pla plb (ne_of_gt psn) (ne_of_gt psd) s e1 e2 e3 e4
    exact ⟨sn, sd, u, v, la, lb, un, vn, e1, e2, e3, e4, hla, hlb, f1, f2, f3, f4, f5, f6, f7,
      f8⟩
  · obtain ⟨path, _, _, _, h, _⟩ := path_forward_total L hne
    obtain ⟨sN, i1, i2, i3, i4, _⟩ := forwardStates_last L path h
    exact ⟨path, sN, h, i1, i2, i3, i4⟩

/-- Claim C26 in exact arithmetic, at a witness: the spectrum `[3, 2, 1]`, whose loop makes two iterations. -/
theorem path_forward_step_geometry_witness :
    (List.Pairwise (fun a b : ℚ => b < a) [3, 2, 1] ∧ 2 ≤ ([3, 2, 1] : List ℚ).length ∧
      (∀ x ∈ ([3, 2, 1] : List ℚ), eps ≤ x) ∧ (forwardStates [3, 2, 1]).length = 3) ∧
    (List.Chain' (fun s s1 : FwdState =>
      ∃ sn sd u v la lb un vn : ℚ,
        s.slope_num = fin sn ∧ s.slope_denom = fin sd ∧ s.u_cur = fin u ∧ s.v_cur = fin v ∧
        rd [3, 2, 1] s.alpha = .ok la ∧ rd [3, 2, 1] s.beta = .ok lb ∧
        s1.u_cur = fin un ∧ s1.v_cur = fin vn ∧
        sn * (un - u) + sd * (vn - v) = 0 ∧ 1 / la ≤ un ∧ (vn = 1 / lb ∨ un = 1 / la) ∧
        s1.kmax_vec = s.kmax_vec ++ [fin (vn / un)] ∧ s1.u_vec = s.u_vec ++ [fin un] ∧
        s1.v_vec = s.v_vec ++ [fin vn]) (forwardStates [3, 2, 1]) ∧
    ∃ (path : PathResult) (sN : FwdState), path_forward [3, 2, 1] = .ok path ∧
      (forwardStates [3, 2, 1]).getLast? = some sN ∧ path.k = sN.kmax_vec ++ [pinf] ∧
      path.u = sN.u_vec ++ [sN.u_vec.getLastD nan] ∧ path.v = sN.v_vec ++ [pinf]) :=
  ⟨⟨by decide!, by decide, by decide!, by decide!⟩,
    path_forward_step_geometry [3, 2, 1] (by decide!) (by decide) (by decide!)⟩

/-- C28: let a path hold at positions `idx - 1` and `idx` the vertices `(u0, v0)` and
`(u1, v1)`, with `u0, u1 > 0`, `k0 = v0/u0`, `k1 = v1/u1`, let the earlier vertices have
`k` below the target, and let `k0 < k ≤ k1`.  Then the bound that `ml_solver` reads off
the path is the finite positive value `u = 1/((1-t)/u0 + t/u1)`, `t = (k-k0)/(k1-k0)`,
and the point `(u, k u)` is collinear with `(u0, v0)` and `(u1, v1)`; it is the point
`(1-s) (u0, v0) + s (u1, v1)` of the segment for some `0 < s ≤ 1`. -/
theorem interpolation_on_segment (path : PathResult) (idx : Nat) (u0 v0 u1 v1 k : ℚ)
    (hidx : 0 < idx) (hlen : idx < path.k.length)
    (hbelow : ∀ j : Nat, j < idx → lt (path.k.getD j nan) (fin k) = true)
    (hk0 : path.k.getD (idx - 1) nan = fin (v0 / u0))
    (hk1 : path.k.getD idx nan = fin (v1 / u1))
    (hu0 : path.u.getD (idx - 1) nan = fin u0) (hu1 : path.u.getD idx nan = fin u1)
    (pu0 : 0 < u0) (pu1 : 0 < u1) (hlo : v0 / u0 < k) (hhi : k ≤ v1 / u1) :
    ∃ u : ℚ, interpU path (fin k) = fin u ∧ 0 < u ∧
      u = 1 / ((1 - (k - v0 / u0) / (v1 / u1 - v0 / u0)) / u0 +
        (k - v0 / u0) / (v1 / u1 - v0 / u0) / u1) ∧
      (u - u0) * (v1 - v0) = (k * u - v0) * (u1 - u0) ∧
      ∃ s : ℚ, 0 < s ∧ s ≤ 1 ∧ u = (1 - s) * u0 + s * u1 ∧ k * u = (1 - s) * v0 + s * v1 := by
  obtain ⟨hpos, hcol⟩ := harmonic_on_segment u0 v0 u1 v1 k pu0 pu1 hlo hhi
  obtain ⟨s, hs0, hs1, hsu, hsv⟩ := harmonic_segment_param u0 v0 u1 v1 k pu0 pu1 hlo hhi
  have hat : lt (path.k.getD idx nan) (fin k) = false := by
    rw [hk1]
    simp only [lt_fin, decide_eq_false_iff_not, not_lt]
    exact hhi
  have hfind := findIdx_unique path.k (fin k) idx hlen hbelow hat
  have hd : v1 / u1 - v0 / u0 ≠ 0 := by
    have : v0 / u0 < v1 / u1 := lt_of_lt_of_le hlo hhi
    linarith
  refine ⟨_, ?_, one_div_pos.mpr hpos, ?_, hcol, s, hs0, hs1, hsu, hsv⟩
  · unfold interpU
    simp only [hfind]
    rw [if_neg (by omega), if_neg (by
      rw [hk1]
      intro h
      rcases h with h | h
      · omega
      · cases h)]
    simp only [hk0, hk1, hu0, hu1, fin_sub, fin_div _ _ hd, fin_div _ _ (ne_of_gt pu0),
      fin_div _ _ (ne_of_gt pu1), fin_mul, fin_add, fin_div _ _ (ne_of_gt hpos)]
  · simp only [mul_one_div, div_eq_mul_inv, one_mul]

/-- Witness for C28 on the backward path of the spectrum `[2, 1]`, whose vertices are
`(2/3, 2/3)` with `k = 1` and `(1/2, 1)` with `k = 2`: the target `k = 3/2` gets the
bound `u = 4/7`, and `(4/7, 6/7)` lies on the segment between the two vertices. -/
theorem interpolation_on_segment_witness :
    (path_backward 9 [2, 1] =
        .ok ⟨[fin 1, fin 2, pinf], [fin (2 / 3), fin (1 / 2), fin (1 / 2)],
          [fin (2 / 3), fin 1, pinf]⟩ ∧
      (0 : ℚ) < 2 / 3 ∧ (0 : ℚ) < 1 / 2 ∧ ((2 / 3 : ℚ) / (2 / 3) < 3 / 2) ∧
      ((3 / 2 : ℚ) ≤ 1 / (1 / 2))) ∧
    (∃ u : ℚ,
      interpU ⟨[fin 1, fin 2, pinf], [fin (2 / 3), fin (1 / 2), fin (1 / 2)],
        [fin (2 / 3), fin 1, pinf]⟩ (fin (3 / 2)) = fin u ∧ 0 < u ∧
      u = 1 / ((1 - (3 / 2 - (2 / 3 : ℚ) / (2 / 3)) / (1 / (1 / 2) - (2 / 3 : ℚ) / (2 / 3))) /
          (2 / 3) +
        (3 / 2 - (2 / 3 : ℚ) / (2 / 3)) / (1 / (1 / 2) - (2 / 3 : ℚ) / (2 / 3)) / (1 / 2)) ∧
      (u - 2 / 3) * (1 - 2 / 3) = (3 / 2 * u - 2 / 3) * (1 / 2 - 2 / 3) ∧
      ∃ s : ℚ, 0 < s ∧ s ≤ 1 ∧ u = (1 - s) * (2 / 3) + s * (1 / 2) ∧
        3 / 2 * u = (1 - s) * (2 / 3) + s * 1) ∧
    interpU ⟨[fin 1, fin 2, pinf], [fin (2 / 3), fin (1 / 2), fin (1 / 2)],
      [fin (2 / 3), fin 1, pinf]⟩ (fin (3 / 2)) = fin (4 / 7) ∧
    ml_solver 9 [2, 1] [3 / 2] "backward" =
      .ok ⟨[[fin (7 / 4), fin (7 / 6)]], [fin (4 / 7)], [0]⟩ :=
  ⟨⟨by decide!, by norm_num, by norm_num, by norm_num, by norm_num⟩,
    interpolation_on_segment
      ⟨[fin 1, fin 2, pinf], [fin (2 / 3), fin (1 / 2), fin (1 / 2)], [fin (2 / 3), fin 1, pinf]⟩
      1 (2 / 3) (2 / 3) (1 / 2) 1 (3 / 2) (by norm_num) (by decide) (by decide!) (by decide!)
      (by decide!) rfl rfl (by norm_num) (by norm_num) (by norm_num) (by norm_num),
    by decide!, by decide!⟩

/-- Claim C30 fails on the code, which computes in double precision.  On `[50, 48]`
the mean is `49`, yet every entry of the row for `k = 1` is `49 + 2^-47`: the row is
`1 / (1 / mean)` with both divisions rounded.  On `[2^1023, 2^1023]` the sum inside the
mean overflows, the bound is `0` and the row is `[inf, inf]`. -/
theorem ml_solver_target_one_rounding_counterexample :
    (List.Pairwise (fun a b : ℚ => b ≤ a) [50, 48] ∧
      (∀ x ∈ ([50, 48] : List ℚ), IsDouble x) ∧
      F64.mean [50, 48] = fin 49 ∧ mean (floorEps [50, 48]) = fin 49 ∧
      F64.ml_solver 0 [50, 48] [1] "forward" =
        .ok ⟨[[fin (6896136929411073 / 2 ^ 47), fin (6896136929411073 / 2 ^ 47)]],
          [fin (5882252574524729 / 2 ^ 58)], [0]⟩ ∧
      (6896136929411073 / 2 ^ 47 : ℚ) = 49 + 1 / 2 ^ 47) ∧
    (List.Pairwise (fun a b : ℚ => b ≤ a) [2 ^ 1023, 2 ^ 1023] ∧
      (∀ x ∈ ([2 ^ 1023, 2 ^ 1023] : List ℚ), IsDouble x) ∧
      F64.mean [2 ^ 1023, 2 ^ 1023] = pinf ∧
      mean (floorEps [2 ^ 1023, 2 ^ 1023]) = fin (2 ^ 1023) ∧
      F64.ml_solver 0 [2 ^ 1023, 2 ^ 1023] [1] "forward" =
        .ok ⟨[[pinf, pinf]], [fin 0], [0]⟩) := by
  refine ⟨⟨by decide!, by decide!, by decide!, by decide!, by decide!, by norm_num⟩,
    by decide!, by decide!, by decide!, by decide!, by decide!⟩

/-- Claim C30, amended: in exact arithmetic, on every non-empty non-increasing spectrum `ml_solver(L, [1], "forward")`
returns, and its single clamped row has `p` entries, every one of them equal to the mean
`m` of the floored spectrum `L'`; the bound is `1/m`, the target is not flagged as
degenerate, and `p m` is the sum of the entries of `L'`. -/
theorem ml_solver_target_one_flat (fuel : Nat) (L : List ℚ) (hne : L ≠ [])
    (hs : L.Pairwise (fun a b => b ≤ a)) :
    ∃ m : ℚ, 0 < m ∧ m = (floorEps L).sum / (floorEps L).length ∧
      mean (floorEps L) = fin m ∧
      ml_solver fuel L [1] "forward" =
        .ok ⟨[List.replicate L.length (fin m)], [fin (1 / m)], [0]⟩ ∧
      (L.length : ℚ) * m = (floorEps L).sum := by
  have hne2 := floorEps_ne_nil L hne
  have hlen : 0 < L.length := List.length_pos.mpr hne
  obtain ⟨hinv, pm⟩ := inv_mean_eq (floorEps L) hne2 (floorEps_pos L)
  obtain ⟨l0, lp, path, h0, hp, p0, pp, hpath, hml⟩ := ml_solver_forward_total fuel L [1] hne
  obtain ⟨path1, kt, ut, vt, uu, x, hpath1, hk, hu, _⟩ := path_forward_shape (floorEps L) hne2
  rw [hpath] at hpath1
  cases hpath1
  rw [floorEps_idem, hinv] at hu
  have hle : lp ≤ l0 :=
    rd_sorted (floorEps L) (floorEps_sorted L hs) _ _ l0 lp h0 hp (by omega)
  have hratio : (1 : ℚ) ≤ l0 / lp := by
    rw [le_div_iff₀ pp]; linarith
  have hiu : interpU path (fin 1) = fin (1 / ((floorEps L).sum / (floorEps L).length)) := by
    rw [interpU_at_start path kt hk 1 (le_refl _), hu]
    rfl
  have htr : targetResult (floorEps L) l0 lp path 1 =
      (List.replicate L.length (fin ((floorEps L).sum / (floorEps L).length)),
        fin (1 / ((floorEps L).sum / (floorEps L).length)), 0) := by
    unfold targetResult
    rw [fin_div _ _ (ne_of_gt pp)]
    simp only [le_fin, hratio, decide_True, if_true, hiu]
    rw [clampRow_one (floorEps L) (floorEps_pos L) _ pm, floorEps_length]
  refine ⟨(floorEps L).sum / (floorEps L).length, pm, rfl, mean_eq _ hne2, ?_, ?_⟩
  · rw [hml]
    unfold targetResults
    simp only [List.map_cons, List.map_nil, htr]
  · rw [floorEps_length]
    have : (L.length : ℚ) ≠ 0 := by positivity
    field_simp

/-- Witness for C30 as amended, at the spectrum `[3, 2, 1]`, whose mean is `2`, together with
the result on the spectrum of the tests and on the rank-deficient spectrum `[1, 0]`. -/
theorem ml_solver_target_one_flat_witness :
    (([3, 2, 1] : List ℚ) ≠ [] ∧ ([3, 2, 1] : List ℚ).Pairwise (fun a b => b ≤ a)) ∧
    (∃ m : ℚ, 0 < m ∧ m = (floorEps [3, 2, 1]).sum / (floorEps [3, 2, 1]).length ∧
      mean (floorEps [3, 2, 1]) = fin m ∧
      ml_solver 0 [3, 2, 1] [1] "forward" =
        .ok ⟨[List.replicate ([3, 2, 1] : List ℚ).length (fin m)], [fin (1 / m)], [0]⟩ ∧
      (([3, 2, 1] : List ℚ).length : ℚ) * m = (floorEps [3, 2, 1]).sum) ∧
    ml_solver 0 [3, 2, 1] [1] "forward" = .ok ⟨[[fin 2, fin 2, fin 2]], [fin (1 / 2)], [0]⟩ ∧
    ml_solver 0 testSpectrum [1] "forward" =
      .ok ⟨[List.replicate 10 (fin (7381 / 252))], [fin (252 / 7381)], [0]⟩ :=
  ⟨⟨by simp, by decide!⟩, ml_solver_target_one_flat 0 [3, 2, 1] (by simp) (by decide!),
    by decide!, by decide!⟩

/-- Claim C31 fails on the code: `[3 + 2^-50, 3 + 2^-51]` is a non-increasing spectrum
of two doubles and `k = 1 + 2^-52` a target above `1`.  The rounded quotient
`L[0]/L[1]` is `1 + 2^-52`, so the target is not degenerate and is looked up on the
forward path, whose second vertex is `NaN` (the loop divides `0` by the empty sum
`slope_num = 0`): the bound is `NaN` and the clamped row is `[NaN, NaN]`, which is not
ordered. -/
theorem ml_solver_nan_row :
    List.Pairwise (fun a b : ℚ => b ≤ a) [3 + 1 / 2 ^ 50, 3 + 1 / 2 ^ 51] ∧
    (∀ x ∈ ([3 + 1 / 2 ^ 50, 3 + 1 / 2 ^ 51, 1 + 1 / 2 ^ 52] : List ℚ), IsDouble x) ∧
    (1 : ℚ) ≤ 1 + 1 / 2 ^ 52 ∧
    div64 (fin (3 + 1 / 2 ^ 50)) (fin (3 + 1 / 2 ^ 51)) = fin (1 + 1 / 2 ^ 52) ∧
    F64.path_forward [3 + 1 / 2 ^ 50, 3 + 1 / 2 ^ 51] =
      .ok ⟨[fin 1, nan, pinf],
        [fin (1501199875790165 / 2 ^ 52), nan, nan],
        [fin (1501199875790165 / 2 ^ 52), fin (1501199875790165 / 2 ^ 52), pinf]⟩ ∧
    F64.ml_solver 0 [3 + 1 / 2 ^ 50, 3 + 1 / 2 ^ 51] [1 + 1 / 2 ^ 52] "forward" =
      .ok ⟨[[nan, nan]], [nan], [0]⟩ ∧
    le nan nan = false := by
  refine ⟨by decide!, by decide!, by norm_num, by decide!, by decide!, by decide!, rfl⟩

/-- Claim C31 in exact arithmetic: for every non-increasing spectrum `L` and every target `k ≥ 1`, whatever
`ml_solver(L, [k], "forward")` returns holds one clamped row of `p` finite entries, and
the row is non-increasing: every entry is at least every later one.  On a non-empty
spectrum the call returns. -/
theorem ml_solver_clamp_preserves_order (fuel : Nat) (L : List ℚ) (k : ℚ)
    (hs : L.Pairwise (fun a b => b ≤ a)) (hk : 1 ≤ k) :
    (∀ res : MLSolverResult, ml_solver fuel L [k] "forward" = .ok res →
      ∃ qs : List ℚ, res.Lbar = [qs.map fin] ∧ qs.length = L.length ∧
        qs.Pairwise (fun a b => b ≤ a) ∧
        ∀ row ∈ res.Lbar, row.Pairwise (fun a b => le b a = true)) ∧
    (L ≠ [] → ∃ res : MLSolverResult, ml_solver fuel L [k] "forward" = .ok res) := by
  constructor
  · intro res h
    have hne : L ≠ [] := by
      rintro rfl
      revert h
      unfold ml_solver
      simp [rd, floorEps, bind, Except.bind]
    obtain ⟨l0, lp, path, h0, hp, p0, pp, hpath, hml⟩ := ml_solver_forward_total fuel L [k] hne
    rw [hml] at h
    cases h
    have hLs := floorEps_sorted L hs
    have hpos := floorEps_pos L
    have hL := floorEps_length L
    have key : ∃ qs : List ℚ, (targetResult (floorEps L) l0 lp path k).1 = qs.map fin ∧
        qs.length = L.length ∧ qs.Pairwise (fun a b => b ≤ a) := by
      unfold targetResult
      rw [fin_div _ _ (ne_of_gt pp)]
      simp only [le_fin, lt_fin, decide_eq_true_eq]
      by_cases hc : k ≤ l0 / lp
      · rw [if_pos hc]
        have g0 : (floorEps L)[0]? = some l0 := ((rd_ok_iff _ _ _).mp h0).2
        have gp : (floorEps L)[L.length - 1]? = some lp := by
          have := ((rd_ok_iff _ _ _).mp hp).2
          have e : ((L.length : Int) - 1).toNat = L.length - 1 := by omega
          rw [e] at this
          exact this
        obtain ⟨u, hu, pu⟩ := forward_bound_pos L hs l0 lp g0 gp path hpath k hc
        rw [hu]
        obtain ⟨qs, e1, e2, e3⟩ := clampRow_sorted (floorEps L) hpos hLs k u hk pu
        exact ⟨qs, e1, by rw [e2, hL], e3⟩
      · rw [if_neg hc, if_pos (not_le.mp hc)]
        exact ⟨floorEps L, rfl, hL, hLs⟩
    obtain ⟨qs, e1, e2, e3⟩ := key
    refine ⟨qs, ?_, e2, e3, ?_⟩
    · simp only [targetResults, List.map_cons, List.map_nil, e1]
    · intro row hrow
      simp only [targetResults, List.map_cons, List.map_nil, List.mem_singleton] at hrow
      rw [hrow, e1]
      exact pairwise_fin qs e3
  · intro hne
    obtain ⟨_, _, _, _, _, _, _, _, h⟩ := ml_solver_forward_total fuel L [k] hne
    exact ⟨_, h⟩

/-- Claim C31 in exact arithmetic, at the spectrum `[3, 2, 1]` with target `k = 2`, whose clamped row
is `[3, 2, 3/2]`, and the row for `k = 2` on the spectrum of the tests. -/
theorem ml_solver_clamp_preserves_order_witness :
    (([3, 2, 1] : List ℚ).Pairwise (fun a b => b ≤ a) ∧ (1 : ℚ) ≤ 2) ∧
    ((∀ res : MLSolverResult, ml_solver 0 [3, 2, 1] [2] "forward" = .ok res →
      ∃ qs : List ℚ, res.Lbar = [qs.map fin] ∧ qs.length = ([3, 2, 1] : List ℚ).length ∧
        qs.Pairwise (fun a b => b ≤ a) ∧
        ∀ row ∈ res.Lbar, row.Pairwise (fun a b => le b a = true)) ∧
      (([3, 2, 1] : List ℚ) ≠ [] →
        ∃ res : MLSolverResult, ml_solver 0 [3, 2, 1] [2] "forward" = .ok res)) ∧
    ml_solver 0 [3, 2, 1] [2] "forward" =
      .ok ⟨[[fin 3, fin 2, fin (3 / 2)]], [fin (1 / 3)], [0]⟩ ∧
    ml_solver 0 testSpectrum [2] "forward" =
      .ok ⟨[[fin (68384965 / 1661562), fin (68384965 / 1661562), fin (100 / 3), fin 25,
        fin (68384965 / 3323124), fin (68384965 / 3323124), fin (68384965 / 3323124),
        fin (68384965 / 3323124), fin (68384965 / 3323124), fin (68384965 / 3323124)]],
        [fin (1661562 / 68384965)], [0]⟩ :=
  ⟨⟨by decide!, by norm_num⟩,
    ml_solver_clamp_preserves_order 0 [3, 2, 1] 2 (by decide!) (by norm_num),
    by decide!, by decide!⟩

/-- Claim C32 fails on the code: `[3 + 2^-50, 3]` is a strictly decreasing spectrum of
two doubles, both above machine epsilon, on which the double `1/mean(L)` equals the
double `1/L[0]`.  The start search of `path_forward` stops at `alpha = 0`, so
`slope_num` is the empty sum `0`; the loop condition holds (`alpha = 0 >= 0`,
`beta = 1 <= r - 1`), and the first statement of the pass divides by `slope_num`:
`slope_denom * (v_new - v_cur) / slope_num` is `inf`.  The pass is the only one, and the
path has three vertices. -/
theorem path_forward_zero_divisor :
    List.Pairwise (fun a b : ℚ => b < a) [3 + 1 / 2 ^ 50, 3] ∧
    (∀ x ∈ ([3 + 1 / 2 ^ 50, 3] : List ℚ), eps ≤ x ∧ IsDouble x) ∧
    div64 (fin 1) (F64.mean [3 + 1 / 2 ^ 50, 3]) = div64 (fin 1) (fin (3 + 1 / 2 ^ 50)) ∧
    F64.fwdStart [3 + 1 / 2 ^ 50, 3] =
      .ok { alpha := 0, beta := 1, slope_num := fin 0, slope_denom := fin 3,
            u_cur := fin (1501199875790165 / 2 ^ 52), v_cur := fin (1501199875790165 / 2 ^ 52),
            u_vec := [fin (1501199875790165 / 2 ^ 52)],
            v_vec := [fin (1501199875790165 / 2 ^ 52)], kmax_vec := [fin 1] } ∧
    ((0 : Int) ≤ 0 ∧
      (1 : Int) ≤ (([3 + 1 / 2 ^ 50, 3] : List ℚ).length : Int) -
        (numzero [3 + 1 / 2 ^ 50, 3] : Int) - 1) ∧
    div64 (mul64 (fin 3) (sub64 (div64 (fin 1) (fin 3)) (fin (1501199875790165 / 2 ^ 52))))
      (fin 0) = pinf ∧
    F64.path_forward [3 + 1 / 2 ^ 50, 3] =
      .ok ⟨[fin 1, fin 1, pinf],
        [fin (1501199875790165 / 2 ^ 52), fin (1501199875790165 / 2 ^ 52),
          fin (1501199875790165 / 2 ^ 52)],
        [fin (1501199875790165 / 2 ^ 52), fin (1501199875790165 / 2 ^ 52), pinf]⟩ := by
  refine ⟨by decide!, by decide!, by decide!, by decide!, by decide!, by decide!, by decide!⟩

/-- Claim C32 in exact arithmetic: on every strictly decreasing spectrum of `p ≥ 2` entries, all at least machine
epsilon, `path_forward` returns, so no read of the spectrum falls outside `0 .. p-1`, and:
the mean is positive; the start search stops at an index `0 ≤ alpha ≤ p - 1`, every
entry it reads being positive; at every loop state at which the body runs (`alpha ≥ 0`
and `beta ≤ r - 1`) both `alpha` and `beta` lie in `0 .. p-1`, the entries `L[alpha]`
and `L[beta]` are positive, `slope_num` and `slope_denom` are finite and positive, and
the new `u`, the divisor of the recorded `k`, is positive; the last loop state, from
which the path is built, is the one at which the loop condition fails. -/
theorem path_forward_reads_and_divisors (L : List ℚ) (hs : L.Pairwise (fun a b => b < a))
    (hp : 2 ≤ L.length) (he : ∀ x ∈ L, eps ≤ x) :
    floorEps L = L ∧
    (∃ m : ℚ, mean (floorEps L) = fin m ∧ 0 < m) ∧
    (∃ s0 : FwdState, fwdStart L = .ok s0 ∧ 0 ≤ s0.alpha ∧ s0.alpha ≤ (L.length : Int) - 1 ∧
      s0.beta = s0.alpha + 1 ∧
      ∀ i : Int, 0 ≤ i → i ≤ s0.alpha → ∃ x : ℚ, rd (floorEps L) i = .ok x ∧ 0 < x) ∧
    (∀ s ∈ forwardStates L,
      0 ≤ s.alpha → s.beta ≤ (L.length : Int) - (numzero L : Int) - 1 →
      s.alpha ≤ (L.length : Int) - 1 ∧ 0 ≤ s.beta ∧ s.beta ≤ (L.length : Int) - 1 ∧
      ∃ la lb sn sd : ℚ, rd (floorEps L) s.alpha = .ok la ∧ rd (floorEps L) s.beta = .ok lb ∧
        s.slope_num = fin sn ∧ s.slope_denom = fin sd ∧
        0 < la ∧ 0 < lb ∧ 0 < sn ∧ 0 < sd ∧
        ∃ (s1 : FwdState) (un : ℚ), fwdBody (floorEps L) s = .ok s1 ∧ s1.u_cur = fin un ∧
          0 < un) ∧
    ∃ (path : PathResult) (sN : FwdState), path_forward L = .ok path ∧
      (forwardStates L).getLast? = some sN ∧ path.k = sN.kmax_vec ++ [pinf] ∧
      ¬ (0 ≤ sN.alpha ∧ sN.beta ≤ (L.length : Int) - (numzero L : Int) - 1) := by
  have hne : L ≠ [] := by
    rintro rfl
    simp at hp
  have hpos : ∀ x ∈ L, 0 < x := fun x hx => lt_of_lt_of_le eps_pos (he x hx)
  have hfl := floorEps_of_ge L he
  obtain ⟨l0, h0⟩ : ∃ l0, L[0]? = some l0 := ⟨L[0], List.getElem?_eq_getElem (by omega)⟩
  obtain ⟨a0, c, hc, hfact, hstart, _, hall⟩ := forwardStates_good L hne l0
    (by rw [hfl]; exact h0) (by rw [hfl]; exact sum_lt_of_strict L hs hp l0 h0)
  have ha0 : 0 ≤ a0 := ((rd_ok_iff _ _ _).mp hc).1
  have ha1 : a0 < (L.length : Int) := by
    have := (rd_lt_length _ _ _ hc)
    rw [floorEps_length] at this
    exact this.2
  refine ⟨hfl, ?_, ?_, ?_, ?_⟩
  · exact ⟨_, mean_eq _ (floorEps_ne_nil L hne),
      (inv_mean_eq _ (floorEps_ne_nil L hne) (floorEps_pos L)).2⟩
  · refine ⟨_, hstart, ha0, by show a0 ≤ _; omega, rfl, ?_⟩
    intro i hi0 hi1
    have hi1 : i ≤ a0 := hi1
    obtain ⟨x, hx⟩ := rd_in_range (floorEps L) i hi0 (by rw [floorEps_length]; omega)
    exact ⟨x, hx, floorEps_pos L _ (rd_ok_mem _ _ _ hx)⟩
  · intro s hmem hal hbe
    obtain ⟨hr, hg, hb0⟩ := hall s hmem
    rw [hfl] at hr hg hc ⊢
    have hb : s.beta < (L.length : Int) := by
      have := numzero_le L; omega
    obtain ⟨lb, la, hlb, hla, plb, pla, hbody, _, _⟩ := fwdBody_ok L hpos s hr hal hb
    obtain ⟨sn, sd, u, v, e1, e2, e3, e4, hsn, hsd, _⟩ := hg
    obtain ⟨r1, r2, r3, r4⟩ := hr
    have glb := ((rd_ok_iff _ _ _).mp hlb).2
    have psn : 0 < sn := by
      have := head_le_take_sum L hpos l0 h0 (s.alpha + 1).toNat (by omega)
      have := hfact (by omega)
      linarith
    have psd : 0 < sd := by
      rw [hsd, drop_sum L _ lb glb]
      have : 0 ≤ (L.drop (s.beta.toNat + 1)).sum :=
        sum_nonneg_of_pos _ (fun x hx => hpos x (List.mem_of_mem_drop hx))
      linarith
    obtain ⟨un, vn, f1, _, _, f4, _⟩ :=
      fwdStep_geom lb la sn sd u v pla plb (ne_of_gt psn) (ne_of_gt psd) s e1 e2 e3 e4
    refine ⟨by omega, r3, by omega, la, lb, sn, sd, hla, hlb, e1, e2, pla, plb, psn, psd,
      _, un, hbody, f1, ?_⟩
    exact lt_of_lt_of_le (by positivity) f4
  · obtain ⟨path, _, _, _, h, _⟩ := path_forward_total L hne
    obtain ⟨sN, i1, i2, _⟩ := forwardStates_last L path h
    refine ⟨path, sN, h, i1, i2, ?_⟩
    have h2 := h
    rw [path_forward_eq] at h2
    simp only [except_bind_eq_ok] at h2
    obtain ⟨s0, e0, sM, hl, e⟩ := h2
    have hex := fwdLoop_exit _ _ _ _ _ hl
    obtain ⟨j1, _⟩ := fwdStates_last _ _ _ _ _ hl
    have : (forwardStates L).getLast? = some sM := by
      unfold forwardStates
      rw [e0]
      exact j1
    rw [i1] at this
    cases this
    exact hex

/-- Claim C32 in exact arithmetic, at the spectrum `[3, 2, 1]`: the loop runs twice, from the states
`(alpha, beta, slope_num, slope_denom) = (1, 2, 3, 1)` and `(0, 2, 1, 1)`, and is left
at `(-1, 2, -2, 1)`, a state whose values are no longer read or divided by. -/
theorem path_forward_reads_and_divisors_witness :
    (([3, 2, 1] : List ℚ).Pairwise (fun a b => b < a) ∧ 2 ≤ ([3, 2, 1] : List ℚ).length ∧
      (∀ x ∈ ([3, 2, 1] : List ℚ), eps ≤ x)) ∧
    (floorEps [3, 2, 1] = [3, 2, 1] ∧
    (∃ m : ℚ, mean (floorEps [3, 2, 1]) = fin m ∧ 0 < m) ∧
    (∃ s0 : FwdState, fwdStart [3, 2, 1] = .ok s0 ∧ 0 ≤ s0.alpha ∧
      s0.alpha ≤ (([3, 2, 1] : List ℚ).length : Int) - 1 ∧
      s0.beta = s0.alpha + 1 ∧
      ∀ i : Int, 0 ≤ i → i ≤ s0.alpha →
        ∃ x : ℚ, rd (floorEps [3, 2, 1]) i = .ok x ∧ 0 < x) ∧
    (∀ s ∈ forwardStates [3, 2, 1],
      0 ≤ s.alpha →
      s.beta ≤ (([3, 2, 1] : List ℚ).length : Int) - (numzero [3, 2, 1] : Int) - 1 →
      s.alpha ≤ (([3, 2, 1] : List ℚ).length : Int) - 1 ∧ 0 ≤ s.beta ∧
      s.beta ≤ (([3, 2, 1] : List ℚ).length : Int) - 1 ∧
      ∃ la lb sn sd : ℚ, rd (floorEps [3, 2, 1]) s.alpha = .ok la ∧
        rd (floorEps [3, 2, 1]) s.beta = .ok lb ∧
        s.slope_num = fin sn ∧ s.slope_denom = fin sd ∧
        0 < la ∧ 0 < lb ∧ 0 < sn ∧ 0 < sd ∧
        ∃ (s1 : FwdState) (un : ℚ), fwdBody (floorEps [3, 2, 1]) s = .ok s1 ∧
          s1.u_cur = fin un ∧ 0 < un) ∧
    ∃ (path : PathResult) (sN : FwdState), path_forward [3, 2, 1] = .ok path ∧
      (forwardStates [3, 2, 1]).getLast? = some sN ∧ path.k = sN.kmax_vec ++ [pinf] ∧
      ¬ (0 ≤ sN.alpha ∧
        sN.beta ≤ (([3, 2, 1] : List ℚ).length : Int) - (numzero [3, 2, 1] : Int) - 1)) ∧
    (forwardStates [3, 2, 1]).map (fun s => (s.alpha, s.beta, s.slope_num, s.slope_denom)) =
      [(1, 2, fin 3, fin 1), (0, 2, fin 1, fin 1), (-1, 2, fin (-2), fin 1)] :=
  ⟨⟨by decide!, by decide, by decide!⟩,
    path_forward_reads_and_divisors [3, 2, 1] (by decide!) (by decide) (by decide!),
    by decide!⟩

end CondReg
